import Mathlib

set_option maxHeartbeats 1000000
set_option maxRecDepth 10000

/-!
Verification development for the SchemaCanvas core pipeline
(normalizer, denormalizer, validator, generation guard, SQL renderer,
ORM renderer).  The TypeScript sources are embedded shallowly:

* JavaScript objects and `Map`s become insertion-ordered association
  lists (`StrMap`): `setk` overwrites in place (like `obj[k] = v` /
  `Map.set`), `getk` finds the first binding, iteration is list order.
  Real JavaScript objects never hold duplicate keys, so theorems that
  quantify over canonical schemas carry a `WFSchema` hypothesis stating
  key uniqueness.
* JavaScript string falsiness (`""` and `undefined` are falsy) is made
  explicit through `truthyStr`.
* `crypto.randomUUID()` in the denormalizer becomes an arbitrary
  injective supply `uuid : Nat → String` of fresh non-empty identifiers,
  threaded through a call counter.
* Thrown exceptions become `Except String` results.
-/

/-- Association list modelling a JavaScript object or `Map`:
insertion-ordered keys; setting an existing key overwrites in place. -/
abbrev StrMap (α : Type) := List (String × α)

/-- Lookup, i.e. `obj[k]` / `map.get(k)`. -/
def getk {α : Type} : StrMap α → String → Option α
  | [], _ => none
  | (k, v) :: rest, key => if k = key then some v else getk rest key

/-- Update, i.e. `obj[k] = v` / `map.set(k, v)`: overwrite in place if the
key is present, append otherwise. -/
def setk {α : Type} : StrMap α → String → α → StrMap α
  | [], key, val => [(key, val)]
  | (k, v) :: rest, key, val =>
      if k = key then (k, val) :: rest else (k, v) :: setk rest key val

/-- `Object.keys`. -/
def keysOf {α : Type} (m : StrMap α) : List String := m.map (fun e => e.1)

/-- `Object.values`. -/
def valuesOf {α : Type} (m : StrMap α) : List α := m.map (fun e => e.2)

/-- JavaScript string truthiness: `undefined` and `""` are falsy. -/
def truthyStr : Option String → Option String
  | some s => if s = "" then none else some s
  | none => none

/-- `s.toLowerCase()` (ASCII, which covers every identifier the rules
care about). -/
def toLowerStr (s : String) : String := String.mk (s.data.map Char.toLower)

/-- `s.toUpperCase()` (ASCII). -/
def toUpperStr (s : String) : String := String.mk (s.data.map Char.toUpper)

/-- `s.trim().length === 0`. -/
def trimEmpty (s : String) : Bool := s.data.all Char.isWhitespace

/-- `s.includes(pat)`. -/
def containsSub (s pat : String) : Bool := decide (pat.data <:+: s.data)

/-- `s.endsWith(suf)`. -/
def strEndsWith (s suf : String) : Bool := suf.data.isSuffixOf s.data

/-- `s.slice(0, -n)`. -/
def dropRightStr (s : String) (n : Nat) : String :=
  String.mk (s.data.take (s.data.length - n))

/-- Character-level worker for `s.split(sep)` (single-character
separator, as in `name.split(hyphen)` style calls). -/
def splitCharAux (sep : Char) : List Char → List (List Char)
  | [] => [[]]
  | c :: rest =>
      let r := splitCharAux sep rest
      if c = sep then [] :: r
      else
        match r with
        | [] => [[c]]
        | h :: t => (c :: h) :: t

/-- `s.split(sep)` for a single-character separator. -/
def splitChar (sep : Char) (s : String) : List String :=
  (splitCharAux sep s.data).map String.mk

/-- `arr.join(sep)` for a single-character separator. -/
def joinChar (sep : Char) : List String → String
  | [] => ""
  | [w] => w
  | w :: rest => w ++ String.singleton sep ++ joinChar sep rest

/-- The single-quote character, kept out of string literals. -/
def sqStr : String := String.singleton (Char.ofNat 39)

/-! ## Data model (src/store/schemaStore.ts and src/unnamed/part_002) -/

/-- Kind tag of a column default (`autoincrement | uuid | now | value`). -/
inductive DefaultKind where
  | autoincrement
  | uuid
  | now
  | value
deriving DecidableEq, Repr

/-- `{ kind, value? }` default metadata attached to a column. -/
structure ColumnDefault where
  kind : DefaultKind
  value : Option String
deriving DecidableEq, Repr

/-- Editor-graph column (`Column` in src/store/schemaStore.ts). -/
structure Column where
  id : String
  name : String
  type : String
  primaryKey : Bool
  nullable : Bool
  unique : Bool
  default : Option ColumnDefault
deriving DecidableEq, Repr

/-- Editor-graph table (`Table` in src/store/schemaStore.ts). -/
structure Table where
  id : String
  name : String
  columns : List Column
deriving DecidableEq, Repr

/-- Editor-graph relation edge (`Relation` in src/store/schemaStore.ts);
`from` is the primary-key side, `to` the foreign-key side. -/
structure Relation where
  id : String
  fromTableId : String
  fromColumnId : String
  toTableId : String
  toColumnId : String
deriving DecidableEq, Repr

/-- Foreign-key metadata `{ table, column }` naming the referenced
(primary-key side) table and column. -/
structure ForeignKeyRef where
  table : String
  column : String
deriving DecidableEq, Repr

/-- `NormalizedColumn` of src/unnamed/part_002. -/
structure NormalizedColumn where
  name : String
  type : String
  primaryKey : Bool
  nullable : Bool
  unique : Bool
  foreignKey : Option ForeignKeyRef
  default : Option ColumnDefault
deriving DecidableEq, Repr

/-- `NormalizedTable` of src/unnamed/part_002: columns keyed by name. -/
structure NormalizedTable where
  name : String
  columns : StrMap NormalizedColumn
deriving DecidableEq, Repr

/-- A canvas position `{ x, y }` (numeric coordinates; their arithmetic
is never used by the pipeline, so integers suffice). -/
structure Pos where
  x : Int
  y : Int
deriving DecidableEq, Repr

/-- `NormalizedSchema` of src/unnamed/part_002: tables keyed by name. -/
structure NormalizedSchema where
  tables : StrMap NormalizedTable
  positions : Option (StrMap Pos)
deriving DecidableEq, Repr

/-- Well-formedness of a canonical schema as a JavaScript value: object
keys are unique at both levels.  Every schema produced by the real code
satisfies this by construction. -/
def WFSchema (s : NormalizedSchema) : Prop :=
  (keysOf s.tables).Nodup ∧ ∀ e ∈ s.tables, (keysOf e.2.columns).Nodup

instance (s : NormalizedSchema) : Decidable (WFSchema s) := by
  unfold WFSchema; infer_instance

/-! ## Normalizer (normalizeSchema, src/unnamed/part_002 lines 66-167) -/

namespace SchemaNormalizer

/-- The composite key "tableId::columnId" used by the normalizer's
column lookup and foreign-key maps. -/
def colKey (tableId columnId : String) : String := tableId ++ "::" ++ columnId

/-- Value stored in the column-name lookup map. -/
structure ColumnNameInfo where
  tableId : String
  columnName : String
deriving DecidableEq, Repr

/-- Build the tableId → tableName lookup map. -/
def buildTableNameMap (tables : List Table) : StrMap String :=
  tables.foldl (fun m t => setk m t.id t.name) []

/-- Build the "tableId::columnId" → column-info lookup map. -/
def buildColumnNameMap (tables : List Table) : StrMap ColumnNameInfo :=
  tables.foldl
    (fun m t =>
      t.columns.foldl (fun m2 c => setk m2 (colKey t.id c.id) ⟨t.id, c.name⟩) m)
    []

/-- Resolve one relation's endpoints through the lookup maps; `none`
when any endpoint is missing or a table name is falsy (the relation is
then skipped as orphaned), otherwise the foreign-key metadata derived
from the source (primary-key) side. -/
def relFK (tnm : StrMap String) (cnm : StrMap ColumnNameInfo) (r : Relation) :
    Option ForeignKeyRef :=
  match truthyStr (getk tnm r.fromTableId),
        getk cnm (colKey r.fromTableId r.fromColumnId),
        truthyStr (getk tnm r.toTableId),
        getk cnm (colKey r.toTableId r.toColumnId) with
  | some srcTable, some srcInfo, some _, some _ => some ⟨srcTable, srcInfo.columnName⟩
  | _, _, _, _ => none

/-- Build the FK metadata map keyed by "toTableId::toColumnId"; later
relations overwrite earlier ones targeting the same key. -/
def buildForeignKeyMap (tnm : StrMap String) (cnm : StrMap ColumnNameInfo)
    (relations : List Relation) : StrMap ForeignKeyRef :=
  relations.foldl
    (fun m r =>
      match relFK tnm cnm r with
      | some fk => setk m (colKey r.toTableId r.toColumnId) fk
      | none => m)
    []

/-- Canonical form of one editor column: flags and default carried over
verbatim, FK metadata merged in when the FK map has this column's key. -/
def normalizeColumn (fkm : StrMap ForeignKeyRef) (tableId : String) (c : Column) :
    NormalizedColumn :=
  { name := c.name, type := c.type, primaryKey := c.primaryKey,
    nullable := c.nullable, unique := c.unique,
    foreignKey := getk fkm (colKey tableId c.id), default := c.default }

/-- `normalizeSchema(tables, relations, positions?)`. -/
def normalizeSchema (tables : List Table) (relations : List Relation)
    (positions : Option (StrMap Pos)) : NormalizedSchema :=
  let tnm := buildTableNameMap tables
  let cnm := buildColumnNameMap tables
  let fkm := buildForeignKeyMap tnm cnm relations
  let normalizedTables :=
    tables.foldl
      (fun acc t =>
        setk acc t.name
          { name := t.name,
            columns :=
              t.columns.foldl
                (fun cols c => setk cols c.name (normalizeColumn fkm t.id c)) [] })
      []
  let posOut :=
    match positions with
    | none => none
    | some ps =>
        if ps.length = 0 then none
        else
          let byName :=
            ps.foldl
              (fun acc e =>
                match truthyStr (getk tnm e.1) with
                | some tn => setk acc tn e.2
                | none => acc) []
          if byName.length = 0 then none else some byName
  { tables := normalizedTables, positions := posOut }

end SchemaNormalizer

/-! ## Denormalizer (denormalizeSchema, src/lib/schemaDenormalizer.ts) -/

/-- The editor-state triple returned by the denormalizer. -/
structure EditorGraph where
  tables : List Table
  relations : List Relation
  positions : Option (StrMap Pos)
deriving Repr

namespace SchemaDenormalizer

/-- Per-table bookkeeping: the fresh table id plus name → fresh id map
for its columns. -/
structure TableInfo where
  tableId : String
  columnMap : StrMap String
deriving DecidableEq, Repr

/-- Step 1 inner loop: fresh ids for the columns of one table. -/
def denormColumnsLoop (uuid : Nat → String) :
    List (String × NormalizedColumn) → List Column → StrMap String → Nat →
    List Column × StrMap String × Nat
  | [], cols, cmap, n => (cols, cmap, n)
  | (cname, c) :: rest, cols, cmap, n =>
      let columnId := uuid n
      let newColumn : Column :=
        { id := columnId, name := c.name, type := c.type, primaryKey := c.primaryKey,
          nullable := c.nullable, unique := c.unique, default := c.default }
      denormColumnsLoop uuid rest (cols ++ [newColumn]) (setk cmap cname columnId) (n + 1)

/-- Step 1 outer loop: fresh ids for tables, building the editor tables
and the tableName → TableInfo map. -/
def denormTablesLoop (uuid : Nat → String) :
    List (String × NormalizedTable) → List Table → StrMap TableInfo → Nat →
    List Table × StrMap TableInfo × Nat
  | [], tables, tmap, n => (tables, tmap, n)
  | (tname, t) :: rest, tables, tmap, n =>
      let tableId := uuid n
      let res := denormColumnsLoop uuid t.columns [] [] (n + 1)
      denormTablesLoop uuid rest
        (tables ++ [{ id := tableId, name := t.name, columns := res.1 }])
        (setk tmap tname ⟨tableId, res.2.1⟩) res.2.2

/-- Step 2 inner loop: synthesize one relation per FK-carrying column of
one table (skipping silently when lookups fail or ids are falsy). -/
def denormRelLoopCols (uuid : Nat → String) (tmap : StrMap TableInfo)
    (fkInfo : TableInfo) :
    List (String × NormalizedColumn) → List Relation → Nat → List Relation × Nat
  | [], rels, n => (rels, n)
  | (cname, c) :: rest, rels, n =>
      match c.foreignKey with
      | none => denormRelLoopCols uuid tmap fkInfo rest rels n
      | some fk =>
          match getk tmap fk.table with
          | none => denormRelLoopCols uuid tmap fkInfo rest rels n
          | some pkInfo =>
              match truthyStr (getk fkInfo.columnMap cname),
                    truthyStr (getk pkInfo.columnMap fk.column) with
              | some fkColumnId, some pkColumnId =>
                  let rel : Relation :=
                    { id := uuid n, fromTableId := pkInfo.tableId,
                      fromColumnId := pkColumnId, toTableId := fkInfo.tableId,
                      toColumnId := fkColumnId }
                  denormRelLoopCols uuid tmap fkInfo rest (rels ++ [rel]) (n + 1)
              | _, _ => denormRelLoopCols uuid tmap fkInfo rest rels n

/-- Step 2 outer loop over the canonical tables. -/
def denormRelLoop (uuid : Nat → String) (tmap : StrMap TableInfo) :
    List (String × NormalizedTable) → List Relation → Nat → List Relation × Nat
  | [], rels, n => (rels, n)
  | (tname, t) :: rest, rels, n =>
      match getk tmap tname with
      | none => denormRelLoop uuid tmap rest rels n
      | some fkInfo =>
          let res := denormRelLoopCols uuid tmap fkInfo t.columns rels n
          denormRelLoop uuid tmap rest res.1 res.2

/-- `denormalizeSchema(schema)`; `uuid` models `crypto.randomUUID()` as
an arbitrary injective supply of fresh non-empty identifiers. -/
def denormalizeSchema (uuid : Nat → String) (schema : NormalizedSchema) : EditorGraph :=
  let step1 := denormTablesLoop uuid schema.tables [] [] 0
  let step2 := denormRelLoop uuid step1.2.1 schema.tables [] step1.2.2
  let positions :=
    match schema.positions with
    | none => none
    | some ps =>
        let byId :=
          ps.foldl
            (fun acc e =>
              match getk step1.2.1 e.1 with
              | some info => setk acc info.tableId e.2
              | none => acc) []
        if byId.length = 0 then none else some byId
  { tables := step1.1, relations := step2.1, positions := positions }

end SchemaDenormalizer

/-! ## Validator (src/lib/schemaValidator.ts) -/

/-- Validation error record `{ code, message, table?, column? }`. -/
structure ValidationError where
  code : String
  message : String
  table : Option String
  column : Option String
deriving DecidableEq, Repr

/-- Validation result `{ valid, errors }`. -/
structure ValidationResult where
  valid : Bool
  errors : List ValidationError
deriving DecidableEq, Repr

namespace SchemaValidator

/-- The fixed reserved-keyword list. -/
def RESERVED_KEYWORDS : List String :=
  ["user", "order", "select", "table", "group", "where", "index"]

/-- One character of the regex body class [a-z0-9_]. -/
def snakeBodyChar (c : Char) : Bool := c.isLower || c.isDigit || c = '_'

/-- The test performed by the snake-case regular expression. -/
def snakeCaseRegex (name : String) : Bool :=
  match name.data with
  | [] => false
  | c :: rest =>
      (c.isLower && rest.all snakeBodyChar) ||
      (c = '_' && !rest.isEmpty && rest.all snakeBodyChar)

/-- `isSnakeCase(name)`. -/
def isSnakeCase (name : String) : Bool :=
  if name = "" || trimEmpty name then false
  else if !snakeCaseRegex name then false
  else if containsSub name "__" then false
  else true

/-- `isReservedKeyword(name)`. -/
def isReservedKeyword (name : String) : Bool :=
  RESERVED_KEYWORDS.contains (toLowerStr name)

/-- Table-rule loop, threading the set of already-seen lowercased
table names. -/
def validateTablesAux : List (String × NormalizedTable) → List String → List ValidationError
  | [], _ => []
  | (tableName, t) :: rest, seen =>
      let e1 : List ValidationError :=
        if t.name = "" || trimEmpty t.name then
          [⟨"TABLE_EMPTY_NAME", "Table name cannot be empty", some tableName, none⟩]
        else []
      let e2 : List ValidationError :=
        if (t.name != "") && !isSnakeCase t.name then
          [⟨"TABLE_NOT_SNAKE_CASE",
            "Table name " ++ sqStr ++ t.name ++ sqStr ++
              " must be in snake_case (lowercase letters, numbers, underscores only)",
            some tableName, none⟩]
        else []
      let e3 : List ValidationError :=
        if (t.name != "") && isReservedKeyword t.name then
          let suggestion := if strEndsWith t.name "s" then t.name else t.name ++ "s"
          [⟨"TABLE_RESERVED_KEYWORD",
            "Table name " ++ sqStr ++ t.name ++ sqStr ++ " is a reserved keyword. Use " ++
              sqStr ++ suggestion ++ sqStr ++ " instead.",
            some tableName, none⟩]
        else []
      let e4 : List ValidationError :=
        if (t.name != "") && seen.contains (toLowerStr t.name) then
          [⟨"TABLE_DUPLICATE", "Duplicate table name " ++ sqStr ++ t.name ++ sqStr,
            some tableName, none⟩]
        else []
      let seen2 := if t.name != "" then seen ++ [toLowerStr t.name] else seen
      let e5 : List ValidationError :=
        if t.columns.isEmpty then
          [⟨"TABLE_NO_COLUMNS",
            "Table " ++ sqStr ++ t.name ++ sqStr ++ " must have at least one column",
            some tableName, none⟩]
        else []
      e1 ++ e2 ++ e3 ++ e4 ++ e5 ++ validateTablesAux rest seen2

/-- `validateTables(schema)` (errors returned rather than pushed). -/
def validateTables (schema : NormalizedSchema) : List ValidationError :=
  validateTablesAux schema.tables []

/-- Column-rule loop over one table's columns, threading the seen set
and collecting the primary-key column keys. -/
def validateColumnsCols (tableName tName : String) :
    List (String × NormalizedColumn) → List String → List ValidationError × List String
  | [], _ => ([], [])
  | (columnName, c) :: rest, seen =>
      let e1 : List ValidationError :=
        if c.name = "" || trimEmpty c.name then
          [⟨"COLUMN_EMPTY_NAME", "Column name cannot be empty", some tableName, some columnName⟩]
        else []
      let e2 : List ValidationError :=
        if (c.name != "") && !isSnakeCase c.name then
          [⟨"COLUMN_NOT_SNAKE_CASE",
            "Column name " ++ sqStr ++ c.name ++ sqStr ++
              " must be in snake_case (lowercase letters, numbers, underscores only)",
            some tableName, some columnName⟩]
        else []
      let e3 : List ValidationError :=
        if (c.name != "") && seen.contains (toLowerStr c.name) then
          [⟨"COLUMN_DUPLICATE",
            "Duplicate column name " ++ sqStr ++ c.name ++ sqStr ++ " in table " ++
              sqStr ++ tName ++ sqStr,
            some tableName, some columnName⟩]
        else []
      let seen2 := if c.name != "" then seen ++ [toLowerStr c.name] else seen
      let e4 : List ValidationError :=
        if c.type = "" || trimEmpty c.type then
          [⟨"COLUMN_NO_TYPE",
            "Column " ++ sqStr ++ c.name ++ sqStr ++ " in table " ++ sqStr ++ tName ++ sqStr ++
              " must have a datatype",
            some tableName, some columnName⟩]
        else []
      let res := validateColumnsCols tableName tName rest seen2
      (e1 ++ e2 ++ e3 ++ e4 ++ res.1,
       (if c.primaryKey then [columnName] else []) ++ res.2)

/-- Column rules for one table including the multiple-primary-key
errors (one per primary key after the first). -/
def validateColumnsTable (e : String × NormalizedTable) : List ValidationError :=
  let res := validateColumnsCols e.1 e.2.name e.2.columns []
  let pkErrs : List ValidationError :=
    if res.2.length > 1 then
      (res.2.drop 1).map (fun pkColumnName =>
        ⟨"COLUMN_MULTIPLE_PK",
          "Table " ++ sqStr ++ e.2.name ++ sqStr ++
            " has multiple primary keys. Only one primary key allowed per table.",
          some e.1, some pkColumnName⟩)
    else []
  res.1 ++ pkErrs

/-- `validateColumns(schema)`. -/
def validateColumns (schema : NormalizedSchema) : List ValidationError :=
  (schema.tables.map validateColumnsTable).flatten

/-- Foreign-key rules for one column (referenced table exists,
referenced column exists, referenced column is a primary key, declared
types match); existence failures skip the remaining checks. -/
def fkColumnErrors (schema : NormalizedSchema) (tableName tName columnName : String)
    (c : NormalizedColumn) : List ValidationError :=
  match c.foreignKey with
  | none => []
  | some fk =>
      match getk schema.tables fk.table with
      | none =>
          [⟨"FK_TABLE_NOT_FOUND",
            "Column " ++ sqStr ++ c.name ++ sqStr ++ " in table " ++ sqStr ++ tName ++ sqStr ++
              " references non-existent table " ++ sqStr ++ fk.table ++ sqStr,
            some tableName, some columnName⟩]
      | some referencedTable =>
          match getk referencedTable.columns fk.column with
          | none =>
              [⟨"FK_COLUMN_NOT_FOUND",
                "Column " ++ sqStr ++ c.name ++ sqStr ++ " in table " ++ sqStr ++ tName ++
                  sqStr ++ " references non-existent column " ++ sqStr ++ fk.column ++ sqStr ++
                  " in table " ++ sqStr ++ fk.table ++ sqStr,
                some tableName, some columnName⟩]
          | some referencedColumn =>
              (if !referencedColumn.primaryKey then
                [⟨"FK_NOT_PRIMARY_KEY",
                  "Column " ++ sqStr ++ c.name ++ sqStr ++ " in table " ++ sqStr ++ tName ++
                    sqStr ++ " references column " ++ sqStr ++ fk.column ++ sqStr ++ " in " ++
                    sqStr ++ fk.table ++ sqStr ++ ", but " ++ sqStr ++ fk.column ++ sqStr ++
                    " is not a primary key",
                  some tableName, some columnName⟩]
               else []) ++
              (if (c.type != "") && (referencedColumn.type != "") &&
                  (c.type != referencedColumn.type) then
                [⟨"FK_TYPE_MISMATCH",
                  "Column " ++ sqStr ++ c.name ++ sqStr ++ " in table " ++ sqStr ++ tName ++
                    sqStr ++ " has type " ++ sqStr ++ c.type ++ sqStr ++ " but references " ++
                    sqStr ++ fk.table ++ "." ++ fk.column ++ sqStr ++ " with type " ++ sqStr ++
                    referencedColumn.type ++ sqStr,
                  some tableName, some columnName⟩]
               else [])

/-- `validateForeignKeys(schema)` (the advisory validator's pass). -/
def validateForeignKeys (schema : NormalizedSchema) : List ValidationError :=
  (schema.tables.map (fun te =>
    (te.2.columns.map (fun ce => fkColumnErrors schema te.1 te.2.name ce.1 ce.2)).flatten)).flatten

/-- Default-value rules for one table, threading the list of
auto-increment columns seen so far. -/
def validateDefaultsCols (tableName tName : String) :
    List (String × NormalizedColumn) → List String → List ValidationError
  | [], _ => []
  | (columnName, c) :: rest, autoCols =>
      match c.default with
      | none => validateDefaultsCols tableName tName rest autoCols
      | some d =>
          match d.kind with
          | .autoincrement =>
              let e1 : List ValidationError :=
                if !autoCols.isEmpty then
                  [⟨"COLUMN_MULTIPLE_AUTOINCREMENT",
                    "Table " ++ sqStr ++ tName ++ sqStr ++
                      " has multiple auto-increment columns. Only one auto-increment column allowed per table.",
                    some tableName, some columnName⟩]
                else []
              let e2 : List ValidationError :=
                if c.type != "int" then
                  [⟨"COLUMN_AUTOINCREMENT_NOT_INT",
                    "Column " ++ sqStr ++ c.name ++ sqStr ++ " in table " ++ sqStr ++ tName ++
                      sqStr ++ " has auto-increment default but type is " ++ sqStr ++ c.type ++
                      sqStr ++ ". Auto-increment requires int type.",
                    some tableName, some columnName⟩]
                else []
              let e3 : List ValidationError :=
                if !c.primaryKey then
                  [⟨"COLUMN_AUTOINCREMENT_NOT_PK",
                    "Column " ++ sqStr ++ c.name ++ sqStr ++ " in table " ++ sqStr ++ tName ++
                      sqStr ++
                      " has auto-increment default but is not a primary key. Auto-increment requires primary key.",
                    some tableName, some columnName⟩]
                else []
              e1 ++ e2 ++ e3 ++ validateDefaultsCols tableName tName rest (autoCols ++ [columnName])
          | .uuid =>
              (if c.type = "int" then
                [⟨"COLUMN_UUID_ON_INT",
                  "Column " ++ sqStr ++ c.name ++ sqStr ++ " in table " ++ sqStr ++ tName ++
                    sqStr ++
                    " has UUID default but type is " ++ sqStr ++ "int" ++ sqStr ++
                    ". UUID default requires uuid or varchar type.",
                  some tableName, some columnName⟩]
               else []) ++ validateDefaultsCols tableName tName rest autoCols
          | .now =>
              (if c.type != "timestamp" then
                [⟨"COLUMN_NOW_NOT_TIMESTAMP",
                  "Column " ++ sqStr ++ c.name ++ sqStr ++ " in table " ++ sqStr ++ tName ++
                    sqStr ++ " has now() default but type is " ++ sqStr ++ c.type ++ sqStr ++
                    ". now() default requires timestamp type.",
                  some tableName, some columnName⟩]
               else []) ++ validateDefaultsCols tableName tName rest autoCols
          | .value => validateDefaultsCols tableName tName rest autoCols

/-- `validateDefaults(schema)`. -/
def validateDefaults (schema : NormalizedSchema) : List ValidationError :=
  (schema.tables.map (fun te => validateDefaultsCols te.1 te.2.name te.2.columns [])).flatten

/-- `validateSchema(schema)`: run all four rule groups in order and
report validity as emptiness of the concatenated error list.  A total
function: the validator never throws. -/
def validateSchema (schema : NormalizedSchema) : ValidationResult :=
  let errors := validateTables schema ++ validateColumns schema ++
    validateForeignKeys schema ++ validateDefaults schema
  { valid := errors.isEmpty, errors := errors }

end SchemaValidator

/-! ## Generation Guard (src/unnamed/part_001, generatorValidation) -/

namespace GeneratorValidation

/-- The map of primary-key column keys per table built by the guard. -/
def buildPkColumns (schema : NormalizedSchema) : StrMap (List String) :=
  schema.tables.foldl
    (fun m te =>
      setk m te.1 ((te.2.columns.filter (fun ce => ce.2.primaryKey)).map (fun ce => ce.1)))
    []

/-- Violation messages contributed by a single column: check #1
(FK on a primary-key column) and checks #2/#3 (target table/column
exist and target column is a primary key); existence failures skip the
remaining checks for the column. -/
def guardColumnErrors (schema : NormalizedSchema) (pkColumns : StrMap (List String))
    (tableName columnName : String) (c : NormalizedColumn) : List String :=
  let e1 : List String :=
    if c.foreignKey.isSome && c.primaryKey then
      ["CRITICAL: Column " ++ sqStr ++ columnName ++ sqStr ++ " in table " ++ sqStr ++
        tableName ++ sqStr ++
        " is marked as PRIMARY KEY but has foreignKey metadata. Foreign keys can only exist on non-primary key columns."]
    else []
  let e2 : List String :=
    match c.foreignKey with
    | none => []
    | some fk =>
        match getk schema.tables fk.table with
        | none =>
            ["FK ERROR: Column " ++ sqStr ++ columnName ++ sqStr ++ " in table " ++ sqStr ++
              tableName ++ sqStr ++ " references non-existent table " ++ sqStr ++ fk.table ++ sqStr]
        | some refTable =>
            match getk refTable.columns fk.column with
            | none =>
                ["FK ERROR: Column " ++ sqStr ++ columnName ++ sqStr ++ " in table " ++ sqStr ++
                  tableName ++ sqStr ++ " references non-existent column " ++ sqStr ++
                  fk.column ++ sqStr ++ " in table " ++ sqStr ++ fk.table ++ sqStr]
            | some _ =>
                let notPk :=
                  ["FK ERROR: Column " ++ sqStr ++ columnName ++ sqStr ++ " in table " ++
                    sqStr ++ tableName ++ sqStr ++ " references column " ++ sqStr ++
                    fk.column ++ sqStr ++ " in table " ++ sqStr ++ fk.table ++ sqStr ++
                    ", but " ++ sqStr ++ fk.column ++ sqStr ++
                    " is NOT a primary key. Foreign keys must reference primary key columns."]
                match getk pkColumns fk.table with
                | none => notPk
                | some refPks => if refPks.contains fk.column then [] else notPk
  e1 ++ e2

/-- The guard's full violation list over the schema. -/
def validateForeignKeysErrors (schema : NormalizedSchema) : List String :=
  let pkColumns := buildPkColumns schema
  (schema.tables.map (fun te =>
    (te.2.columns.map (fun ce => guardColumnErrors schema pkColumns te.1 ce.1 ce.2)).flatten)).flatten

/-- The single aggregated failure message: a header with the violation
count followed by every violation tagged with its 1-based index. -/
def guardMessage (errors : List String) : String :=
  "Schema validation failed with " ++ toString errors.length ++ " error(s):\n\n" ++
  String.intercalate "\n" (errors.mapIdx (fun i err => toString (i + 1) ++ ". " ++ err))

/-- `validateForeignKeys(schema)`: `.error` models the thrown
`GeneratorValidationError`. -/
def validateForeignKeys (schema : NormalizedSchema) : Except String Unit :=
  let errors := validateForeignKeysErrors schema
  if errors.isEmpty then .ok () else .error (guardMessage errors)

/-- `validateSchemaForGeneration(schema)`. -/
def validateSchemaForGeneration (schema : NormalizedSchema) : Except String Unit :=
  validateForeignKeys schema

end GeneratorValidation

/-! ## SQL renderer (src/lib/sql/postgresGenerator.ts lines 1-152) -/

namespace PostgresGenerator

/-- The fixed schema-type → PostgreSQL type lookup. -/
def typeMap : StrMap String :=
  [("int", "INT"), ("varchar", "VARCHAR"), ("text", "TEXT"), ("boolean", "BOOLEAN"),
   ("timestamp", "TIMESTAMP"), ("uuid", "UUID")]

/-- `mapTypeToPostgres(schemaType)`: lookup, defaulting to the
upper-cased type name. -/
def mapTypeToPostgres (schemaType : String) : String :=
  match truthyStr (getk typeMap (toLowerStr schemaType)) with
  | some t => t
  | none => toUpperStr schemaType

/-- `escapeSQLValue(value)`: double every single quote and wrap in
single quotes. -/
def escapeSQLValue (value : String) : String :=
  let escaped := String.mk (value.data.flatMap
    (fun c => if c = Char.ofNat 39 then [Char.ofNat 39, Char.ofNat 39] else [c]))
  sqStr ++ escaped ++ sqStr

/-- `generateColumnDefinition(column)`: identifier, SERIAL or mapped
type, DEFAULT clause, UNIQUE, NOT NULL (no primary-key marker here; the
table generator appends it). -/
def generateColumnDefinition (column : NormalizedColumn) : String :=
  let parts : List String := [column.name]
  let parts := parts ++
    [if column.default.any (fun d => d.kind = DefaultKind.autoincrement) then "SERIAL"
     else mapTypeToPostgres column.type]
  let parts := parts ++
    (match column.default with
     | none => []
     | some d =>
        match d.kind with
        | .uuid => ["DEFAULT gen_random_uuid()"]
        | .now => ["DEFAULT now()"]
        | .value =>
            match d.value with
            | some v => ["DEFAULT " ++ escapeSQLValue v]
            | none => []
        | .autoincrement => [])
  let parts := parts ++ (if column.unique then ["UNIQUE"] else [])
  let parts := parts ++ (if !column.nullable then ["NOT NULL"] else [])
  String.intercalate " " parts

/-- `Set.add` on an insertion-ordered dependency set. -/
def addOnce (l : List String) (x : String) : List String :=
  if l.contains x then l else l ++ [x]

/-- The dependency set of one table: referenced tables of its FK
columns, in first-seen order. -/
def depsOfTable (t : NormalizedTable) : List String :=
  t.columns.foldl
    (fun acc ce =>
      match ce.2.foreignKey with
      | some fk => addOnce acc fk.table
      | none => acc) []

/-- The table → dependencies map of `orderTables`. -/
def buildDependencies (schema : NormalizedSchema) : StrMap (List String) :=
  schema.tables.foldl (fun m te => setk m te.1 (depsOfTable te.2)) []

/-- The mutable state of the depth-first visit: emitted order plus the
visited and currently-visiting sets. -/
structure VisitState where
  ordered : List String
  visited : List String
  visiting : List String
deriving DecidableEq, Repr

/-- The recursive `visit` of `orderTables`, made total with explicit
fuel; `orderTables` supplies enough fuel for the recursion depth, which
is bounded by the number of tables (`visit_fuel_irrelevant` below shows
the chosen fuel is sufficient). -/
def visit (schema : NormalizedSchema) (deps : StrMap (List String)) :
    Nat → String → VisitState → VisitState
  | 0, _, st => st
  | fuel + 1, tableName, st =>
      if st.visiting.contains tableName then st
      else if st.visited.contains tableName then st
      else
        let st1 : VisitState := { st with visiting := st.visiting ++ [tableName] }
        let ds := (getk deps tableName).getD []
        let st2 := ds.foldl
          (fun s dep =>
            if (getk schema.tables dep).isSome then visit schema deps fuel dep s else s)
          st1
        { ordered := st2.ordered ++ [tableName],
          visited := st2.visited ++ [tableName],
          visiting := st2.visiting.erase tableName }

/-- `orderTables(schema)`: depth-first topological visit over all
tables with a currently-visiting cycle guard. -/
def orderTables (schema : NormalizedSchema) : List String :=
  let deps := buildDependencies schema
  let finalState := (keysOf schema.tables).foldl
    (fun st tableName => visit schema deps (schema.tables.length + 1) tableName st)
    ⟨[], [], []⟩
  finalState.ordered

/-- The clause list of one CREATE TABLE statement: column clauses (with
an inline PRIMARY KEY marker only when the table is not composite-key),
a table-level PRIMARY KEY clause for composite keys, then FOREIGN KEY
clauses for non-primary-key FK columns. -/
def tableClauses (table : NormalizedTable) : List String :=
  let pkColumns := (valuesOf table.columns).filter (fun c => c.primaryKey)
  let isCompositePK := decide (pkColumns.length > 1)
  let columnDefs := (valuesOf table.columns).map
    (fun column =>
      let d := generateColumnDefinition column
      "  " ++ (if !isCompositePK && column.primaryKey then d ++ " PRIMARY KEY" else d))
  let columnDefs := columnDefs ++
    (if isCompositePK then
      ["  PRIMARY KEY (" ++ String.intercalate ", " (pkColumns.map (fun c => c.name)) ++ ")"]
     else [])
  let fkConstraints := (valuesOf table.columns).filterMap
    (fun column =>
      match column.foreignKey with
      | some fk =>
          if !column.primaryKey then
            some ("  FOREIGN KEY (" ++ column.name ++ ") REFERENCES " ++ fk.table ++
              "(" ++ fk.column ++ ")")
          else none
      | none => none)
  columnDefs ++ fkConstraints

/-- `generateTableSQL(tableName, table)`. -/
def generateTableSQL (_tableName : String) (table : NormalizedTable) : String :=
  "CREATE TABLE " ++ table.name ++ " (\n" ++
  String.intercalate ",\n" (tableClauses table) ++ "\n);"

/-- `generatePostgresSQL(schema)`: guard first, then dependency-ordered
CREATE TABLE statements joined by blank lines. -/
def generatePostgresSQL (schema : NormalizedSchema) : Except String String :=
  match GeneratorValidation.validateSchemaForGeneration schema with
  | .error e => .error e
  | .ok _ =>
      let orderedTables := orderTables schema
      let statements := orderedTables.filterMap
        (fun tableName =>
          match getk schema.tables tableName with
          | some table => some (generateTableSQL tableName table)
          | none => none)
      .ok (String.intercalate "\n\n" statements)

end PostgresGenerator

/-! ## ORM renderer (src/unnamed/part_003, the Prisma generator) -/

namespace PrismaGenerator

/-- One word of `toPascalCase`: upper-case the first character,
lower-case the rest. -/
def pascalWord (w : String) : String :=
  match w.data with
  | [] => ""
  | c :: rest => String.mk (c.toUpper :: rest.map Char.toLower)

/-- `toPascalCase(name)`. -/
def toPascalCase (name : String) : String :=
  String.join ((splitChar '_' name).map pascalWord)

/-- `toCamelCase(name)`. -/
def toCamelCase (name : String) : String :=
  match (toPascalCase name).data with
  | [] => ""
  | c :: rest => String.mk (c.toLower :: rest)

/-- `toSingular(name)`: the fixed suffix-rule cascade with the
length-1 and double-s guards. -/
def toSingular (name : String) : String :=
  if name.length ≤ 1 then name
  else if strEndsWith name "ss" then name
  else if strEndsWith name "ies" then dropRightStr name 3 ++ "y"
  else if strEndsWith name "ves" then dropRightStr name 3 ++ "f"
  else if strEndsWith name "ses" then dropRightStr name 2
  else if strEndsWith name "xes" then dropRightStr name 2
  else if strEndsWith name "ches" then dropRightStr name 2
  else if strEndsWith name "shes" then dropRightStr name 2
  else if strEndsWith name "s" then dropRightStr name 1
  else name

/-- `toModelName(tableName)`: split on underscores, singularize each
word, rejoin, then PascalCase. -/
def toModelName (tableName : String) : String :=
  let words := splitChar '_' tableName
  let singularWords := words.map toSingular
  let singularTableName := joinChar '_' singularWords
  toPascalCase singularTableName

/-- `toRelationName(tableName)`. -/
def toRelationName (tableName : String) : String := toCamelCase (toSingular tableName)

/-- `toBackRelationName(tableName)`. -/
def toBackRelationName (tableName : String) : String := toCamelCase tableName

/-- The fixed schema-type → Prisma type lookup. -/
def prismaTypeMap : StrMap String :=
  [("int", "Int"), ("varchar", "String"), ("text", "String"), ("boolean", "Boolean"),
   ("timestamp", "DateTime"), ("uuid", "String")]

/-- `mapTypeToPrisma(schemaType)`: lookup, defaulting to the type name
unchanged. -/
def mapTypeToPrisma (schemaType : String) : String :=
  match truthyStr (getk prismaTypeMap (toLowerStr schemaType)) with
  | some t => t
  | none => schemaType

/-- `escapePrismaValue(value)`. -/
def escapePrismaValue (value : String) : String :=
  let escaped := String.mk (value.data.flatMap
    (fun c => if c = Char.ofNat 34 then [Char.ofNat 92, c] else [c]))
  "\"" ++ escaped ++ "\""

/-- The parts array built by `generateScalarField`: field name (derived
from the referenced model for FK columns), type with nullability
marker, @map annotation, @id, @unique, and default directive. -/
def scalarFieldParts (column : NormalizedColumn) (isCompositePK : Bool) : List String :=
  let fieldName :=
    match column.foreignKey with
    | some fk => toCamelCase (toModelName fk.table) ++ "Id"
    | none => toCamelCase column.name
  let prismaType := mapTypeToPrisma column.type
  let nullable := if column.nullable then "?" else ""
  let parts : List String := [fieldName, prismaType ++ nullable]
  let parts := parts ++
    (if (fieldName != column.name) || column.foreignKey.isSome then
      ["@map(\"" ++ column.name ++ "\")"]
     else [])
  let parts := parts ++ (if column.primaryKey && !isCompositePK then ["@id"] else [])
  let parts := parts ++ (if column.unique then ["@unique"] else [])
  let parts := parts ++
    (match column.default with
     | none => []
     | some d =>
        match d.kind with
        | .autoincrement => ["@default(autoincrement())"]
        | .uuid => ["@default(uuid())"]
        | .now => ["@default(now())"]
        | .value =>
            match d.value with
            | some v => ["@default(" ++ escapePrismaValue v ++ ")"]
            | none => [])
  parts

/-- `generateScalarField(column, isCompositePK)`. -/
def generateScalarField (column : NormalizedColumn) (isCompositePK : Bool) : String :=
  String.intercalate " " (scalarFieldParts column isCompositePK)

/-- `generateRelationField(column, referencedTableName)`. -/
def generateRelationField (_column : NormalizedColumn) (referencedTableName : String) : String :=
  let fieldName := toRelationName referencedTableName
  let modelName := toModelName referencedTableName
  let scalarFieldName := toCamelCase modelName ++ "Id"
  fieldName ++ " " ++ modelName ++ " @relation(fields: [" ++ scalarFieldName ++
    "], references: [id])"

/-- `generateBackRelationField(tableName, modelName)`. -/
def generateBackRelationField (tableName modelName : String) : String :=
  toBackRelationName tableName ++ " " ++ modelName ++ "[]"

/-- `buildRelationMap(schema)`: referenced table → deduplicated
first-seen list of referencing tables. -/
def buildRelationMap (schema : NormalizedSchema) : StrMap (List String) :=
  schema.tables.foldl
    (fun m te =>
      te.2.columns.foldl
        (fun m2 ce =>
          match ce.2.foreignKey with
          | none => m2
          | some fk =>
              let referencingTables := (getk m2 fk.table).getD []
              if referencingTables.contains te.1 then m2
              else setk m2 fk.table (referencingTables ++ [te.1]))
        m)
    []

/-- `generateModel(tableName, table, relationMap)`. -/
def generateModel (tableName : String) (table : NormalizedTable)
    (relationMap : StrMap (List String)) : String :=
  let modelName := toModelName tableName
  let pkColumns := (valuesOf table.columns).filter (fun c => c.primaryKey)
  let isCompositePK := decide (pkColumns.length > 1)
  let scalarFields := (valuesOf table.columns).map
    (fun column => "  " ++ generateScalarField column isCompositePK)
  let relationFields := (valuesOf table.columns).filterMap
    (fun column =>
      match column.foreignKey with
      | some fk => some ("  " ++ generateRelationField column fk.table)
      | none => none)
  let referencingTables := (getk relationMap tableName).getD []
  let backRelations := referencingTables.map
    (fun refTableName =>
      "  " ++ generateBackRelationField refTableName (toModelName refTableName))
  let allFields := scalarFields ++ relationFields ++ backRelations
  let lines := ["model " ++ modelName ++ " \x7b"] ++ allFields ++
    ["  @@map(\"" ++ tableName ++ "\")"] ++
    (if isCompositePK then
      ["  @@id([" ++ String.intercalate ", " (pkColumns.map (fun c => toCamelCase c.name)) ++
        "])"]
     else []) ++ ["\x7d"]
  String.intercalate "\n" lines

/-- Insertion step of the default `Array.sort()` over strings. -/
def insertSorted (x : String) : List String → List String
  | [] => [x]
  | y :: rest => if x ≤ y then x :: y :: rest else y :: insertSorted x rest

/-- The default `Array.sort()` over strings (lexicographic). -/
def sortStrings : List String → List String
  | [] => []
  | x :: rest => insertSorted x (sortStrings rest)

/-- `generatePrismaSchema(schema)`: guard first, then alphabetically
ordered models joined by blank lines. -/
def generatePrismaSchema (schema : NormalizedSchema) : Except String String :=
  match GeneratorValidation.validateSchemaForGeneration schema with
  | .error e => .error e
  | .ok _ =>
      let relationMap := buildRelationMap schema
      let tableNames := sortStrings (keysOf schema.tables)
      let models := tableNames.filterMap
        (fun tableName =>
          match getk schema.tables tableName with
          | some table => some (generateModel tableName table relationMap)
          | none => none)
      .ok (String.intercalate "\n\n" models)

end PrismaGenerator

/-! ## Statement apparatus: graph signatures, rule predicates,
dependency relation, and concrete fixtures used by the theorems. -/

/-- The id-free signature of an editor column: everything except the
generated identifier. -/
def colSig (c : Column) :
    String × String × Bool × Bool × Bool × Option ColumnDefault :=
  (c.name, c.type, c.primaryKey, c.nullable, c.unique, c.default)

/-- The id-free signature of an editor table. -/
def tableSig (t : Table) :
    String × List (String × String × Bool × Bool × Bool × Option ColumnDefault) :=
  (t.name, t.columns.map colSig)

/-- The id-free signature of an editor graph's tables. -/
def graphSig (tables : List Table) :
    List (String × List (String × String × Bool × Bool × Bool × Option ColumnDefault)) :=
  tables.map tableSig

/-- Resolve a (tableId, columnId) endpoint of a relation to the
(tableName, columnName) pair it denotes in an editor graph. -/
def resolveEndpoint (tables : List Table) (tid cid : String) : Option (String × String) :=
  match tables.find? (fun t => t.id = tid) with
  | none => none
  | some t =>
      match t.columns.find? (fun c => c.id = cid) with
      | none => none
      | some c => some (t.name, c.name)

/-- The name-level signature of a relation: its two endpoints resolved
to (tableName, columnName) pairs. -/
def relSig (tables : List Table) (r : Relation) :
    Option ((String × String) × (String × String)) :=
  match resolveEndpoint tables r.fromTableId r.fromColumnId,
        resolveEndpoint tables r.toTableId r.toColumnId with
  | some a, some b => some (a, b)
  | _, _ => none

/-- All resolvable relations of a graph, as name-level signatures. -/
def relSigs (tables : List Table) (relations : List Relation) :
    List ((String × String) × (String × String)) :=
  relations.filterMap (relSig tables)

/-- An editor graph has no orphaned relations when both endpoints of
every relation resolve to an existing table/column. -/
def NoOrphans (tables : List Table) (relations : List Relation) : Prop :=
  ∀ r ∈ relations,
    (resolveEndpoint tables r.fromTableId r.fromColumnId).isSome = true ∧
    (resolveEndpoint tables r.toTableId r.toColumnId).isSome = true

instance (tables : List Table) (relations : List Relation) :
    Decidable (NoOrphans tables relations) := by
  unfold NoOrphans; infer_instance

/-- Well-formedness of an editor graph under which normalization is
lossless: non-empty pairwise-distinct table names, per-table distinct
column names, distinct table ids, globally distinct "tableId::columnId"
lookup keys, and pairwise-distinct relation targets. -/
def WFGraph (tables : List Table) (relations : List Relation) : Prop :=
  (tables.map (fun t => t.name)).Nodup ∧
  (∀ t ∈ tables, t.name ≠ "") ∧
  (∀ t ∈ tables, (t.columns.map (fun c => c.name)).Nodup) ∧
  (tables.map (fun t => t.id)).Nodup ∧
  (tables.flatMap (fun t => t.columns.map
    (fun c => SchemaNormalizer.colKey t.id c.id))).Nodup ∧
  (relations.map (fun r => SchemaNormalizer.colKey r.toTableId r.toColumnId)).Nodup

instance (tables : List Table) (relations : List Relation) :
    Decidable (WFGraph tables relations) := by
  unfold WFGraph; infer_instance

/-- The foreign-key metadata the normalizer keeps for a target key:
that of the last relation in the list that survives orphan filtering
and targets this key. -/
def lastFKFor (tnm : StrMap String) (cnm : StrMap SchemaNormalizer.ColumnNameInfo)
    (relations : List Relation) (k : String) : Option ForeignKeyRef :=
  match relations.reverse.find?
      (fun r => (SchemaNormalizer.relFK tnm cnm r).isSome &&
        (SchemaNormalizer.colKey r.toTableId r.toColumnId == k)) with
  | some r => SchemaNormalizer.relFK tnm cnm r
  | none => none

/-- Declarative form of the Validator's table rules (§4.3): snake_case
names (which subsumes non-emptiness), no reserved words, at least one
column, and case-insensitively distinct table names. -/
def tableRulesOk (s : NormalizedSchema) : Prop :=
  (∀ te ∈ s.tables,
    SchemaValidator.isSnakeCase te.2.name = true ∧
    SchemaValidator.isReservedKeyword te.2.name = false ∧
    te.2.columns ≠ []) ∧
  (s.tables.map (fun te => toLowerStr te.2.name)).Nodup

/-- Declarative form of the Validator's column rules (§4.3): snake_case
names, a non-blank declared type, case-insensitively distinct column
names within the table, and at most one primary-key column. -/
def columnRulesOk (s : NormalizedSchema) : Prop :=
  ∀ te ∈ s.tables,
    (∀ ce ∈ te.2.columns,
      SchemaValidator.isSnakeCase ce.2.name = true ∧ trimEmpty ce.2.type = false) ∧
    (te.2.columns.map (fun ce => toLowerStr ce.2.name)).Nodup ∧
    (te.2.columns.filter (fun ce => ce.2.primaryKey)).length ≤ 1

/-- Declarative form of the Validator's foreign-key rules (§4.3): the
referenced table and column exist, the referenced column is a primary
key, and declared types agree whenever both are non-empty. -/
def fkRulesOk (s : NormalizedSchema) : Prop :=
  ∀ te ∈ s.tables, ∀ ce ∈ te.2.columns, ∀ fk, ce.2.foreignKey = some fk →
    ∃ rt, getk s.tables fk.table = some rt ∧
      ∃ rc, getk rt.columns fk.column = some rc ∧
        rc.primaryKey = true ∧
        (ce.2.type ≠ "" → rc.type ≠ "" → ce.2.type = rc.type)

/-- Declarative form of the Validator's default-value rules (§4.3): at
most one auto-increment column per table; auto-increment requires int
type and primary key; uuid defaults never on int; now() only on
timestamp. -/
def defaultRulesOk (s : NormalizedSchema) : Prop :=
  ∀ te ∈ s.tables,
    (te.2.columns.filter
      (fun ce => ce.2.default.any (fun d => d.kind = DefaultKind.autoincrement))).length ≤ 1 ∧
    ∀ ce ∈ te.2.columns, ∀ d, ce.2.default = some d →
      (d.kind = DefaultKind.autoincrement → ce.2.type = "int" ∧ ce.2.primaryKey = true) ∧
      (d.kind = DefaultKind.uuid → ce.2.type ≠ "int") ∧
      (d.kind = DefaultKind.now → ce.2.type = "timestamp")

/-- All rule groups of §4.3 together. -/
def RulesOk (s : NormalizedSchema) : Prop :=
  tableRulesOk s ∧ columnRulesOk s ∧ fkRulesOk s ∧ defaultRulesOk s

/-- Violation of one of the Generation Guard's three foreign-key rules
by some column of the schema. -/
def GuardViolation (s : NormalizedSchema) : Prop :=
  ∃ te ∈ s.tables, ∃ ce ∈ te.2.columns, ∃ fk, ce.2.foreignKey = some fk ∧
    (ce.2.primaryKey = true ∨
     getk s.tables fk.table = none ∨
     (∃ rt, getk s.tables fk.table = some rt ∧ getk rt.columns fk.column = none) ∨
     (∃ rt rc, getk s.tables fk.table = some rt ∧ getk rt.columns fk.column = some rc ∧
        rc.primaryKey = false))

/-- The foreign-key dependency relation used by the SQL renderer's
table ordering: `DepRel s a b` when table `a` exists and one of its
columns references table `b`. -/
def DepRel (s : NormalizedSchema) (a b : String) : Prop :=
  ∃ ta, getk s.tables a = some ta ∧ b ∈ PostgresGenerator.depsOfTable ta

/-- Acyclicity of the dependency relation. -/
def AcyclicDeps (s : NormalizedSchema) : Prop :=
  ∀ a, ¬ Relation.TransGen (DepRel s) a a

/-- An effective dependency edge of the table ordering: `a` depends on
`b` and `b` is a table of the schema (the visit only follows edges to
existing tables). -/
def DepRelE (s : NormalizedSchema) (a b : String) : Prop :=
  DepRel s a b ∧ (getk s.tables b).isSome = true

/-- An emitted order is topologically sorted when every effective
dependency of an emitted table was emitted strictly before it. -/
def TopoSorted (s : NormalizedSchema) (o : List String) : Prop :=
  ∀ l1 x l2, o = l1 ++ x :: l2 → ∀ d, DepRelE s x d → d ∈ l1

/-- A list of table names is closed under effective dependencies. -/
def ClosedUnder (s : NormalizedSchema) (l : List String) : Prop :=
  ∀ x ∈ l, ∀ d, DepRelE s x d → d ∈ l

/-- First character index at which `pat` occurs in `l`. -/
def indexOfSub (pat : List Char) : List Char → Option Nat
  | [] => if pat.isEmpty then some 0 else none
  | c :: rest =>
      if pat.isPrefixOf (c :: rest) then some 0
      else (indexOfSub pat rest).map (fun i => i + 1)

/-- First character index at which `pat` occurs in `s`. -/
def strIndexOf (s pat : String) : Option Nat := indexOfSub pat.data s.data

/-- The claim's singularization cascade stated exactly as written
(double-s unchanged; -ies to -y; -ves to -f; each of -ses, -xes, -ches,
-shes drops two; trailing -s dropped; otherwise unchanged), with no
further guard. -/
def cascadeWord (w : String) : String :=
  if strEndsWith w "ss" then w
  else if strEndsWith w "ies" then dropRightStr w 3 ++ "y"
  else if strEndsWith w "ves" then dropRightStr w 3 ++ "f"
  else if strEndsWith w "ses" then dropRightStr w 2
  else if strEndsWith w "xes" then dropRightStr w 2
  else if strEndsWith w "ches" then dropRightStr w 2
  else if strEndsWith w "shes" then dropRightStr w 2
  else if strEndsWith w "s" then dropRightStr w 1
  else w

/-- The cascade amended with the code's one-character guard: words of
length at most one are left unchanged. -/
def cascadeWordGuarded (w : String) : String :=
  if w.length ≤ 1 then w else cascadeWord w

/-- The claim's model-name pipeline: split on underscores, singularize
each word by the cascade, PascalCase each word, concatenate. -/
def cascadeModelName (tableName : String) : String :=
  String.join ((splitChar '_' tableName).map
    (fun w => PrismaGenerator.pascalWord (cascadeWord w)))

/-- The amended model-name pipeline (cascade with the length guard). -/
def cascadeModelNameGuarded (tableName : String) : String :=
  String.join ((splitChar '_' tableName).map
    (fun w => PrismaGenerator.pascalWord (cascadeWordGuarded w)))

/-- Scenario A fixture: the `users` table. -/
def usersTableA : NormalizedTable :=
  { name := "users",
    columns :=
      [("id", { name := "id", type := "uuid", primaryKey := true, nullable := false,
                unique := false, foreignKey := none,
                default := some { kind := DefaultKind.uuid, value := none } }),
       ("email", { name := "email", type := "varchar", primaryKey := false,
                   nullable := false, unique := true, foreignKey := none,
                   default := none })] }

/-- Scenario A fixture: the `posts` table, whose `user_id` references
`users.id`. -/
def postsTableA : NormalizedTable :=
  { name := "posts",
    columns :=
      [("id", { name := "id", type := "int", primaryKey := true, nullable := false,
                unique := false, foreignKey := none,
                default := some { kind := DefaultKind.autoincrement, value := none } }),
       ("user_id", { name := "user_id", type := "int", primaryKey := false,
                     nullable := false, unique := false,
                     foreignKey := some { table := "users", column := "id" },
                     default := none }),
       ("title", { name := "title", type := "varchar", primaryKey := false,
                   nullable := false, unique := false, foreignKey := none,
                   default := none })] }

/-- Scenario A schema, deliberately listing `posts` before `users` so
that the dependency ordering does real work. -/
def scenarioA : NormalizedSchema :=
  { tables := [("posts", postsTableA), ("users", usersTableA)], positions := none }

/-- The SQL text the renderer produces for Scenario A. -/
def scenarioASql : String :=
  "CREATE TABLE users (\n  id UUID DEFAULT gen_random_uuid() NOT NULL PRIMARY KEY,\n  email VARCHAR UNIQUE NOT NULL\n);\n\nCREATE TABLE posts (\n  id SERIAL NOT NULL PRIMARY KEY,\n  user_id INT NOT NULL,\n  title VARCHAR NOT NULL,\n  FOREIGN KEY (user_id) REFERENCES users(id)\n);"

/-- The primary-key columns of a canonical table, in column order. -/
def pkColsOf (table : NormalizedTable) : List NormalizedColumn :=
  (valuesOf table.columns).filter (fun c => c.primaryKey)

/-- The FOREIGN KEY clauses the SQL renderer emits for a table (one per
non-primary-key column carrying FK metadata). -/
def fkClausesOf (table : NormalizedTable) : List String :=
  (valuesOf table.columns).filterMap
    (fun column =>
      match column.foreignKey with
      | some fk =>
          if !column.primaryKey then
            some ("  FOREIGN KEY (" ++ column.name ++ ") REFERENCES " ++ fk.table ++
              "(" ++ fk.column ++ ")")
          else none
      | none => none)

/-- A schema violating the Generation Guard: `a.x` references a table
that does not exist. -/
def badFKSchema : NormalizedSchema :=
  { tables := [("a", { name := "a", columns := [("x",
      { name := "x", type := "int", primaryKey := false, nullable := false,
        unique := false, foreignKey := some { table := "zz", column := "id" },
        default := none })] })], positions := none }

/-- The empty schema (trivially guard-clean). -/
def emptySchema : NormalizedSchema := { tables := [], positions := none }

/-! ## Round-trip apparatus (claim C1) -/

/-- A concrete injective supply of fresh non-empty identifiers standing
in for `crypto.randomUUID()`: the n-th call returns n+1 copies of `u`. -/
def uuidW (n : Nat) : String := String.mk (List.replicate (n + 1) 'u')

/-- The editor columns produced by the denormalizer's step-1 inner loop
for one canonical table, starting at call counter `n`. -/
def denormColsSpec (uuid : Nat → String) :
    Nat → List (String × NormalizedColumn) → List Column
  | _, [] => []
  | n, (_, c) :: rest =>
      { id := uuid n, name := c.name, type := c.type, primaryKey := c.primaryKey,
        nullable := c.nullable, unique := c.unique, default := c.default } ::
        denormColsSpec uuid (n + 1) rest

/-- The columnName → fresh-id map produced by the step-1 inner loop. -/
def denormCmapSpec (uuid : Nat → String) :
    Nat → List (String × NormalizedColumn) → StrMap String
  | _, [] => []
  | n, (cname, _) :: rest => (cname, uuid n) :: denormCmapSpec uuid (n + 1) rest

/-- The editor tables produced by the denormalizer's step-1 outer loop,
starting at call counter `n`. -/
def denormTablesSpec (uuid : Nat → String) :
    Nat → List (String × NormalizedTable) → List Table
  | _, [] => []
  | n, (_, t) :: rest =>
      { id := uuid n, name := t.name,
        columns := denormColsSpec uuid (n + 1) t.columns } ::
        denormTablesSpec uuid (n + 1 + t.columns.length) rest

/-- The tableName → TableInfo map produced by the step-1 outer loop. -/
def denormTmapSpec (uuid : Nat → String) :
    Nat → List (String × NormalizedTable) → StrMap SchemaDenormalizer.TableInfo
  | _, [] => []
  | n, (tname, t) :: rest =>
      (tname, ⟨uuid n, denormCmapSpec uuid (n + 1) t.columns⟩) ::
        denormTmapSpec uuid (n + 1 + t.columns.length) rest

/-- The call-counter value after the step-1 outer loop. -/
def denormCountSpec : Nat → List (String × NormalizedTable) → Nat
  | n, [] => n
  | n, (_, t) :: rest => denormCountSpec (n + 1 + t.columns.length) rest

/-- A relation with its (irrelevant to name-level signatures) fresh id
erased. -/
def eraseId (r : Relation) : Relation := { r with id := "" }

/-- The id-erased relation the denormalizer's step-2 inner loop
synthesizes for one canonical column, `none` when a lookup fails or an
id is falsy. -/
def colRel (tmap : StrMap SchemaDenormalizer.TableInfo)
    (fkInfo : SchemaDenormalizer.TableInfo) (ce : String × NormalizedColumn) :
    Option Relation :=
  match ce.2.foreignKey with
  | none => none
  | some fk =>
      match getk tmap fk.table with
      | none => none
      | some pkInfo =>
          match truthyStr (getk fkInfo.columnMap ce.1),
                truthyStr (getk pkInfo.columnMap fk.column) with
          | some fkColumnId, some pkColumnId =>
              some { id := "", fromTableId := pkInfo.tableId,
                     fromColumnId := pkColumnId, toTableId := fkInfo.tableId,
                     toColumnId := fkColumnId }
          | _, _ => none

/-- The id-erased relations the step-2 loops synthesize for one
canonical table entry. -/
def tableRels (tmap : StrMap SchemaDenormalizer.TableInfo)
    (e : String × NormalizedTable) : List Relation :=
  match getk tmap e.1 with
  | none => []
  | some fkInfo => e.2.columns.filterMap (colRel tmap fkInfo)

/-- All (table, column) pairs of an editor graph, in iteration order. -/
def allCols (tables : List Table) : List (Table × Column) :=
  tables.flatMap (fun t => t.columns.map (fun c => (t, c)))

/-- The canonical table the normalizer produces for one editor table. -/
def ntOf (fkm : StrMap ForeignKeyRef) (t : Table) : NormalizedTable :=
  { name := t.name,
    columns := t.columns.map (fun c =>
      (c.name, SchemaNormalizer.normalizeColumn fkm t.id c)) }

/-- Counterexample graph for the original C1 statement: tables `a` and
`b` each hold one column that references `c.z`, so the two relations
share the normalizer's foreign-key map key `tC::cz`. -/
def cexTables : List Table :=
  [{ id := "tA", name := "a", columns := [
      { id := "ca", name := "x", type := "int", primaryKey := true,
        nullable := false, unique := false, default := none }] },
   { id := "tB", name := "b", columns := [
      { id := "cb", name := "y", type := "int", primaryKey := true,
        nullable := false, unique := false, default := none }] },
   { id := "tC", name := "c", columns := [
      { id := "cz", name := "z", type := "int", primaryKey := false,
        nullable := false, unique := false, default := none }] }]

/-- The two relations of the counterexample graph, both targeting
`c.z`. -/
def cexRels : List Relation :=
  [{ id := "r1", fromTableId := "tA", fromColumnId := "ca",
     toTableId := "tC", toColumnId := "cz" },
   { id := "r2", fromTableId := "tB", fromColumnId := "cb",
     toTableId := "tC", toColumnId := "cz" }]

/-- Witness graph for the amended C1 statement: `users.id` referenced by
`posts.user_id` through one relation. -/
def rtTables : List Table :=
  [{ id := "tU", name := "users", columns := [
      { id := "cu1", name := "id", type := "uuid", primaryKey := true,
        nullable := false, unique := false, default := none },
      { id := "cu2", name := "email", type := "varchar", primaryKey := false,
        nullable := false, unique := true, default := none }] },
   { id := "tP", name := "posts", columns := [
      { id := "cp1", name := "id", type := "int", primaryKey := true,
        nullable := false, unique := false, default := none },
      { id := "cp2", name := "user_id", type := "int", primaryKey := false,
        nullable := false, unique := false, default := none }] }]

/-- The single relation of the witness graph. -/
def rtRels : List Relation :=
  [{ id := "r1", fromTableId := "tU", fromColumnId := "cu1",
     toTableId := "tP", toColumnId := "cp2" }]

/-! ## Association-list lemmas -/

theorem getk_setk_self {α : Type} (m : StrMap α) (k : String) (v : α) :
    getk (setk m k v) k = some v := by
  induction m with
  | nil => simp [setk, getk]
  | cons e rest ih =>
      by_cases h : e.1 = k
      · simp [setk, getk, h]
      · simp [setk, getk, h, ih]

theorem getk_setk_ne {α : Type} (m : StrMap α) {k k' : String} (v : α) (h : k' ≠ k) :
    getk (setk m k v) k' = getk m k' := by
  have hk : ¬ k = k' := fun hh => h hh.symm
  induction m with
  | nil => simp [setk, getk, hk]
  | cons e rest ih =>
      by_cases he : e.1 = k
      · simp [setk, getk, he, hk]
      · simp [setk, getk, he, ih]

theorem setk_absent {α : Type} (m : StrMap α) (k : String) (v : α)
    (h : getk m k = none) : setk m k v = m ++ [(k, v)] := by
  induction m with
  | nil => simp [setk]
  | cons e rest ih =>
      simp only [getk] at h
      by_cases he : e.1 = k
      · simp [he] at h
      · simp only [setk, he, if_false, List.cons_append]
        rw [ih (by simpa [he] using h)]

theorem getk_eq_none_iff {α : Type} (m : StrMap α) (k : String) :
    getk m k = none ↔ k ∉ keysOf m := by
  induction m with
  | nil => simp [getk, keysOf]
  | cons e rest ih =>
      by_cases he : e.1 = k
      · simp [getk, keysOf, he]
      · simp [getk, keysOf, he, ih, Ne.symm he]

theorem getk_append_of_none {α : Type} (m1 m2 : StrMap α) (k : String)
    (h : getk m1 k = none) : getk (m1 ++ m2) k = getk m2 k := by
  induction m1 with
  | nil => simp
  | cons e rest ih =>
      simp only [getk] at h ⊢
      by_cases he : e.1 = k
      · simp [he] at h
      · simpa [he] using ih (by simpa [he] using h)

theorem getk_append_of_some {α : Type} (m1 m2 : StrMap α) (k : String) (v : α)
    (h : getk m1 k = some v) : getk (m1 ++ m2) k = some v := by
  induction m1 with
  | nil => simp [getk] at h
  | cons e rest ih =>
      simp only [getk] at h ⊢
      by_cases he : e.1 = k
      · simpa [he] using h
      · simpa [he] using ih (by simpa [he] using h)

theorem getk_of_mem_nodup {α : Type} {m : StrMap α} {k : String} {v : α}
    (hn : (keysOf m).Nodup) (hm : (k, v) ∈ m) : getk m k = some v := by
  induction m with
  | nil => simp at hm
  | cons e rest ih =>
      rcases List.mem_cons.1 hm with h | h
      · subst h; simp [getk]
      · have hk : k ∈ keysOf rest := List.mem_map.2 ⟨(k, v), h, rfl⟩
        have hne : e.1 ≠ k := by
          intro hh
          exact (List.nodup_cons.1 (by simpa [keysOf] using hn)).1 (hh ▸ hk)
        have hn' : (keysOf rest).Nodup := (List.nodup_cons.1 (by simpa [keysOf] using hn)).2
        simp [getk, hne, ih hn' h]

theorem mem_of_getk_some {α : Type} {m : StrMap α} {k : String} {v : α}
    (h : getk m k = some v) : (k, v) ∈ m := by
  induction m with
  | nil => simp [getk] at h
  | cons e rest ih =>
      by_cases he : e.1 = k
      · obtain ⟨k1, v1⟩ := e
        simp only [getk] at h
        simp only at he
        rw [if_pos he] at h
        obtain rfl : v1 = v := by injection h
        subst he
        exact List.mem_cons_self _ _
      · exact List.mem_cons_of_mem _ (ih (by simpa [getk, he] using h))

theorem foldl_setk_append {α β : Type} (f : β → String) (g : β → α) :
    ∀ (l : List β) (acc : StrMap α), (l.map f).Nodup →
      (∀ b ∈ l, getk acc (f b) = none) →
      l.foldl (fun m b => setk m (f b) (g b)) acc = acc ++ l.map (fun b => (f b, g b)) := by
  intro l
  induction l with
  | nil => intro acc _ _; simp
  | cons b rest ih =>
      intro acc hn hfresh
      have hn2 : (∀ x ∈ rest, ¬ f x = f b) ∧ (rest.map f).Nodup := by simpa using hn
      have hfresh2 : ∀ b' ∈ rest, getk (acc ++ [(f b, g b)]) (f b') = none := by
        intro b' hb'
        have h1 : getk acc (f b') = none := hfresh b' (List.mem_cons_of_mem _ hb')
        have h2 : f b ≠ f b' := fun hh => hn2.1 b' hb' hh.symm
        rw [getk_append_of_none _ _ _ h1]
        simp [getk, h2]
      simp only [List.foldl_cons]
      rw [setk_absent _ _ _ (hfresh b (List.mem_cons_self b rest)),
          ih (acc ++ [(f b, g b)]) hn2.2 hfresh2]
      simp

/-! ## String split/join lemmas -/

theorem string_data_append (a b : String) : (a ++ b).data = a.data ++ b.data := rfl

theorem string_mk_data (s : String) : String.mk s.data = s := rfl

theorem splitCharAux_ne_nil (sep : Char) (l : List Char) : splitCharAux sep l ≠ [] := by
  induction l with
  | nil => simp [splitCharAux]
  | cons c rest ih =>
      simp only [splitCharAux]
      by_cases h : c = sep
      · simp [h]
      · simp only [h, if_false]
        cases hr : splitCharAux sep rest with
        | nil => simp
        | cons a t => simp

theorem not_mem_of_mem_splitCharAux (sep : Char) :
    ∀ (l : List Char) (piece : List Char), piece ∈ splitCharAux sep l → sep ∉ piece := by
  intro l
  induction l with
  | nil =>
      intro piece h
      simp [splitCharAux] at h
      simp [h]
  | cons c rest ih =>
      intro piece h
      simp only [splitCharAux] at h
      by_cases hc : c = sep
      · simp only [hc, if_pos rfl] at h
        rcases List.mem_cons.1 h with h1 | h1
        · simp [h1]
        · exact ih piece h1
      · simp only [hc, if_false] at h
        cases hr : splitCharAux sep rest with
        | nil => exact absurd hr (splitCharAux_ne_nil sep rest)
        | cons a t =>
            rw [hr] at h
            rcases List.mem_cons.1 h with h1 | h1
            · subst h1
              intro hmem
              rcases List.mem_cons.1 hmem with h2 | h2
              · exact hc h2.symm
              · exact ih a (hr ▸ List.mem_cons_self a t) h2
            · exact ih piece (hr ▸ List.mem_cons_of_mem a h1)

theorem splitCharAux_no_sep (sep : Char) :
    ∀ (w : List Char), sep ∉ w → splitCharAux sep w = [w] := by
  intro w
  induction w with
  | nil => intro _; rfl
  | cons c rest ih =>
      intro h
      have hc : ¬ c = sep := fun hh => h (hh ▸ List.mem_cons_self c rest)
      have hrest : sep ∉ rest := fun hh => h (List.mem_cons_of_mem c hh)
      simp only [splitCharAux, hc, if_false, ih hrest]

theorem splitCharAux_sep_append (sep : Char) :
    ∀ (w l : List Char), sep ∉ w →
      splitCharAux sep (w ++ sep :: l) = w :: splitCharAux sep l := by
  intro w
  induction w with
  | nil => intro l _; simp [splitCharAux]
  | cons c rest ih =>
      intro l h
      have hc : ¬ c = sep := fun hh => h (hh ▸ List.mem_cons_self c rest)
      have hrest : sep ∉ rest := fun hh => h (List.mem_cons_of_mem c hh)
      simp only [List.cons_append, splitCharAux, hc, if_false]
      have hre : rest.append (sep :: l) = rest ++ sep :: l := rfl
      rw [hre, ih l hrest]

theorem data_joinChar_cons (sep : Char) (w a : String) (t : List String) :
    (joinChar sep (w :: a :: t)).data = w.data ++ sep :: (joinChar sep (a :: t)).data := by
  show (w ++ String.singleton sep ++ joinChar sep (a :: t)).data = _
  simp [string_data_append, String.singleton]

theorem splitChar_joinChar (sep : Char) :
    ∀ (ws : List String), ws ≠ [] → (∀ w ∈ ws, sep ∉ w.data) →
      splitChar sep (joinChar sep ws) = ws := by
  intro ws
  induction ws with
  | nil => intro h; exact absurd rfl h
  | cons w rest ih =>
      intro _ hsep
      cases rest with
      | nil =>
          show splitChar sep w = [w]
          unfold splitChar
          rw [splitCharAux_no_sep sep w.data (hsep w (List.mem_cons_self w []))]
          simp [string_mk_data]
      | cons a t =>
          unfold splitChar
          rw [data_joinChar_cons sep w a t,
              splitCharAux_sep_append sep w.data _ (hsep w (List.mem_cons_self w _))]
          simp only [List.map_cons, string_mk_data]
          have := ih (by simp) (fun x hx => hsep x (List.mem_cons_of_mem w hx))
          unfold splitChar at this
          rw [this]

/-! ## Claim C6: the model-name derivation -/

theorem toSingular_eq_cascadeGuarded (w : String) :
    PrismaGenerator.toSingular w = cascadeWordGuarded w := by
  unfold PrismaGenerator.toSingular cascadeWordGuarded cascadeWord
  rfl

theorem mem_data_toSingular (w : String) (c : Char)
    (h : c ∈ (PrismaGenerator.toSingular w).data) : c ∈ w.data ∨ c = 'y' ∨ c = 'f' := by
  unfold PrismaGenerator.toSingular at h
  split_ifs at h <;>
    first
      | exact Or.inl h
      | · rw [string_data_append] at h
          rcases List.mem_append.1 h with h1 | h1
          · exact Or.inl (List.take_subset _ _ h1)
          · simp at h1
            simp [h1]
      | exact Or.inl (List.take_subset _ _ h)

theorem toSingular_no_underscore (w : String) (h : '_' ∉ w.data) :
    '_' ∉ (PrismaGenerator.toSingular w).data := by
  intro hmem
  rcases mem_data_toSingular w '_' hmem with h1 | h1 | h1
  · exact h h1
  · simp at h1
  · simp at h1

/-- C6 counterexample: for the table name "s" the code's `toModelName`
(whose cascade is guarded for one-character words) yields "S", while
the claim's unguarded cascade drops the trailing s of the single word
and yields the empty model name, so the claim as stated is false. -/
theorem claim_C6_counterexample :
    PrismaGenerator.toModelName "s" = "S" ∧ cascadeModelName "s" = "" ∧
    PrismaGenerator.toModelName "s" ≠ cascadeModelName "s" := by
  refine ⟨rfl, rfl, ?_⟩
  decide

/-- C6 (amended): for every table name the ORM renderer derives the
model name by splitting on underscores, singularizing each word with
the fixed suffix cascade amended with the code's guard that words of
length at most one are left unchanged, then PascalCasing and
concatenating; in particular `order_items` yields `OrderItem`. -/
theorem claim_C6 :
    (∀ tableName : String,
      PrismaGenerator.toModelName tableName = cascadeModelNameGuarded tableName) ∧
    PrismaGenerator.toModelName "order_items" = "OrderItem" := by
  constructor
  · intro t
    have hws : splitChar '_'
        (joinChar '_' ((splitChar '_' t).map PrismaGenerator.toSingular)) =
        (splitChar '_' t).map PrismaGenerator.toSingular := by
      apply splitChar_joinChar
      · intro hnil
        have : splitCharAux '_' t.data = [] := by
          have := congrArg List.length hnil
          simp [splitChar] at this
          simpa using this
        exact splitCharAux_ne_nil '_' t.data this
      · intro w hw
        rcases List.mem_map.1 hw with ⟨w0, hw0, rfl⟩
        apply toSingular_no_underscore
        rcases List.mem_map.1 hw0 with ⟨piece, hpiece, rfl⟩
        simpa [string_mk_data] using not_mem_of_mem_splitCharAux '_' t.data piece hpiece
    simp only [PrismaGenerator.toModelName, PrismaGenerator.toPascalCase,
      cascadeModelNameGuarded]
    rw [hws]
    rw [List.map_map]
    refine congrArg String.join (List.map_congr_left ?_)
    intro w _
    simp [Function.comp, toSingular_eq_cascadeGuarded]
  · rfl

/-- C6 witness for the amended claim at a concrete input. -/
theorem claim_C6_witness :
    PrismaGenerator.toModelName "order_items" = cascadeModelNameGuarded "order_items" :=
  claim_C6.1 "order_items"

/-- C5: for a column carrying foreign-key metadata, the ORM renderer's
scalar field name is the camelCased referenced model name with an `Id`
suffix, and a @map annotation recording the true column name is always
emitted for such a column (in particular whenever the derived field
name differs from the column name, which is what the claim requires). -/
theorem claim_C5 (column : NormalizedColumn) (isCompositePK : Bool) (fk : ForeignKeyRef)
    (hfk : column.foreignKey = some fk) :
    (PrismaGenerator.scalarFieldParts column isCompositePK).head? =
      some (PrismaGenerator.toCamelCase (PrismaGenerator.toModelName fk.table) ++ "Id") ∧
    ("@map(\"" ++ column.name ++ "\")") ∈
      PrismaGenerator.scalarFieldParts column isCompositePK := by
  unfold PrismaGenerator.scalarFieldParts
  rw [hfk]
  constructor
  · simp
  · simp

/-- C5 witness: a `user_id` column referencing `users.id` gets scalar
field `userId` and the annotation `@map("user_id")`. -/
theorem claim_C5_witness :
    (PrismaGenerator.scalarFieldParts
      { name := "user_id", type := "int", primaryKey := false, nullable := false,
        unique := false, foreignKey := some { table := "users", column := "id" },
        default := none } false).head? = some "userId" ∧
    "@map(\"user_id\")" ∈ PrismaGenerator.scalarFieldParts
      { name := "user_id", type := "int", primaryKey := false, nullable := false,
        unique := false, foreignKey := some { table := "users", column := "id" },
        default := none } false := by
  have h := claim_C5
    { name := "user_id", type := "int", primaryKey := false, nullable := false,
      unique := false, foreignKey := some { table := "users", column := "id" },
      default := none } false { table := "users", column := "id" } rfl
  exact ⟨h.1.trans (by rfl), h.2⟩

/-! ## Claims C8 and C4: SQL renderer output shape -/

/-- C8: on the Scenario A schema the SQL renderer succeeds, emits the
CREATE TABLE statement for `users` strictly before the one for `posts`
(character positions 0 and 115), and the text after the `posts`
statement's start (position 222 > 115) contains the clause
`FOREIGN KEY (user_id) REFERENCES users(id)`. -/
theorem claim_C8 :
    PostgresGenerator.generatePostgresSQL scenarioA = Except.ok scenarioASql ∧
    strIndexOf scenarioASql "CREATE TABLE users" = some 0 ∧
    strIndexOf scenarioASql "CREATE TABLE posts" = some 115 ∧
    strIndexOf scenarioASql "FOREIGN KEY (user_id) REFERENCES users(id)" = some 222 ∧
    (0 : Nat) < 115 ∧ (115 : Nat) < 222 := by
  refine ⟨by rfl, by rfl, by rfl, by rfl, by decide, by decide⟩

/-- C4: in every rendered table, if exactly one column is a primary key
its clause (and only its clause) ends with the inline PRIMARY KEY
marker and no table-level PRIMARY KEY clause is emitted; if more than
one column is a primary key, no column clause carries the inline marker
and a single table-level PRIMARY KEY clause listing all primary-key
columns is appended before the FOREIGN KEY clauses. -/
theorem claim_C4 (table : NormalizedTable) :
    ((pkColsOf table).length = 1 →
      PostgresGenerator.tableClauses table =
        (valuesOf table.columns).map (fun c =>
          "  " ++ (if c.primaryKey then
            PostgresGenerator.generateColumnDefinition c ++ " PRIMARY KEY"
          else PostgresGenerator.generateColumnDefinition c)) ++ fkClausesOf table) ∧
    ((pkColsOf table).length > 1 →
      PostgresGenerator.tableClauses table =
        (valuesOf table.columns).map (fun c =>
          "  " ++ PostgresGenerator.generateColumnDefinition c) ++
        (["  PRIMARY KEY (" ++ String.intercalate ", "
            ((pkColsOf table).map (fun c => c.name)) ++ ")"] ++ fkClausesOf table)) := by
  constructor
  · intro h1
    unfold pkColsOf at h1
    simp only [PostgresGenerator.tableClauses, fkClausesOf, h1]
    simp
  · intro h1
    unfold pkColsOf at h1
    have hc : decide (((valuesOf table.columns).filter (fun c => c.primaryKey)).length > 1) =
        true := by simpa using h1
    simp only [PostgresGenerator.tableClauses, fkClausesOf, pkColsOf, hc]
    simp

/-- C4 witness: both branches at concrete tables (a one-column
primary-key table, and a two-primary-key composite table). -/
theorem claim_C4_witness :
    (PostgresGenerator.tableClauses
      { name := "a", columns := [("id",
          { name := "id", type := "int", primaryKey := true, nullable := false,
            unique := false, foreignKey := none, default := none })] } =
      ["  id INT NOT NULL PRIMARY KEY"]) ∧
    (PostgresGenerator.tableClauses
      { name := "b", columns :=
          [("x", { name := "x", type := "int", primaryKey := true, nullable := false,
                   unique := false, foreignKey := none, default := none }),
           ("y", { name := "y", type := "int", primaryKey := true, nullable := false,
                   unique := false, foreignKey := none, default := none })] } =
      ["  x INT NOT NULL", "  y INT NOT NULL", "  PRIMARY KEY (x, y)"]) := by
  constructor
  · have h := (claim_C4
      { name := "a", columns := [("id",
          { name := "id", type := "int", primaryKey := true, nullable := false,
            unique := false, foreignKey := none, default := none })] }).1 (by rfl)
    exact h.trans (by rfl)
  · have h := (claim_C4
      { name := "b", columns :=
          [("x", { name := "x", type := "int", primaryKey := true, nullable := false,
                   unique := false, foreignKey := none, default := none }),
           ("y", { name := "y", type := "int", primaryKey := true, nullable := false,
                   unique := false, foreignKey := none, default := none })] }).2 (by decide)
    exact h.trans (by rfl)

/-! ## Claim C10: last-write-wins foreign-key metadata -/

theorem find?_append_of_some {α : Type} {p : α → Bool} (l1 l2 : List α) (a : α)
    (h : l1.find? p = some a) : (l1 ++ l2).find? p = some a := by
  induction l1 with
  | nil => simp [List.find?] at h
  | cons x rest ih =>
      cases hx : p x with
      | true =>
          rw [List.find?_cons_of_pos _ hx] at h
          rw [List.cons_append, List.find?_cons_of_pos _ hx]
          exact h
      | false =>
          rw [List.find?_cons_of_neg _ (by simp [hx])] at h
          rw [List.cons_append, List.find?_cons_of_neg _ (by simp [hx])]
          exact ih h

theorem find?_append_of_none {α : Type} {p : α → Bool} (l1 l2 : List α)
    (h : l1.find? p = none) : (l1 ++ l2).find? p = l2.find? p := by
  induction l1 with
  | nil => simp
  | cons x rest ih =>
      cases hx : p x with
      | true => rw [List.find?_cons_of_pos _ hx] at h; exact absurd h (by simp)
      | false =>
          rw [List.find?_cons_of_neg _ (by simp [hx])] at h
          rw [List.cons_append, List.find?_cons_of_neg _ (by simp [hx])]
          exact ih h

theorem getk_fkFold (tnm : StrMap String) (cnm : StrMap SchemaNormalizer.ColumnNameInfo)
    (k : String) :
    ∀ (relations : List Relation) (init : StrMap ForeignKeyRef),
      getk (relations.foldl
        (fun m r =>
          match SchemaNormalizer.relFK tnm cnm r with
          | some fk => setk m (SchemaNormalizer.colKey r.toTableId r.toColumnId) fk
          | none => m) init) k =
      (match relations.reverse.find?
          (fun r => (SchemaNormalizer.relFK tnm cnm r).isSome &&
            (SchemaNormalizer.colKey r.toTableId r.toColumnId == k)) with
       | some r => SchemaNormalizer.relFK tnm cnm r
       | none => getk init k) := by
  intro relations
  induction relations with
  | nil => intro init; simp
  | cons r rest ih =>
      intro init
      simp only [List.foldl_cons, List.reverse_cons]
      rw [ih]
      cases hfind : rest.reverse.find?
          (fun r => (SchemaNormalizer.relFK tnm cnm r).isSome &&
            (SchemaNormalizer.colKey r.toTableId r.toColumnId == k)) with
      | some r' => rw [find?_append_of_some _ _ _ hfind]
      | none =>
          rw [find?_append_of_none _ _ hfind]
          cases hr : SchemaNormalizer.relFK tnm cnm r with
          | none =>
              rw [List.find?_cons_of_neg _ (by simp [hr])]
              simp [hr]
          | some fk =>
              by_cases hk : SchemaNormalizer.colKey r.toTableId r.toColumnId = k
              · rw [List.find?_cons_of_pos _ (by simp [hr, hk])]
                simp [hr, hk, getk_setk_self]
              · rw [List.find?_cons_of_neg _ (by simp [hr, hk])]
                simp only [List.find?_nil, hr]
                exact getk_setk_ne _ _ (fun hh => hk hh.symm)

theorem getk_buildForeignKeyMap (tnm : StrMap String)
    (cnm : StrMap SchemaNormalizer.ColumnNameInfo) (relations : List Relation) (k : String) :
    getk (SchemaNormalizer.buildForeignKeyMap tnm cnm relations) k =
      lastFKFor tnm cnm relations k := by
  unfold SchemaNormalizer.buildForeignKeyMap lastFKFor
  rw [getk_fkFold]
  cases hfind : relations.reverse.find?
      (fun r => (SchemaNormalizer.relFK tnm cnm r).isSome &&
        (SchemaNormalizer.colKey r.toTableId r.toColumnId == k)) with
  | some r => rfl
  | none => simp [getk]

/-- Characterization of the normalizer's table mapping when table names
and per-table column names are distinct: one entry per editor table, in
order, whose columns are the normalized columns in order. -/
theorem normalizeSchema_tables (tables : List Table) (relations : List Relation)
    (positions : Option (StrMap Pos))
    (hnames : (tables.map (fun t => t.name)).Nodup)
    (hcols : ∀ t ∈ tables, (t.columns.map (fun c => c.name)).Nodup) :
    (SchemaNormalizer.normalizeSchema tables relations positions).tables =
      tables.map (fun t => (t.name,
        ({ name := t.name,
           columns := t.columns.map (fun c =>
             (c.name, SchemaNormalizer.normalizeColumn
               (SchemaNormalizer.buildForeignKeyMap
                 (SchemaNormalizer.buildTableNameMap tables)
                 (SchemaNormalizer.buildColumnNameMap tables) relations) t.id c)) }
          : NormalizedTable))) := by
  set fkm := SchemaNormalizer.buildForeignKeyMap
    (SchemaNormalizer.buildTableNameMap tables)
    (SchemaNormalizer.buildColumnNameMap tables) relations with hfkm
  have hin : ∀ t ∈ tables,
      (t.columns.foldl
        (fun cols c => setk cols c.name (SchemaNormalizer.normalizeColumn fkm t.id c)) []) =
      t.columns.map (fun c => (c.name, SchemaNormalizer.normalizeColumn fkm t.id c)) := by
    intro t ht
    simpa using foldl_setk_append (fun c : Column => c.name)
      (fun c => SchemaNormalizer.normalizeColumn fkm t.id c) t.columns []
      (hcols t ht) (fun c _ => by simp [getk])
  have hout := foldl_setk_append (fun t : Table => t.name)
      (fun t => ({ name := t.name,
                   columns := t.columns.foldl
                     (fun cols c =>
                       setk cols c.name (SchemaNormalizer.normalizeColumn fkm t.id c)) [] }
        : NormalizedTable))
      tables [] hnames (fun t _ => by simp [getk])
  unfold SchemaNormalizer.normalizeSchema
  simp only [← hfkm] at hout ⊢
  rw [hout]
  simp only [List.nil_append]
  exact List.map_congr_left (fun t ht => by rw [hin t ht])

/-- C10: with distinct table names and per-table column names, the
normalized column for editor column `c` of table `t` exists at
(t.name, c.name) and carries exactly the foreign-key metadata of the
last relation surviving orphan filtering whose target is
(t.id, c.id); metadata from every earlier such relation is absent. -/
theorem claim_C10 (tables : List Table) (relations : List Relation)
    (positions : Option (StrMap Pos))
    (hnames : (tables.map (fun t => t.name)).Nodup)
    (hcols : ∀ t ∈ tables, (t.columns.map (fun c => c.name)).Nodup)
    (t : Table) (ht : t ∈ tables) (c : Column) (hc : c ∈ t.columns) :
    ∃ nt, getk (SchemaNormalizer.normalizeSchema tables relations positions).tables
        t.name = some nt ∧
      ∃ nc, getk nt.columns c.name = some nc ∧
        nc.foreignKey = lastFKFor
          (SchemaNormalizer.buildTableNameMap tables)
          (SchemaNormalizer.buildColumnNameMap tables) relations
          (SchemaNormalizer.colKey t.id c.id) := by
  rw [normalizeSchema_tables tables relations positions hnames hcols]
  set fkm := SchemaNormalizer.buildForeignKeyMap
    (SchemaNormalizer.buildTableNameMap tables)
    (SchemaNormalizer.buildColumnNameMap tables) relations with hfkm
  refine ⟨_, getk_of_mem_nodup ?_ (List.mem_map.2 ⟨t, ht, rfl⟩), ?_⟩
  · simpa [keysOf, List.map_map, Function.comp] using hnames
  · refine ⟨_, getk_of_mem_nodup ?_ (List.mem_map.2 ⟨c, hc, rfl⟩), ?_⟩
    · simpa [keysOf, List.map_map, Function.comp] using hcols t ht
    · show (SchemaNormalizer.normalizeColumn fkm t.id c).foreignKey = _
      unfold SchemaNormalizer.normalizeColumn
      exact getk_buildForeignKeyMap _ _ _ _

/-- C10 witness: a two-relation graph in which both relations target
the same column. -/
theorem claim_C10_witness :
    ∃ nt, getk (SchemaNormalizer.normalizeSchema
        [{ id := "tA", name := "a", columns := [
            { id := "c1", name := "x", type := "int", primaryKey := true,
              nullable := false, unique := false, default := none },
            { id := "c2", name := "y", type := "int", primaryKey := true,
              nullable := false, unique := false, default := none },
            { id := "c3", name := "z", type := "int", primaryKey := false,
              nullable := false, unique := false, default := none }] }]
        [{ id := "r1", fromTableId := "tA", fromColumnId := "c1",
           toTableId := "tA", toColumnId := "c3" },
         { id := "r2", fromTableId := "tA", fromColumnId := "c2",
           toTableId := "tA", toColumnId := "c3" }] none).tables "a" = some nt ∧
      ∃ nc, getk nt.columns "z" = some nc ∧
        nc.foreignKey = lastFKFor
          (SchemaNormalizer.buildTableNameMap
            [{ id := "tA", name := "a", columns := [
                { id := "c1", name := "x", type := "int", primaryKey := true,
                  nullable := false, unique := false, default := none },
                { id := "c2", name := "y", type := "int", primaryKey := true,
                  nullable := false, unique := false, default := none },
                { id := "c3", name := "z", type := "int", primaryKey := false,
                  nullable := false, unique := false, default := none }] }])
          (SchemaNormalizer.buildColumnNameMap
            [{ id := "tA", name := "a", columns := [
                { id := "c1", name := "x", type := "int", primaryKey := true,
                  nullable := false, unique := false, default := none },
                { id := "c2", name := "y", type := "int", primaryKey := true,
                  nullable := false, unique := false, default := none },
                { id := "c3", name := "z", type := "int", primaryKey := false,
                  nullable := false, unique := false, default := none }] }])
          [{ id := "r1", fromTableId := "tA", fromColumnId := "c1",
             toTableId := "tA", toColumnId := "c3" },
           { id := "r2", fromTableId := "tA", fromColumnId := "c2",
             toTableId := "tA", toColumnId := "c3" }]
          (SchemaNormalizer.colKey "tA" "c3") := by
  have h := claim_C10
    [{ id := "tA", name := "a", columns := [
        { id := "c1", name := "x", type := "int", primaryKey := true,
          nullable := false, unique := false, default := none },
        { id := "c2", name := "y", type := "int", primaryKey := true,
          nullable := false, unique := false, default := none },
        { id := "c3", name := "z", type := "int", primaryKey := false,
          nullable := false, unique := false, default := none }] }]
    [{ id := "r1", fromTableId := "tA", fromColumnId := "c1",
       toTableId := "tA", toColumnId := "c3" },
     { id := "r2", fromTableId := "tA", fromColumnId := "c2",
       toTableId := "tA", toColumnId := "c3" }] none
    (by decide) (by decide)
    { id := "tA", name := "a", columns := [
        { id := "c1", name := "x", type := "int", primaryKey := true,
          nullable := false, unique := false, default := none },
        { id := "c2", name := "y", type := "int", primaryKey := true,
          nullable := false, unique := false, default := none },
        { id := "c3", name := "z", type := "int", primaryKey := false,
          nullable := false, unique := false, default := none }] }
    (by decide)
    { id := "c3", name := "z", type := "int", primaryKey := false,
      nullable := false, unique := false, default := none }
    (by decide)
  exact h

/-! ## Claim C3: the Generation Guard gates both renderers -/

theorem getk_buildPkColumns (s : NormalizedSchema) (hk : (keysOf s.tables).Nodup)
    (tn : String) (rt : NormalizedTable) (h : getk s.tables tn = some rt) :
    getk (GeneratorValidation.buildPkColumns s) tn =
      some ((rt.columns.filter (fun ce => ce.2.primaryKey)).map (fun ce => ce.1)) := by
  unfold GeneratorValidation.buildPkColumns
  rw [foldl_setk_append (fun te : String × NormalizedTable => te.1)
      (fun te => (te.2.columns.filter (fun ce => ce.2.primaryKey)).map (fun ce => ce.1))
      s.tables [] (by simpa [keysOf] using hk) (fun te _ => by simp [getk])]
  rw [List.nil_append]
  exact getk_of_mem_nodup
    (by simpa [keysOf, List.map_map, Function.comp] using hk)
    (List.mem_map.2 ⟨(tn, rt), mem_of_getk_some h, rfl⟩)

theorem pkList_contains_iff (rt : NormalizedTable) (hk : (keysOf rt.columns).Nodup)
    (cn : String) (rc : NormalizedColumn) (h : getk rt.columns cn = some rc) :
    (((rt.columns.filter (fun ce => ce.2.primaryKey)).map
      (fun ce => ce.1)).contains cn = true) ↔ rc.primaryKey = true := by
  constructor
  · intro hcont
    have : cn ∈ (rt.columns.filter (fun ce => ce.2.primaryKey)).map (fun ce => ce.1) := by
      simpa using hcont
    rcases List.mem_map.1 this with ⟨ce, hmem, hce⟩
    rcases List.mem_filter.1 hmem with ⟨hmem2, hpk⟩
    have hg : getk rt.columns ce.1 = some ce.2 := getk_of_mem_nodup hk (by
      cases ce; exact hmem2)
    rw [hce] at hg
    rw [hg] at h
    injection h with h
    rw [← h]
    exact hpk
  · intro hpk
    have : cn ∈ (rt.columns.filter (fun ce => ce.2.primaryKey)).map (fun ce => ce.1) :=
      List.mem_map.2 ⟨(cn, rc), List.mem_filter.2 ⟨mem_of_getk_some h, hpk⟩, rfl⟩
    simpa using this

theorem guardColumnErrors_ne_nil_iff (s : NormalizedSchema) (hwf : WFSchema s)
    (tn cn : String) (c : NormalizedColumn) :
    GeneratorValidation.guardColumnErrors s (GeneratorValidation.buildPkColumns s)
        tn cn c ≠ [] ↔
      ∃ fk, c.foreignKey = some fk ∧
        (c.primaryKey = true ∨
         getk s.tables fk.table = none ∨
         (∃ rt, getk s.tables fk.table = some rt ∧ getk rt.columns fk.column = none) ∨
         (∃ rt rc, getk s.tables fk.table = some rt ∧
           getk rt.columns fk.column = some rc ∧ rc.primaryKey = false)) := by
  unfold GeneratorValidation.guardColumnErrors
  cases hfk : c.foreignKey with
  | none => simp [hfk]
  | some fk =>
      cases hrt : getk s.tables fk.table with
      | none =>
          simp only [hfk, hrt, Option.isSome_some, Bool.true_and]
          constructor
          · intro _
            exact ⟨fk, rfl, Or.inr (Or.inl hrt)⟩
          · intro _
            cases hpk : c.primaryKey <;> simp
      | some rt =>
          have hrtmem := mem_of_getk_some hrt
          have hcolsnd : (keysOf rt.columns).Nodup := hwf.2 _ hrtmem
          cases hrc : getk rt.columns fk.column with
          | none =>
              simp only [hfk, hrt, hrc, Option.isSome_some, Bool.true_and]
              constructor
              · intro _
                exact ⟨fk, rfl, Or.inr (Or.inr (Or.inl ⟨rt, hrt, hrc⟩))⟩
              · intro _
                cases hpk : c.primaryKey <;> simp
          | some rc =>
              simp only [hfk, hrt, hrc,
                getk_buildPkColumns s hwf.1 fk.table rt hrt,
                Option.isSome_some, Bool.true_and]
              cases hpkc : rc.primaryKey with
              | true =>
                  have hcont := (pkList_contains_iff rt hcolsnd fk.column rc hrc).2 hpkc
                  rw [hcont]
                  simp only [if_true, List.append_nil]
                  cases hpk : c.primaryKey with
                  | true =>
                      simp only [if_true]
                      constructor
                      · intro _
                        exact ⟨fk, rfl, Or.inl (by simp)⟩
                      · intro _
                        simp
                  | false =>
                      simp only [Bool.false_eq_true, if_false]
                      constructor
                      · intro h
                        exact absurd rfl h
                      · rintro ⟨fk2, hfk2, hdis⟩
                        injection hfk2 with hfk3
                        subst hfk3
                        rcases hdis with h1 | h1 | hex | hex
                        · exact h1.elim
                        · rw [hrt] at h1
                          exact absurd h1 (by simp)
                        · rcases hex with ⟨rt2, h1, h2⟩
                          rw [hrt] at h1
                          injection h1 with h1
                          subst h1
                          rw [hrc] at h2
                          exact absurd h2 (by simp)
                        · rcases hex with ⟨rt2, rc2, h1, h2, h3⟩
                          rw [hrt] at h1
                          injection h1 with h1
                          subst h1
                          rw [hrc] at h2
                          injection h2 with h2
                          subst h2
                          rw [hpkc] at h3
                          exact absurd h3 (by simp)
              | false =>
                  have hcont : (((rt.columns.filter (fun ce => ce.2.primaryKey)).map
                      (fun ce => ce.1)).contains fk.column) = false := by
                    cases hc2 : (((rt.columns.filter (fun ce => ce.2.primaryKey)).map
                        (fun ce => ce.1)).contains fk.column) with
                    | false => rfl
                    | true =>
                        have := (pkList_contains_iff rt hcolsnd fk.column rc hrc).1 hc2
                        rw [this] at hpkc
                        exact absurd hpkc (by simp)
                  rw [hcont]
                  simp only [Bool.false_eq_true, if_false]
                  constructor
                  · intro _
                    exact ⟨fk, rfl, Or.inr (Or.inr (Or.inr ⟨rt, rc, hrt, hrc, hpkc⟩))⟩
                  · intro _
                    cases hpk : c.primaryKey <;> simp

theorem guardErrors_ne_nil_iff (s : NormalizedSchema) (hwf : WFSchema s) :
    GeneratorValidation.validateForeignKeysErrors s ≠ [] ↔ GuardViolation s := by
  unfold GeneratorValidation.validateForeignKeysErrors GuardViolation
  constructor
  · intro h
    have h2 : ¬ ∀ te ∈ s.tables, ((te.2.columns.map (fun ce =>
        GeneratorValidation.guardColumnErrors s (GeneratorValidation.buildPkColumns s)
          te.1 ce.1 ce.2)).flatten = []) := by
      intro hall
      apply h
      rw [List.flatten_eq_nil_iff]
      intro x hx
      rcases List.mem_map.1 hx with ⟨te, hte, rfl⟩
      exact hall te hte
    push_neg at h2
    rcases h2 with ⟨te, hte, hne⟩
    have h3 : ¬ ∀ ce ∈ te.2.columns,
        GeneratorValidation.guardColumnErrors s (GeneratorValidation.buildPkColumns s)
          te.1 ce.1 ce.2 = [] := by
      intro hall
      apply hne
      rw [List.flatten_eq_nil_iff]
      intro x hx
      rcases List.mem_map.1 hx with ⟨ce, hce, rfl⟩
      exact hall ce hce
    push_neg at h3
    rcases h3 with ⟨ce, hce, hcne⟩
    rcases (guardColumnErrors_ne_nil_iff s hwf te.1 ce.1 ce.2).1 hcne with ⟨fk, h1, hdis⟩
    exact ⟨te, hte, ce, hce, fk, h1, hdis⟩
  · rintro ⟨te, hte, ce, hce, fk, h1, hdis⟩
    have hne := (guardColumnErrors_ne_nil_iff s hwf te.1 ce.1 ce.2).2 ⟨fk, h1, hdis⟩
    intro hnil
    apply hne
    have hx := List.flatten_eq_nil_iff.1 hnil _ (List.mem_map.2 ⟨te, hte, rfl⟩)
    exact List.flatten_eq_nil_iff.1 hx _ (List.mem_map.2 ⟨ce, hce, rfl⟩)

/-- C3: for well-formed canonical schemas, a Generation Guard violation
is exactly a non-empty guard error list; with a violation both
renderers fail with the single aggregated message (`guardMessage`
numbers every violation with its 1-based index); without one both
succeed (and, being pure functions, their output is identical across
repeated calls on the same schema). -/
theorem claim_C3 (s : NormalizedSchema) (hwf : WFSchema s) :
    (GuardViolation s ↔ GeneratorValidation.validateForeignKeysErrors s ≠ []) ∧
    (GuardViolation s →
      PostgresGenerator.generatePostgresSQL s =
        Except.error (GeneratorValidation.guardMessage
          (GeneratorValidation.validateForeignKeysErrors s)) ∧
      PrismaGenerator.generatePrismaSchema s =
        Except.error (GeneratorValidation.guardMessage
          (GeneratorValidation.validateForeignKeysErrors s))) ∧
    (¬ GuardViolation s →
      (∃ out, PostgresGenerator.generatePostgresSQL s = Except.ok out) ∧
      (∃ out, PrismaGenerator.generatePrismaSchema s = Except.ok out)) := by
  have hiff := guardErrors_ne_nil_iff s hwf
  refine ⟨hiff.symm, ?_, ?_⟩
  · intro hv
    have hne := hiff.2 hv
    have hempty : (GeneratorValidation.validateForeignKeysErrors s).isEmpty = false := by
      rw [← Bool.not_eq_true, List.isEmpty_iff]
      exact hne
    have hval : GeneratorValidation.validateSchemaForGeneration s =
        Except.error (GeneratorValidation.guardMessage
          (GeneratorValidation.validateForeignKeysErrors s)) := by
      unfold GeneratorValidation.validateSchemaForGeneration
        GeneratorValidation.validateForeignKeys
      simp [hempty]
    constructor
    · unfold PostgresGenerator.generatePostgresSQL
      rw [hval]
    · unfold PrismaGenerator.generatePrismaSchema
      rw [hval]
  · intro hnv
    have hnil : GeneratorValidation.validateForeignKeysErrors s = [] := by
      by_contra hne
      exact hnv (hiff.1 hne)
    have hval : GeneratorValidation.validateSchemaForGeneration s = Except.ok () := by
      unfold GeneratorValidation.validateSchemaForGeneration
        GeneratorValidation.validateForeignKeys
      simp [hnil]
    constructor
    · cases hgen : PostgresGenerator.generatePostgresSQL s with
      | ok out => exact ⟨out, rfl⟩
      | error e =>
          exfalso
          unfold PostgresGenerator.generatePostgresSQL at hgen
          rw [hval] at hgen
          simp at hgen
    · cases hgen : PrismaGenerator.generatePrismaSchema s with
      | ok out => exact ⟨out, rfl⟩
      | error e =>
          exfalso
          unfold PrismaGenerator.generatePrismaSchema at hgen
          rw [hval] at hgen
          simp at hgen

/-- C3 witness: the renderers reject a schema whose foreign key targets
a missing table with the aggregated message, and succeed on the empty
schema. -/
theorem claim_C3_witness :
    (PostgresGenerator.generatePostgresSQL badFKSchema =
      Except.error (GeneratorValidation.guardMessage
        (GeneratorValidation.validateForeignKeysErrors badFKSchema))) ∧
    (∃ out, PostgresGenerator.generatePostgresSQL emptySchema = Except.ok out) := by
  constructor
  · have hv : GuardViolation badFKSchema := by
      refine ⟨("a", { name := "a", columns := [("x",
        { name := "x", type := "int", primaryKey := false, nullable := false,
          unique := false, foreignKey := some { table := "zz", column := "id" },
          default := none })] }), by decide, ("x",
        { name := "x", type := "int", primaryKey := false, nullable := false,
          unique := false, foreignKey := some { table := "zz", column := "id" },
          default := none }), by decide, { table := "zz", column := "id" }, rfl, ?_⟩
      exact Or.inr (Or.inl rfl)
    exact ((claim_C3 badFKSchema (by decide)).2.1 hv).1
  · have hnv : ¬ GuardViolation emptySchema := by
      rintro ⟨te, hte, _⟩
      simp [emptySchema] at hte
    exact ((claim_C3 emptySchema (by decide)).2.2 hnv).1

/-! ## Claim C7: PK+FK columns pass the Validator but fail the Guard -/

theorem fkColumnErrors_fields (s : NormalizedSchema) (tn tName cn : String)
    (c : NormalizedColumn) :
    ∀ e ∈ SchemaValidator.fkColumnErrors s tn tName cn c,
      e.table = some tn ∧ e.column = some cn := by
  intro e he
  unfold SchemaValidator.fkColumnErrors at he
  cases hfk : c.foreignKey with
  | none => simp only [hfk] at he; simp at he
  | some fk =>
      simp only [hfk] at he
      cases hrt : getk s.tables fk.table with
      | none =>
          simp only [hrt] at he
          simp at he
          subst he
          exact ⟨rfl, rfl⟩
      | some rt =>
          simp only [hrt] at he
          cases hrc : getk rt.columns fk.column with
          | none =>
              simp only [hrc] at he
              simp at he
              subst he
              exact ⟨rfl, rfl⟩
          | some rc =>
              simp only [hrc] at he
              rcases List.mem_append.1 he with h | h
              all_goals
                split_ifs at h with hcond
                · simp at h; subst h; exact ⟨rfl, rfl⟩
                · simp at h

theorem fkColumnErrors_clean (s : NormalizedSchema) (tn tName cn : String)
    (c : NormalizedColumn) (fk : ForeignKeyRef) (rt : NormalizedTable)
    (rc : NormalizedColumn) (hfk : c.foreignKey = some fk)
    (hrt : getk s.tables fk.table = some rt)
    (hrc : getk rt.columns fk.column = some rc)
    (hpk : rc.primaryKey = true) (htype : c.type = rc.type) :
    SchemaValidator.fkColumnErrors s tn tName cn c = [] := by
  unfold SchemaValidator.fkColumnErrors
  rw [hfk]
  simp only [hrt, hrc]
  simp [hpk, htype]

theorem mem_validateForeignKeys (s : NormalizedSchema) (e : ValidationError) :
    e ∈ SchemaValidator.validateForeignKeys s ↔
      ∃ te ∈ s.tables, ∃ ce ∈ te.2.columns,
        e ∈ SchemaValidator.fkColumnErrors s te.1 te.2.name ce.1 ce.2 := by
  unfold SchemaValidator.validateForeignKeys
  rw [List.mem_flatten]
  constructor
  · rintro ⟨l, hl, hel⟩
    rcases List.mem_map.1 hl with ⟨te, hte, rfl⟩
    rcases List.mem_flatten.1 hel with ⟨l2, hl2, hel2⟩
    rcases List.mem_map.1 hl2 with ⟨ce, hce, rfl⟩
    exact ⟨te, hte, ce, hce, hel2⟩
  · rintro ⟨te, hte, ce, hce, hel⟩
    refine ⟨_, List.mem_map.2 ⟨te, hte, rfl⟩, ?_⟩
    exact List.mem_flatten.2 ⟨_, List.mem_map.2 ⟨ce, hce, rfl⟩, hel⟩

/-- C7: a column that is simultaneously a primary key and a foreign key
whose target resolves to an existing primary-key column of equal
declared type produces no error at all in the advisory Validator's
foreign-key pass, yet makes the Generation Guard (and therefore both
renderers) fail, listing the CRITICAL violation for that column. -/
theorem claim_C7 (s : NormalizedSchema) (hwf : WFSchema s)
    (tn cn : String) (t : NormalizedTable) (c : NormalizedColumn)
    (fk : ForeignKeyRef) (rt : NormalizedTable) (rc : NormalizedColumn)
    (hts : (tn, t) ∈ s.tables) (hcs : (cn, c) ∈ t.columns)
    (hpk : c.primaryKey = true) (hfk : c.foreignKey = some fk)
    (hrt : getk s.tables fk.table = some rt)
    (hrc : getk rt.columns fk.column = some rc)
    (hrcpk : rc.primaryKey = true) (htype : c.type = rc.type) :
    ((SchemaValidator.validateForeignKeys s).filter
      (fun e => e.table == some tn && e.column == some cn)) = [] ∧
    ("CRITICAL: Column " ++ sqStr ++ cn ++ sqStr ++ " in table " ++ sqStr ++ tn ++ sqStr ++
      " is marked as PRIMARY KEY but has foreignKey metadata. Foreign keys can only exist on non-primary key columns.")
      ∈ GeneratorValidation.validateForeignKeysErrors s ∧
    PostgresGenerator.generatePostgresSQL s =
      Except.error (GeneratorValidation.guardMessage
        (GeneratorValidation.validateForeignKeysErrors s)) ∧
    PrismaGenerator.generatePrismaSchema s =
      Except.error (GeneratorValidation.guardMessage
        (GeneratorValidation.validateForeignKeysErrors s)) := by
  have hviol : GuardViolation s := ⟨(tn, t), hts, (cn, c), hcs, fk, hfk, Or.inl hpk⟩
  have hgen := (claim_C3 s hwf).2.1 hviol
  refine ⟨?_, ?_, hgen.1, hgen.2⟩
  · rw [List.filter_eq_nil_iff]
    intro e he hpred
    rcases (mem_validateForeignKeys s e).1 he with ⟨te, hte, ce, hce, hel⟩
    have hfields := fkColumnErrors_fields s te.1 te.2.name ce.1 ce.2 e hel
    simp only [Bool.and_eq_true, beq_iff_eq] at hpred
    have htn : te.1 = tn := by
      rw [hfields.1] at hpred
      exact Option.some.inj hpred.1
    have hcn : ce.1 = cn := by
      rw [hfields.2] at hpred
      exact Option.some.inj hpred.2
    have hteq : te.2 = t := by
      have g1 : getk s.tables te.1 = some te.2 := getk_of_mem_nodup hwf.1 (by
        cases te; exact hte)
      have g2 : getk s.tables tn = some t := getk_of_mem_nodup hwf.1 hts
      rw [htn, g2] at g1
      exact (Option.some.inj g1).symm
    have hcolnd : (keysOf t.columns).Nodup := hwf.2 (tn, t) hts
    have hceq : ce.2 = c := by
      have g1 : getk t.columns ce.1 = some ce.2 := by
        apply getk_of_mem_nodup hcolnd
        rw [← hteq]
        cases ce; exact hce
      have g2 : getk t.columns cn = some c := getk_of_mem_nodup hcolnd hcs
      rw [hcn, g2] at g1
      exact (Option.some.inj g1).symm
    rw [htn, hcn, hteq, hceq] at hel
    rw [fkColumnErrors_clean s tn t.name cn c fk rt rc hfk hrt hrc hrcpk htype] at hel
    simp at hel
  · unfold GeneratorValidation.validateForeignKeysErrors
    apply List.mem_flatten.2
    refine ⟨_, List.mem_map.2 ⟨(tn, t), hts, rfl⟩, ?_⟩
    apply List.mem_flatten.2
    refine ⟨_, List.mem_map.2 ⟨(cn, c), hcs, rfl⟩, ?_⟩
    unfold GeneratorValidation.guardColumnErrors
    rw [hfk]
    simp [hpk]

/-- C7 witness: table `b.id` is both primary key and foreign key to
`a.id` (same type, target is a primary key). -/
theorem claim_C7_witness :
    ((SchemaValidator.validateForeignKeys
      { tables := [("a", { name := "a", columns := [("id",
          { name := "id", type := "int", primaryKey := true, nullable := false,
            unique := false, foreignKey := none, default := none })] }),
        ("b", { name := "b", columns := [("id",
          { name := "id", type := "int", primaryKey := true, nullable := false,
            unique := false, foreignKey := some { table := "a", column := "id" },
            default := none })] })], positions := none }).filter
      (fun e => e.table == some "b" && e.column == some "id")) = [] ∧
    ("CRITICAL: Column " ++ sqStr ++ "id" ++ sqStr ++ " in table " ++ sqStr ++ "b" ++ sqStr ++
      " is marked as PRIMARY KEY but has foreignKey metadata. Foreign keys can only exist on non-primary key columns.")
      ∈ GeneratorValidation.validateForeignKeysErrors
      { tables := [("a", { name := "a", columns := [("id",
          { name := "id", type := "int", primaryKey := true, nullable := false,
            unique := false, foreignKey := none, default := none })] }),
        ("b", { name := "b", columns := [("id",
          { name := "id", type := "int", primaryKey := true, nullable := false,
            unique := false, foreignKey := some { table := "a", column := "id" },
            default := none })] })], positions := none } := by
  have h := claim_C7
    { tables := [("a", { name := "a", columns := [("id",
        { name := "id", type := "int", primaryKey := true, nullable := false,
          unique := false, foreignKey := none, default := none })] }),
      ("b", { name := "b", columns := [("id",
        { name := "id", type := "int", primaryKey := true, nullable := false,
          unique := false, foreignKey := some { table := "a", column := "id" },
          default := none })] })], positions := none }
    (by decide) "b" "id"
    { name := "b", columns := [("id",
      { name := "id", type := "int", primaryKey := true, nullable := false,
        unique := false, foreignKey := some { table := "a", column := "id" },
        default := none })] }
    { name := "id", type := "int", primaryKey := true, nullable := false,
      unique := false, foreignKey := some { table := "a", column := "id" },
      default := none }
    { table := "a", column := "id" }
    { name := "a", columns := [("id",
      { name := "id", type := "int", primaryKey := true, nullable := false,
        unique := false, foreignKey := none, default := none })] }
    { name := "id", type := "int", primaryKey := true, nullable := false,
      unique := false, foreignKey := none, default := none }
    (by decide) (by decide) rfl rfl (by decide) (by decide) rfl rfl
  exact ⟨h.1, h.2.1⟩

/-! ## Claim C2: the Validator decides exactly the rule set -/

theorem ite_err_nil_iff {α : Type} (b : Bool) (l : List α) (hl : l ≠ []) :
    (if b = true then l else []) = [] ↔ b = false := by
  cases b <;> simp [hl]

theorem isSnakeCase_ne_empty {n : String} (h : SchemaValidator.isSnakeCase n = true) :
    ¬ (n = "" ∨ trimEmpty n = true) := by
  intro hor
  unfold SchemaValidator.isSnakeCase at h
  rcases hor with h1 | h1
  · rw [if_pos (by simp [h1])] at h
    exact absurd h (by simp)
  · rw [if_pos (by simp [h1])] at h
    exact absurd h (by simp)

theorem validateTablesAux_nil_iff :
    ∀ (entries : List (String × NormalizedTable)) (seen : List String),
      SchemaValidator.validateTablesAux entries seen = [] ↔
        ((∀ te ∈ entries,
            SchemaValidator.isSnakeCase te.2.name = true ∧
            SchemaValidator.isReservedKeyword te.2.name = false ∧
            te.2.columns ≠ []) ∧
         (entries.map (fun te => toLowerStr te.2.name)).Nodup ∧
         (∀ te ∈ entries, toLowerStr te.2.name ∉ seen)) := by
  intro entries
  induction entries with
  | nil => intro seen; simp [SchemaValidator.validateTablesAux]
  | cons te rest ih =>
      intro seen
      obtain ⟨tn, t⟩ := te
      simp only [SchemaValidator.validateTablesAux]
      constructor
      · intro h
        rcases List.append_eq_nil.1 h with ⟨h, hrec⟩
        rcases List.append_eq_nil.1 h with ⟨h, h5⟩
        rcases List.append_eq_nil.1 h with ⟨h, h4⟩
        rcases List.append_eq_nil.1 h with ⟨h, h3⟩
        rcases List.append_eq_nil.1 h with ⟨h1, h2⟩
        have hne : ¬ (t.name = "" ∨ trimEmpty t.name = true) := by
          intro hor
          rcases hor with ho | ho <;> simp [ho] at h1
        have hnem : t.name ≠ "" := fun hh => hne (Or.inl hh)
        have hsnake : SchemaValidator.isSnakeCase t.name = true := by
          by_contra hs
          simp [hnem, hs] at h2
        have hres : SchemaValidator.isReservedKeyword t.name = false := by
          by_contra hs
          simp [hnem, Bool.not_eq_false] at hs
          simp [hnem, hs] at h3
        have hseen : toLowerStr t.name ∉ seen := by
          intro hs
          simp [hnem, hs] at h4
        have hcols : t.columns ≠ [] := by
          intro hs
          simp [hs] at h5
        have hseen2 : (if (t.name != "") = true then seen ++ [toLowerStr t.name] else seen) =
            seen ++ [toLowerStr t.name] := by simp [hnem]
        rw [hseen2] at hrec
        rcases (ih (seen ++ [toLowerStr t.name])).1 hrec with ⟨hall, hnd, hdisj⟩
        refine ⟨?_, ?_, ?_⟩
        · intro te2 hte2
          rcases List.mem_cons.1 hte2 with h | h
          · subst h; exact ⟨hsnake, hres, hcols⟩
          · exact hall te2 h
        · rw [List.map_cons, List.nodup_cons]
          constructor
          · intro hmem
            rcases List.mem_map.1 hmem with ⟨te2, hte2, heq⟩
            have := hdisj te2 hte2
            rw [heq] at this
            exact this (by simp)
          · exact hnd
        · intro te2 hte2
          rcases List.mem_cons.1 hte2 with h | h
          · subst h; exact hseen
          · intro hmem
            exact hdisj te2 h (by simp [hmem])
      · rintro ⟨hall, hnd, hdisj⟩
        have hhead := hall (tn, t) (List.mem_cons_self _ _)
        have hsnake := hhead.1
        have hres := hhead.2.1
        have hcols := hhead.2.2
        have hne := isSnakeCase_ne_empty hsnake
        have hnem : t.name ≠ "" := fun hh => hne (Or.inl hh)
        have hseen : toLowerStr t.name ∉ seen := hdisj (tn, t) (List.mem_cons_self _ _)
        rw [List.map_cons, List.nodup_cons] at hnd
        have hrec : SchemaValidator.validateTablesAux rest
            (if (t.name != "") = true then seen ++ [toLowerStr t.name] else seen) = [] := by
          rw [if_pos (by simp [hnem])]
          apply (ih (seen ++ [toLowerStr t.name])).2
          refine ⟨fun te2 h => hall te2 (List.mem_cons_of_mem _ h), hnd.2, ?_⟩
          intro te2 hte2
          intro hmem
          rcases List.mem_append.1 hmem with h | h
          · exact hdisj te2 (List.mem_cons_of_mem _ hte2) h
          · simp at h
            exact hnd.1 (h ▸ List.mem_map.2 ⟨te2, hte2, rfl⟩)
        have hcond : (decide (t.name = "") || trimEmpty t.name) = false := by
          simp only [Bool.or_eq_false_iff, decide_eq_false_iff_not]
          exact ⟨hnem, by
            cases hte : trimEmpty t.name with
            | false => rfl
            | true => exact absurd (Or.inr hte) hne⟩
        have htrim : trimEmpty t.name = false := (Bool.or_eq_false_iff.1 hcond).2
        have hrec2 : SchemaValidator.validateTablesAux rest
            (seen ++ [toLowerStr t.name]) = [] := by
          simpa [hnem] using hrec
        simp [hcond, hnem, hsnake, hres, hcols, hseen, hrec2, htrim]

theorem validateTables_nil_iff (s : NormalizedSchema) :
    SchemaValidator.validateTables s = [] ↔ tableRulesOk s := by
  unfold SchemaValidator.validateTables tableRulesOk
  rw [validateTablesAux_nil_iff s.tables []]
  simp

theorem validateColumnsCols_snd (tn tN : String) :
    ∀ (entries : List (String × NormalizedColumn)) (seen : List String),
      (SchemaValidator.validateColumnsCols tn tN entries seen).2 =
        (entries.filter (fun ce => ce.2.primaryKey)).map (fun ce => ce.1) := by
  intro entries
  induction entries with
  | nil => intro seen; simp [SchemaValidator.validateColumnsCols]
  | cons ce rest ih =>
      intro seen
      obtain ⟨cn, c⟩ := ce
      simp only [SchemaValidator.validateColumnsCols, List.filter_cons]
      cases hpk : c.primaryKey <;> simp [ih, hpk]

theorem validateColumnsCols_fst_nil_iff (tn tN : String) :
    ∀ (entries : List (String × NormalizedColumn)) (seen : List String),
      (SchemaValidator.validateColumnsCols tn tN entries seen).1 = [] ↔
        ((∀ ce ∈ entries,
            SchemaValidator.isSnakeCase ce.2.name = true ∧
            trimEmpty ce.2.type = false) ∧
         (entries.map (fun ce => toLowerStr ce.2.name)).Nodup ∧
         (∀ ce ∈ entries, toLowerStr ce.2.name ∉ seen)) := by
  intro entries
  induction entries with
  | nil => intro seen; simp [SchemaValidator.validateColumnsCols]
  | cons ce rest ih =>
      intro seen
      obtain ⟨cn, c⟩ := ce
      simp only [SchemaValidator.validateColumnsCols]
      constructor
      · intro h
        rcases List.append_eq_nil.1 h with ⟨h, hrec⟩
        rcases List.append_eq_nil.1 h with ⟨h, h4⟩
        rcases List.append_eq_nil.1 h with ⟨h, h3⟩
        rcases List.append_eq_nil.1 h with ⟨h1, h2⟩
        have hne : ¬ (c.name = "" ∨ trimEmpty c.name = true) := by
          intro hor
          rcases hor with ho | ho <;> simp [ho] at h1
        have hnem : c.name ≠ "" := fun hh => hne (Or.inl hh)
        have hsnake : SchemaValidator.isSnakeCase c.name = true := by
          by_contra hs
          simp [hnem, hs] at h2
        have hseen : toLowerStr c.name ∉ seen := by
          intro hs
          simp [hnem, hs] at h3
        have htype : trimEmpty c.type = false := by
          cases hte : trimEmpty c.type with
          | false => rfl
          | true => simp [hte] at h4
        have hrec2 : (SchemaValidator.validateColumnsCols tn tN rest
            (seen ++ [toLowerStr c.name])).1 = [] := by
          simpa [hnem] using hrec
        rcases (ih (seen ++ [toLowerStr c.name])).1 hrec2 with ⟨hall, hnd, hdisj⟩
        refine ⟨?_, ?_, ?_⟩
        · intro ce2 hce2
          rcases List.mem_cons.1 hce2 with hh | hh
          · subst hh; exact ⟨hsnake, htype⟩
          · exact hall ce2 hh
        · rw [List.map_cons, List.nodup_cons]
          refine ⟨?_, hnd⟩
          intro hmem
          rcases List.mem_map.1 hmem with ⟨ce2, hce2, heq⟩
          have := hdisj ce2 hce2
          rw [heq] at this
          exact this (by simp)
        · intro ce2 hce2
          rcases List.mem_cons.1 hce2 with hh | hh
          · subst hh; exact hseen
          · intro hmem
            exact hdisj ce2 hh (by simp [hmem])
      · rintro ⟨hall, hnd, hdisj⟩
        have hhead := hall (cn, c) (List.mem_cons_self _ _)
        have hsnake := hhead.1
        have htype := hhead.2
        have hne := isSnakeCase_ne_empty hsnake
        have hnem : c.name ≠ "" := fun hh => hne (Or.inl hh)
        have hseen : toLowerStr c.name ∉ seen := hdisj (cn, c) (List.mem_cons_self _ _)
        rw [List.map_cons, List.nodup_cons] at hnd
        have hrec : (SchemaValidator.validateColumnsCols tn tN rest
            (seen ++ [toLowerStr c.name])).1 = [] := by
          apply (ih (seen ++ [toLowerStr c.name])).2
          refine ⟨fun ce2 hh => hall ce2 (List.mem_cons_of_mem _ hh), hnd.2, ?_⟩
          intro ce2 hce2 hmem
          rcases List.mem_append.1 hmem with hh | hh
          · exact hdisj ce2 (List.mem_cons_of_mem _ hce2) hh
          · simp at hh
            exact hnd.1 (hh ▸ List.mem_map.2 ⟨ce2, hce2, rfl⟩)
        have hcond : (decide (c.name = "") || trimEmpty c.name) = false := by
          simp only [Bool.or_eq_false_iff, decide_eq_false_iff_not]
          exact ⟨hnem, by
            cases hte : trimEmpty c.name with
            | false => rfl
            | true => exact absurd (Or.inr hte) hne⟩
        have htrim : trimEmpty c.name = false := (Bool.or_eq_false_iff.1 hcond).2
        have hcond2 : (decide (c.type = "") || trimEmpty c.type) = false := by
          simp only [Bool.or_eq_false_iff, decide_eq_false_iff_not]
          refine ⟨?_, htype⟩
          intro hh
          rw [hh] at htype
          simp [trimEmpty] at htype
        have htypene : c.type ≠ "" := by
          intro hh
          rw [hh] at htype
          simp [trimEmpty] at htype
        simp [hcond, hcond2, hnem, hsnake, hseen, hrec, htrim, htype, htypene]

theorem validateColumnsTable_nil_iff (te : String × NormalizedTable) :
    SchemaValidator.validateColumnsTable te = [] ↔
      ((∀ ce ∈ te.2.columns,
          SchemaValidator.isSnakeCase ce.2.name = true ∧
          trimEmpty ce.2.type = false) ∧
       (te.2.columns.map (fun ce => toLowerStr ce.2.name)).Nodup ∧
       (te.2.columns.filter (fun ce => ce.2.primaryKey)).length ≤ 1) := by
  unfold SchemaValidator.validateColumnsTable
  rw [List.append_eq_nil]
  rw [validateColumnsCols_fst_nil_iff te.1 te.2.name te.2.columns []]
  rw [validateColumnsCols_snd te.1 te.2.name te.2.columns []]
  constructor
  · rintro ⟨⟨hall, hnd, _⟩, hpk⟩
    refine ⟨hall, hnd, ?_⟩
    by_contra hlen
    push_neg at hlen
    have hgt : ((te.2.columns.filter (fun ce => ce.2.primaryKey)).map
        (fun ce => ce.1)).length > 1 := by
      rw [List.length_map]
      exact hlen
    rw [if_pos hgt] at hpk
    have : ((te.2.columns.filter (fun ce => ce.2.primaryKey)).map
        (fun ce => ce.1)).drop 1 ≠ [] := by
      intro hh
      have := congrArg List.length hh
      simp [List.length_drop] at this
      omega
    rcases List.exists_cons_of_ne_nil this with ⟨a, l2, hal⟩
    rw [hal] at hpk
    simp at hpk
  · rintro ⟨hall, hnd, hlen⟩
    refine ⟨⟨hall, hnd, by simp⟩, ?_⟩
    rw [if_neg]
    intro hgt
    rw [List.length_map] at hgt
    omega

theorem validateColumns_nil_iff (s : NormalizedSchema) :
    SchemaValidator.validateColumns s = [] ↔ columnRulesOk s := by
  unfold SchemaValidator.validateColumns columnRulesOk
  rw [List.flatten_eq_nil_iff]
  constructor
  · intro h te hte
    have := h _ (List.mem_map.2 ⟨te, hte, rfl⟩)
    exact (validateColumnsTable_nil_iff te).1 this
  · intro h x hx
    rcases List.mem_map.1 hx with ⟨te, hte, rfl⟩
    exact (validateColumnsTable_nil_iff te).2 (h te hte)

theorem fkColumnErrors_nil_iff (s : NormalizedSchema) (tn tName cn : String)
    (c : NormalizedColumn) :
    SchemaValidator.fkColumnErrors s tn tName cn c = [] ↔
      ∀ fk, c.foreignKey = some fk →
        ∃ rt, getk s.tables fk.table = some rt ∧
          ∃ rc, getk rt.columns fk.column = some rc ∧
            rc.primaryKey = true ∧ (c.type ≠ "" → rc.type ≠ "" → c.type = rc.type) := by
  unfold SchemaValidator.fkColumnErrors
  cases hfk : c.foreignKey with
  | none => simp [hfk]
  | some fk =>
      simp only [hfk]
      cases hrt : getk s.tables fk.table with
      | none =>
          simp only [hrt]
          constructor
          · intro h; simp at h
          · intro hall
            rcases hall fk rfl with ⟨rt, hrt2, _⟩
            rw [hrt] at hrt2
            exact absurd hrt2 (by simp)
      | some rt =>
          simp only [hrt]
          cases hrc : getk rt.columns fk.column with
          | none =>
              simp only [hrc]
              constructor
              · intro h; simp at h
              · intro hall
                rcases hall fk rfl with ⟨rt2, hrt2, rc2, hrc2, _⟩
                rw [hrt] at hrt2
                injection hrt2 with hrt2
                subst hrt2
                rw [hrc] at hrc2
                exact absurd hrc2 (by simp)
          | some rc =>
              simp only [hrc]
              constructor
              · intro h
                rcases List.append_eq_nil.1 h with ⟨h1, h2⟩
                have hpk : rc.primaryKey = true := by
                  by_contra hs
                  simp [hs] at h1
                have himp : c.type ≠ "" → rc.type ≠ "" → c.type = rc.type := by
                  intro ha hb
                  by_contra hcne
                  simp [ha, hb, hcne] at h2
                intro fk2 hfk2
                injection hfk2 with hfk3
                subst hfk3
                exact ⟨rt, hrt, rc, hrc, hpk, himp⟩
              · intro hall
                rcases hall fk rfl with ⟨rt2, hrt2, rc2, hrc2, hpk, himp⟩
                rw [hrt] at hrt2
                injection hrt2 with hrt2
                subst hrt2
                rw [hrc] at hrc2
                injection hrc2 with hrc2
                subst hrc2
                have h2 : ((c.type != "") && (rc.type != "") && (c.type != rc.type)) = false := by
                  by_cases hct : c.type = ""
                  · simp [hct]
                  · by_cases hrct : rc.type = ""
                    · simp [hrct]
                    · simp [hct, hrct, himp hct hrct]
                simp [hpk, h2]

theorem validateForeignKeysV_nil_iff (s : NormalizedSchema) :
    SchemaValidator.validateForeignKeys s = [] ↔ fkRulesOk s := by
  unfold SchemaValidator.validateForeignKeys fkRulesOk
  rw [List.flatten_eq_nil_iff]
  constructor
  · intro h te hte ce hce fk hfk
    have h1 := h _ (List.mem_map.2 ⟨te, hte, rfl⟩)
    rw [List.flatten_eq_nil_iff] at h1
    have h2 := h1 _ (List.mem_map.2 ⟨ce, hce, rfl⟩)
    exact (fkColumnErrors_nil_iff s te.1 te.2.name ce.1 ce.2).1 h2 fk hfk
  · intro h x hx
    rcases List.mem_map.1 hx with ⟨te, hte, rfl⟩
    rw [List.flatten_eq_nil_iff]
    intro y hy
    rcases List.mem_map.1 hy with ⟨ce, hce, rfl⟩
    exact (fkColumnErrors_nil_iff s te.1 te.2.name ce.1 ce.2).2
      (fun fk hfk => h te hte ce hce fk hfk)

theorem validateDefaultsCols_nil_iff (tn tN : String) :
    ∀ (entries : List (String × NormalizedColumn)) (autoCols : List String),
      SchemaValidator.validateDefaultsCols tn tN entries autoCols = [] ↔
        ((∀ ce ∈ entries, ∀ d, ce.2.default = some d →
            (d.kind = DefaultKind.autoincrement →
              ce.2.type = "int" ∧ ce.2.primaryKey = true) ∧
            (d.kind = DefaultKind.uuid → ce.2.type ≠ "int") ∧
            (d.kind = DefaultKind.now → ce.2.type = "timestamp")) ∧
         (if autoCols.isEmpty then
            (entries.filter (fun ce => ce.2.default.any
              (fun d => d.kind = DefaultKind.autoincrement))).length ≤ 1
          else
            (entries.filter (fun ce => ce.2.default.any
              (fun d => d.kind = DefaultKind.autoincrement))).length = 0)) := by
  intro entries
  induction entries with
  | nil =>
      intro autoCols
      cases autoCols <;> simp [SchemaValidator.validateDefaultsCols]
  | cons ce rest ih =>
      intro autoCols
      obtain ⟨cn, c⟩ := ce
      simp only [SchemaValidator.validateDefaultsCols]
      cases hdef : c.default with
      | none =>
          rw [ih autoCols]
          have hfilter : ((cn, c) :: rest).filter (fun ce => ce.2.default.any
              (fun d => d.kind = DefaultKind.autoincrement)) =
            rest.filter (fun ce => ce.2.default.any
              (fun d => d.kind = DefaultKind.autoincrement)) := by
            rw [List.filter_cons]
            simp [hdef]
          rw [hfilter]
          constructor
          · rintro ⟨hall, hcnt⟩
            refine ⟨?_, hcnt⟩
            intro ce2 hce2 d hd
            rcases List.mem_cons.1 hce2 with hh | hh
            · subst hh
              simp only [hdef] at hd
              exact absurd hd (by simp)
            · exact hall ce2 hh d hd
          · rintro ⟨hall, hcnt⟩
            exact ⟨fun ce2 hh d hd => hall ce2 (List.mem_cons_of_mem _ hh) d hd, hcnt⟩
      | some d =>
          have hfilter : ((cn, c) :: rest).filter (fun ce => ce.2.default.any
              (fun d => d.kind = DefaultKind.autoincrement)) =
            (if (c.default.any (fun d => d.kind = DefaultKind.autoincrement)) = true
             then [(cn, c)] else []) ++
            rest.filter (fun ce => ce.2.default.any
              (fun d => d.kind = DefaultKind.autoincrement)) := by
            rw [List.filter_cons]
            cases hb : (c.default.any (fun d => d.kind = DefaultKind.autoincrement)) <;>
              simp [hb]
          cases hkind : d.kind with
          | autoincrement =>
              simp only [hkind]
              have hauto : (c.default.any
                  (fun d => d.kind = DefaultKind.autoincrement)) = true := by
                simp [hdef, hkind]
              rw [hfilter, hauto]
              simp only [if_true, List.singleton_append, List.length_cons]
              constructor
              · intro h
                rcases List.append_eq_nil.1 h with ⟨h, hrec⟩
                rcases List.append_eq_nil.1 h with ⟨h1, h3⟩
                rcases List.append_eq_nil.1 h1 with ⟨h1, h2⟩
                have hempty : autoCols.isEmpty = true := by
                  cases hca : autoCols.isEmpty with
                  | true => rfl
                  | false => simp [hca] at h1
                have hint : c.type = "int" := by
                  by_contra hs
                  simp [hs] at h2
                have hpk : c.primaryKey = true := by
                  by_contra hs
                  simp [hs] at h3
                rw [ih (autoCols ++ [cn])] at hrec
                rcases hrec with ⟨hall, hcnt⟩
                have hcnt0 : (rest.filter (fun ce => ce.2.default.any
                    (fun d => d.kind = DefaultKind.autoincrement))).length = 0 := by
                  simpa using hcnt
                constructor
                · intro ce2 hce2 d2 hd2
                  rcases List.mem_cons.1 hce2 with hh | hh
                  · subst hh
                    simp only [hdef] at hd2
                    injection hd2 with hd3
                    subst hd3
                    refine ⟨fun _ => ⟨hint, hpk⟩, ?_, ?_⟩
                    · intro hk; rw [hkind] at hk; exact absurd hk (by simp)
                    · intro hk; rw [hkind] at hk; exact absurd hk (by simp)
                  · exact hall ce2 hh d2 hd2
                · rw [hempty]
                  simp [hcnt0]
              · rintro ⟨hall, hcnt⟩
                have hhead := hall (cn, c) (List.mem_cons_self _ _) d hdef
                have hint := (hhead.1 hkind).1
                have hpk := (hhead.1 hkind).2
                have hempty : autoCols.isEmpty = true := by
                  cases hca : autoCols.isEmpty with
                  | true => rfl
                  | false =>
                      rw [hca] at hcnt
                      simp at hcnt
                have hcnt0 : (rest.filter (fun ce => ce.2.default.any
                    (fun d => d.kind = DefaultKind.autoincrement))).length = 0 := by
                  rw [hempty] at hcnt
                  simp at hcnt
                  simp only [List.length_eq_zero]
                  rw [List.filter_eq_nil_iff]
                  intro ce hce
                  simp [hcnt ce.1 ce.2 hce]
                have hrec : SchemaValidator.validateDefaultsCols tn tN rest
                    (autoCols ++ [cn]) = [] := by
                  rw [ih (autoCols ++ [cn])]
                  refine ⟨fun ce2 hh d2 hd2 => hall ce2 (List.mem_cons_of_mem _ hh) d2 hd2, ?_⟩
                  simp [hcnt0]
                have hac : autoCols = [] := by
                  rwa [List.isEmpty_iff] at hempty
                rw [hac] at hrec
                rw [List.nil_append] at hrec
                have hint2 : c.type = "int" := hint
                have hpk2 : c.primaryKey = true := hpk
                simp [hac, hint2, hpk2, hrec]
          | uuid =>
              simp only [hkind]
              have hauto : (c.default.any
                  (fun d => d.kind = DefaultKind.autoincrement)) = false := by
                simp [hdef, hkind]
              rw [hfilter, hauto]
              simp only [Bool.false_eq_true, if_false, List.nil_append]
              constructor
              · intro h
                rcases List.append_eq_nil.1 h with ⟨h1, hrec⟩
                have hnotint : c.type ≠ "int" := by
                  intro hs
                  simp [hs] at h1
                rcases (ih autoCols).1 hrec with ⟨hall, hcnt⟩
                refine ⟨?_, hcnt⟩
                intro ce2 hce2 d2 hd2
                rcases List.mem_cons.1 hce2 with hh | hh
                · subst hh
                  simp only [hdef] at hd2
                  injection hd2 with hd3
                  subst hd3
                  refine ⟨?_, fun _ => hnotint, ?_⟩
                  · intro hk; rw [hkind] at hk; exact absurd hk (by simp)
                  · intro hk; rw [hkind] at hk; exact absurd hk (by simp)
                · exact hall ce2 hh d2 hd2
              · rintro ⟨hall, hcnt⟩
                have hhead := hall (cn, c) (List.mem_cons_self _ _) d hdef
                have hnotint : c.type ≠ "int" := hhead.2.1 hkind
                have hrec : SchemaValidator.validateDefaultsCols tn tN rest autoCols = [] :=
                  (ih autoCols).2
                    ⟨fun ce2 hh d2 hd2 => hall ce2 (List.mem_cons_of_mem _ hh) d2 hd2, hcnt⟩
                simp [hnotint, hrec]
          | now =>
              simp only [hkind]
              have hauto : (c.default.any
                  (fun d => d.kind = DefaultKind.autoincrement)) = false := by
                simp [hdef, hkind]
              rw [hfilter, hauto]
              simp only [Bool.false_eq_true, if_false, List.nil_append]
              constructor
              · intro h
                rcases List.append_eq_nil.1 h with ⟨h1, hrec⟩
                have hts : c.type = "timestamp" := by
                  by_contra hs
                  simp [hs] at h1
                rcases (ih autoCols).1 hrec with ⟨hall, hcnt⟩
                refine ⟨?_, hcnt⟩
                intro ce2 hce2 d2 hd2
                rcases List.mem_cons.1 hce2 with hh | hh
                · subst hh
                  simp only [hdef] at hd2
                  injection hd2 with hd3
                  subst hd3
                  refine ⟨?_, ?_, fun _ => hts⟩
                  · intro hk; rw [hkind] at hk; exact absurd hk (by simp)
                  · intro hk; rw [hkind] at hk; exact absurd hk (by simp)
                · exact hall ce2 hh d2 hd2
              · rintro ⟨hall, hcnt⟩
                have hhead := hall (cn, c) (List.mem_cons_self _ _) d hdef
                have hts : c.type = "timestamp" := hhead.2.2 hkind
                have hrec : SchemaValidator.validateDefaultsCols tn tN rest autoCols = [] :=
                  (ih autoCols).2
                    ⟨fun ce2 hh d2 hd2 => hall ce2 (List.mem_cons_of_mem _ hh) d2 hd2, hcnt⟩
                simp [hts, hrec]
          | value =>
              simp only [hkind]
              have hauto : (c.default.any
                  (fun d => d.kind = DefaultKind.autoincrement)) = false := by
                simp [hdef, hkind]
              rw [hfilter, hauto]
              simp only [Bool.false_eq_true, if_false, List.nil_append]
              constructor
              · intro hrec
                rcases (ih autoCols).1 hrec with ⟨hall, hcnt⟩
                refine ⟨?_, hcnt⟩
                intro ce2 hce2 d2 hd2
                rcases List.mem_cons.1 hce2 with hh | hh
                · subst hh
                  simp only [hdef] at hd2
                  injection hd2 with hd3
                  subst hd3
                  refine ⟨?_, ?_, ?_⟩
                  · intro hk; rw [hkind] at hk; exact absurd hk (by simp)
                  · intro hk; rw [hkind] at hk; exact absurd hk (by simp)
                  · intro hk; rw [hkind] at hk; exact absurd hk (by simp)
                · exact hall ce2 hh d2 hd2
              · rintro ⟨hall, hcnt⟩
                exact (ih autoCols).2
                  ⟨fun ce2 hh d2 hd2 => hall ce2 (List.mem_cons_of_mem _ hh) d2 hd2, hcnt⟩

theorem validateDefaults_nil_iff (s : NormalizedSchema) :
    SchemaValidator.validateDefaults s = [] ↔ defaultRulesOk s := by
  unfold SchemaValidator.validateDefaults defaultRulesOk
  rw [List.flatten_eq_nil_iff]
  constructor
  · intro h te hte
    have h1 := h _ (List.mem_map.2 ⟨te, hte, rfl⟩)
    rcases (validateDefaultsCols_nil_iff te.1 te.2.name te.2.columns []).1 h1 with ⟨hall, hcnt⟩
    simp at hcnt
    exact ⟨hcnt, hall⟩
  · intro h x hx
    rcases List.mem_map.1 hx with ⟨te, hte, rfl⟩
    rcases h te hte with ⟨hcnt, hall⟩
    apply (validateDefaultsCols_nil_iff te.1 te.2.name te.2.columns []).2
    exact ⟨hall, by simpa using hcnt⟩

/-- C2: the Validator is total (a pure function returning a result
record), and its verdict is `true` exactly when every rule of the four
rule groups holds; equivalently the error list is empty exactly then,
so every violation contributes at least one error and a fully
rule-abiding schema produces none. -/
theorem claim_C2 (s : NormalizedSchema) :
    ((SchemaValidator.validateSchema s).valid = true ↔ RulesOk s) ∧
    ((SchemaValidator.validateSchema s).errors = [] ↔ RulesOk s) := by
  have h1 := validateTables_nil_iff s
  have h2 := validateColumns_nil_iff s
  have h3 := validateForeignKeysV_nil_iff s
  have h4 := validateDefaults_nil_iff s
  have hsplit : (SchemaValidator.validateTables s ++ SchemaValidator.validateColumns s ++
      SchemaValidator.validateForeignKeys s ++ SchemaValidator.validateDefaults s) = [] ↔
      RulesOk s := by
    rw [List.append_eq_nil, List.append_eq_nil, List.append_eq_nil]
    rw [h1, h2, h3, h4]
    unfold RulesOk
    tauto
  constructor
  · show ((SchemaValidator.validateTables s ++ SchemaValidator.validateColumns s ++
      SchemaValidator.validateForeignKeys s ++
      SchemaValidator.validateDefaults s).isEmpty = true) ↔ RulesOk s
    rw [List.isEmpty_iff]
    exact hsplit
  · exact hsplit

/-! ## Claim C9: the table ordering terminates, is a permutation, and
respects acyclic dependencies -/

theorem nodup_subset_length_le {α : Type} [DecidableEq α] (l1 l2 : List α)
    (h1 : l1.Nodup) (hs : l1 ⊆ l2) : l1.length ≤ l2.length := by
  calc l1.length = l1.toFinset.card := (List.toFinset_card_of_nodup h1).symm
    _ ≤ l2.toFinset.card := Finset.card_le_card (fun x hx => by
        rw [List.mem_toFinset] at hx ⊢
        exact hs hx)
    _ ≤ l2.length := l2.toFinset_card_le

theorem getk_isSome_iff {α : Type} (m : StrMap α) (k : String) :
    (getk m k).isSome = true ↔ k ∈ keysOf m := by
  rw [← Option.ne_none_iff_isSome]
  constructor
  · intro h
    by_contra hmem
    exact h ((getk_eq_none_iff m k).2 hmem)
  · intro h hnone
    exact (getk_eq_none_iff m k).1 hnone h

theorem getk_buildDependencies (s : NormalizedSchema) (hk : (keysOf s.tables).Nodup)
    (a : String) (ta : NormalizedTable) (h : getk s.tables a = some ta) :
    getk (PostgresGenerator.buildDependencies s) a =
      some (PostgresGenerator.depsOfTable ta) := by
  unfold PostgresGenerator.buildDependencies
  rw [foldl_setk_append (fun te : String × NormalizedTable => te.1)
      (fun te => PostgresGenerator.depsOfTable te.2)
      s.tables [] (by simpa [keysOf] using hk) (fun te _ => by simp [getk])]
  rw [List.nil_append]
  exact getk_of_mem_nodup
    (by simpa [keysOf, List.map_map, Function.comp] using hk)
    (List.mem_map.2 ⟨(a, ta), mem_of_getk_some h, rfl⟩)

theorem erase_append_singleton {α : Type} [DecidableEq α] (l : List α) (a : α)
    (h : a ∉ l) : (l ++ [a]).erase a = l := by
  rw [List.erase_append_right _ h, List.erase_cons_head, List.append_nil]

theorem visit_shape (s : NormalizedSchema) (deps : StrMap (List String)) :
    ∀ (fuel : Nat) (name : String) (st : PostgresGenerator.VisitState),
      ∃ l, PostgresGenerator.visit s deps fuel name st =
          ⟨st.ordered ++ l, st.visited ++ l, st.visiting⟩ ∧
        (∀ x ∈ l, x ∈ keysOf s.tables ∨ x = name) ∧
        (∀ x ∈ l, x ∉ st.visiting) ∧
        (st.visited.Nodup → (st.visited ++ l).Nodup) ∧
        (0 < fuel → name ∉ st.visiting → name ∈ st.visited ++ l) := by
  intro fuel
  induction fuel with
  | zero =>
      intro name st
      refine ⟨[], by simp [PostgresGenerator.visit], by simp, by simp, by simp, ?_⟩
      intro h
      exact absurd h (by simp)
  | succ fuel ih =>
      have foldA : ∀ (ds : List String) (st1 : PostgresGenerator.VisitState),
          ∃ l, ds.foldl
              (fun s2 dep => if (getk s.tables dep).isSome = true
                then PostgresGenerator.visit s deps fuel dep s2 else s2) st1 =
              ⟨st1.ordered ++ l, st1.visited ++ l, st1.visiting⟩ ∧
            (∀ x ∈ l, x ∈ keysOf s.tables) ∧
            (∀ x ∈ l, x ∉ st1.visiting) ∧
            (st1.visited.Nodup → (st1.visited ++ l).Nodup) := by
        intro ds
        induction ds with
        | nil => intro st1; exact ⟨[], by simp, by simp, by simp, by simp⟩
        | cons d rest ihd =>
            intro st1
            simp only [List.foldl_cons]
            by_cases hg : (getk s.tables d).isSome = true
            · rw [if_pos hg]
              rcases ih d st1 with ⟨l1, heq1, hk1, hv1, hnd1, _⟩
              rw [heq1]
              rcases ihd ⟨st1.ordered ++ l1, st1.visited ++ l1, st1.visiting⟩ with
                ⟨l2, heq2, hk2, hv2, hnd2⟩
              refine ⟨l1 ++ l2, ?_, ?_, ?_, ?_⟩
              · rw [heq2]
                simp [List.append_assoc]
              · intro x hx
                rcases List.mem_append.1 hx with h | h
                · rcases hk1 x h with h2 | h2
                  · exact h2
                  · subst h2
                    exact (getk_isSome_iff s.tables x).1 hg
                · exact hk2 x h
              · intro x hx
                rcases List.mem_append.1 hx with h | h
                · exact hv1 x h
                · exact hv2 x h
              · intro hnd
                rw [← List.append_assoc]
                exact hnd2 (hnd1 hnd)
            · rw [if_neg hg]
              exact ihd st1
      intro name st
      by_cases h1 : st.visiting.contains name = true
      · have hmem : name ∈ st.visiting := by simpa using h1
        refine ⟨[], ?_, by simp, by simp, by simp, ?_⟩
        · show PostgresGenerator.visit s deps (fuel + 1) name st = _
          simp only [PostgresGenerator.visit]
          rw [if_pos h1]
          simp
        · intro _ hnm
          exact absurd hmem hnm
      · by_cases h2 : st.visited.contains name = true
        · refine ⟨[], ?_, by simp, by simp, by simp, ?_⟩
          · show PostgresGenerator.visit s deps (fuel + 1) name st = _
            simp only [PostgresGenerator.visit]
            rw [if_neg (by simpa using h1 : ¬ st.visiting.contains name = true), if_pos h2]
            simp
          · intro _ _
            simpa using h2
        · have hnv : name ∉ st.visiting := by simpa using h1
          have hnvd : name ∉ st.visited := by simpa using h2
          rcases foldA ((getk deps name).getD [])
              ⟨st.ordered, st.visited, st.visiting ++ [name]⟩ with
            ⟨l1, heqf, hkf, hvf, hndf⟩
          have hnamenotl1 : name ∉ l1 := by
            intro hmem
            exact hvf name hmem (by simp)
          refine ⟨l1 ++ [name], ?_, ?_, ?_, ?_, ?_⟩
          · show (PostgresGenerator.visit s deps (fuel + 1) name st) = _
            unfold PostgresGenerator.visit
            rw [if_neg (by simpa using h1), if_neg (by simpa using h2)]
            simp only [heqf]
            rw [erase_append_singleton _ _ hnv]
            simp [List.append_assoc]
          · intro x hx
            rcases List.mem_append.1 hx with h | h
            · exact Or.inl (hkf x h)
            · simp at h
              exact Or.inr h
          · intro x hx
            rcases List.mem_append.1 hx with h | h
            · intro hmem
              exact hvf x h (List.mem_append_left _ hmem)
            · simp at h
              subst h
              exact hnv
          · intro hnd
            rw [← List.append_assoc]
            have h3 := hndf hnd
            rw [List.nodup_append]
            refine ⟨h3, by simp, ?_⟩
            intro x hx
            simp only [List.mem_singleton]
            intro hxe
            subst hxe
            rcases List.mem_append.1 hx with h | h
            · exact hnvd h
            · exact hnamenotl1 h
          · intro _ _
            simp

theorem append_singleton_cases {α : Type} (A l1 l2 : List α) (x a : α)
    (h : A ++ [a] = l1 ++ x :: l2) :
    (l1 = A ∧ x = a ∧ l2 = []) ∨ ∃ l2b, l2 = l2b ++ [a] ∧ A = l1 ++ x :: l2b := by
  rcases List.eq_nil_or_concat l2 with h2 | ⟨l2b, b, rfl⟩
  · subst h2
    rcases List.append_inj' h (by rfl) with ⟨hA, hx⟩
    left
    exact ⟨hA.symm, (by simpa using hx.symm : x = a), rfl⟩
  · right
    rw [List.concat_eq_append,
      show l1 ++ x :: (l2b ++ [b]) = (l1 ++ x :: l2b) ++ [b] by simp] at h
    rcases List.append_inj' h (by rfl) with ⟨hA, hx⟩
    have hb : a = b := by simpa using hx
    subst hb
    exact ⟨l2b, by simp, hA⟩

theorem visit_topo (s : NormalizedSchema) (hk : (keysOf s.tables).Nodup)
    (hacyc : AcyclicDeps s) :
    ∀ (fuel : Nat) (name : String) (st : PostgresGenerator.VisitState),
      name ∈ keysOf s.tables →
      name ∉ st.visiting →
      st.visiting.Nodup →
      (∀ v ∈ st.visiting, v ∈ keysOf s.tables) →
      (∀ v ∈ st.visiting, Relation.ReflTransGen (DepRelE s) v name) →
      (keysOf s.tables).length + 1 ≤ fuel + st.visiting.length →
      st.ordered = st.visited →
      ClosedUnder s st.visited →
      TopoSorted s st.ordered →
      ∃ l, PostgresGenerator.visit s (PostgresGenerator.buildDependencies s) fuel name st =
          ⟨st.ordered ++ l, st.visited ++ l, st.visiting⟩ ∧
        name ∈ st.visited ++ l ∧
        ClosedUnder s (st.visited ++ l) ∧
        TopoSorted s (st.ordered ++ l) := by
  intro fuel
  induction fuel with
  | zero =>
      intro name st hnk hnv hvnd hvk _ hfuel _ _ _
      exfalso
      have hsub : st.visiting ++ [name] ⊆ keysOf s.tables := by
        intro x hx
        rcases List.mem_append.1 hx with h | h
        · exact hvk x h
        · simp at h
          subst h
          exact hnk
      have hnd2 : (st.visiting ++ [name]).Nodup := by
        rw [List.nodup_append]
        refine ⟨hvnd, List.nodup_singleton name, ?_⟩
        intro x hx
        simp only [List.mem_singleton]
        intro hxe
        subst hxe
        exact hnv hx
      have hle := nodup_subset_length_le _ _ hnd2 hsub
      rw [List.length_append, List.length_singleton] at hle
      omega
  | succ fuel ih =>
      intro name st hnk hnv hvnd hvk hpath hfuel hov hcl htopo
      by_cases h2 : st.visited.contains name = true
      · refine ⟨[], ?_, ?_, ?_, ?_⟩
        · simp only [PostgresGenerator.visit]
          rw [if_neg (by simpa using hnv : ¬ st.visiting.contains name = true), if_pos h2]
          simp
        · simpa using h2
        · simpa using hcl
        · simpa using htopo
      · have hsome : (getk s.tables name).isSome = true := (getk_isSome_iff _ _).2 hnk
        rcases Option.isSome_iff_exists.1 hsome with ⟨ta, hta⟩
        have hdeps : getk (PostgresGenerator.buildDependencies s) name =
            some (PostgresGenerator.depsOfTable ta) :=
          getk_buildDependencies s hk name ta hta
        have hVnd : (st.visiting ++ [name]).Nodup := by
          rw [List.nodup_append]
          refine ⟨hvnd, List.nodup_singleton name, ?_⟩
          intro x hx
          simp only [List.mem_singleton]
          intro hxe
          subst hxe
          exact hnv hx
        have hVk : ∀ v ∈ st.visiting ++ [name], v ∈ keysOf s.tables := by
          intro v hv
          rcases List.mem_append.1 hv with h | h
          · exact hvk v h
          · simp at h
            subst h
            exact hnk
        have foldT : ∀ (ds : List String),
            (∀ d ∈ ds, DepRel s name d) →
            ∀ (st1 : PostgresGenerator.VisitState),
            st1.visiting = st.visiting ++ [name] →
            st1.ordered = st1.visited →
            ClosedUnder s st1.visited →
            TopoSorted s st1.ordered →
            ∃ l, ds.foldl
                (fun s2 dep => if (getk s.tables dep).isSome = true
                  then PostgresGenerator.visit s (PostgresGenerator.buildDependencies s)
                    fuel dep s2
                  else s2) st1 =
                ⟨st1.ordered ++ l, st1.visited ++ l, st1.visiting⟩ ∧
              ClosedUnder s (st1.visited ++ l) ∧
              TopoSorted s (st1.ordered ++ l) ∧
              (∀ d ∈ ds, (getk s.tables d).isSome = true → d ∈ st1.visited ++ l) := by
          intro ds
          induction ds with
          | nil =>
              intro _ st1 _ _ hcl1 ht1
              exact ⟨[], by simp, by simpa using hcl1, by simpa using ht1, by simp⟩
          | cons d rest ihd =>
              intro hdrel st1 hv1 hov1 hcl1 ht1
              simp only [List.foldl_cons]
              by_cases hg : (getk s.tables d).isSome = true
              · rw [if_pos hg]
                have hdk : d ∈ keysOf s.tables := (getk_isSome_iff _ _).1 hg
                have hedge : DepRelE s name d := ⟨hdrel d (by simp), hg⟩
                have hdnv : d ∉ st1.visiting := by
                  rw [hv1]
                  intro hmem
                  rcases List.mem_append.1 hmem with hm | hm
                  · exact hacyc d (Relation.TransGen.mono (fun a b hab => hab.1)
                      (Relation.TransGen.tail' (hpath d hm) hedge))
                  · simp at hm
                    subst hm
                    exact hacyc d (Relation.TransGen.single hedge.1)
                have hpath1 : ∀ v ∈ st1.visiting, Relation.ReflTransGen (DepRelE s) v d := by
                  rw [hv1]
                  intro v hv
                  rcases List.mem_append.1 hv with hm | hm
                  · exact Relation.ReflTransGen.tail (hpath v hm) hedge
                  · simp at hm
                    subst hm
                    exact Relation.ReflTransGen.single hedge
                have hvnd1 : st1.visiting.Nodup := by
                  rw [hv1]
                  exact hVnd
                have hvk1 : ∀ v ∈ st1.visiting, v ∈ keysOf s.tables := by
                  rw [hv1]
                  exact hVk
                have hfa : (keysOf s.tables).length + 1 ≤ fuel + st1.visiting.length := by
                  rw [hv1, List.length_append, List.length_singleton]
                  omega
                rcases ih d st1 hdk hdnv hvnd1 hvk1 hpath1 hfa hov1 hcl1 ht1 with
                  ⟨l1, heq1, hdin1, hcl2, ht2⟩
                rw [heq1]
                rcases ihd (fun d2 hd2 => hdrel d2 (by simp [hd2]))
                    ⟨st1.ordered ++ l1, st1.visited ++ l1, st1.visiting⟩ hv1
                    (by rw [hov1]) hcl2 ht2 with
                  ⟨l2, heq2, hcl3, ht3, hmem3⟩
                refine ⟨l1 ++ l2, ?_, ?_, ?_, ?_⟩
                · rw [heq2]
                  simp [List.append_assoc]
                · rw [← List.append_assoc]
                  exact hcl3
                · rw [← List.append_assoc]
                  exact ht3
                · intro d2 hd2 hg2
                  rw [← List.append_assoc]
                  rcases List.mem_cons.1 hd2 with heq | hd2
                  · subst heq
                    exact List.mem_append_left _ hdin1
                  · exact hmem3 d2 hd2 hg2
              · rw [if_neg hg]
                rcases ihd (fun d2 hd2 => hdrel d2 (by simp [hd2])) st1 hv1 hov1 hcl1 ht1 with
                  ⟨l2, heq2, hcl3, ht3, hmem3⟩
                refine ⟨l2, heq2, hcl3, ht3, ?_⟩
                intro d2 hd2 hg2
                rcases List.mem_cons.1 hd2 with heq | hd2
                · subst heq
                  exact absurd hg2 hg
                · exact hmem3 d2 hd2 hg2
        rcases foldT (PostgresGenerator.depsOfTable ta)
            (fun d hd => ⟨ta, hta, hd⟩)
            ⟨st.ordered, st.visited, st.visiting ++ [name]⟩ rfl hov hcl htopo with
          ⟨l1, heqf, hclf, htf, hmemf⟩
        refine ⟨l1 ++ [name], ?_, by simp, ?_, ?_⟩
        · unfold PostgresGenerator.visit
          rw [if_neg (by simpa using hnv), if_neg (by simpa using h2)]
          simp only [hdeps, Option.getD_some, heqf]
          rw [erase_append_singleton _ _ hnv]
          simp [List.append_assoc]
        · rw [← List.append_assoc]
          intro x hx d hdx
          rcases List.mem_append.1 hx with hm | hm
          · exact List.mem_append_left _ (hclf x hm d hdx)
          · simp at hm
            subst hm
            rcases hdx with ⟨⟨ta2, hta2, hdmem⟩, hgs⟩
            rw [hta] at hta2
            have hte : ta = ta2 := Option.some_inj.1 hta2
            subst hte
            exact List.mem_append_left _ (hmemf d hdmem hgs)
        · rw [← List.append_assoc]
          intro L1 x L2 hdec d hdx
          rcases append_singleton_cases _ _ _ _ _ hdec with ⟨hL1, hx, hL2⟩ | ⟨L2b, hL2, hA⟩
          · subst hx
            rw [hL1]
            rcases hdx with ⟨⟨ta2, hta2, hdmem⟩, hgs⟩
            rw [hta] at hta2
            have hte : ta = ta2 := Option.some_inj.1 hta2
            subst hte
            rw [hov]
            exact hmemf d hdmem hgs
          · exact htf L1 x L2b hA d hdx

theorem orderFold_shape (s : NormalizedSchema) (deps : StrMap (List String)) (fuel : Nat)
    (hfuel : 0 < fuel) :
    ∀ (ns : List String) (st : PostgresGenerator.VisitState),
      ∃ l, ns.foldl (fun st2 n => PostgresGenerator.visit s deps fuel n st2) st =
          ⟨st.ordered ++ l, st.visited ++ l, st.visiting⟩ ∧
        (∀ x ∈ l, x ∈ keysOf s.tables ∨ x ∈ ns) ∧
        (st.visited.Nodup → (st.visited ++ l).Nodup) ∧
        (st.visiting = [] → ∀ n ∈ ns, n ∈ st.visited ++ l) := by
  intro ns
  induction ns with
  | nil =>
      intro st
      exact ⟨[], by simp, by simp, by simp, by simp⟩
  | cons n rest ihn =>
      intro st
      simp only [List.foldl_cons]
      rcases visit_shape s deps fuel n st with ⟨l1, heq1, hk1, _, hnd1, hin1⟩
      rw [heq1]
      rcases ihn ⟨st.ordered ++ l1, st.visited ++ l1, st.visiting⟩ with
        ⟨l2, heq2, hk2, hnd2, hin2⟩
      refine ⟨l1 ++ l2, ?_, ?_, ?_, ?_⟩
      · rw [heq2]
        simp [List.append_assoc]
      · intro x hx
        rcases List.mem_append.1 hx with h | h
        · rcases hk1 x h with h3 | h3
          · exact Or.inl h3
          · exact Or.inr (by simp [h3])
        · rcases hk2 x h with h3 | h3
          · exact Or.inl h3
          · exact Or.inr (by simp [h3])
      · intro hnd
        rw [← List.append_assoc]
        exact hnd2 (hnd1 hnd)
      · intro hve m hm
        rw [← List.append_assoc]
        rcases List.mem_cons.1 hm with heq | hm
        · subst heq
          exact List.mem_append_left _ (hin1 hfuel (by simp [hve]))
        · exact hin2 hve m hm

theorem orderTables_perm (s : NormalizedSchema) (hk : (keysOf s.tables).Nodup) :
    (PostgresGenerator.orderTables s).Perm (keysOf s.tables) := by
  unfold PostgresGenerator.orderTables
  rcases orderFold_shape s (PostgresGenerator.buildDependencies s) (s.tables.length + 1)
      (Nat.succ_pos _) (keysOf s.tables) ⟨[], [], []⟩ with ⟨l, heq, hkm, hnd, hin⟩
  simp only [heq]
  have hl : l.Nodup := by simpa using hnd List.nodup_nil
  rw [List.nil_append, List.perm_ext_iff_of_nodup hl hk]
  intro a
  constructor
  · intro ha
    rcases hkm a ha with h | h
    · exact h
    · exact h
  · intro ha
    simpa using hin rfl a ha

theorem orderTables_topo (s : NormalizedSchema) (hk : (keysOf s.tables).Nodup)
    (hacyc : AcyclicDeps s) : TopoSorted s (PostgresGenerator.orderTables s) := by
  have hlen : (keysOf s.tables).length = s.tables.length := by
    simp [keysOf]
  have foldO : ∀ (ns : List String),
      (∀ n ∈ ns, n ∈ keysOf s.tables) →
      ∀ (st : PostgresGenerator.VisitState),
      st.visiting = [] →
      st.ordered = st.visited →
      ClosedUnder s st.visited →
      TopoSorted s st.ordered →
      ∃ l, ns.foldl (fun st2 n => PostgresGenerator.visit s
            (PostgresGenerator.buildDependencies s) (s.tables.length + 1) n st2) st =
          ⟨st.ordered ++ l, st.visited ++ l, st.visiting⟩ ∧
        ClosedUnder s (st.visited ++ l) ∧
        TopoSorted s (st.ordered ++ l) := by
    intro ns
    induction ns with
    | nil =>
        intro _ st _ _ hcl ht
        exact ⟨[], by simp, by simpa using hcl, by simpa using ht⟩
    | cons n rest ihn =>
        intro hns st hve hov hcl ht
        simp only [List.foldl_cons]
        rcases visit_topo s hk hacyc (s.tables.length + 1) n st
            (hns n (by simp)) (by simp [hve]) (by simp [hve]) (by simp [hve])
            (by simp [hve]) (by rw [hve]; simp [hlen]) hov hcl ht with
          ⟨l1, heq1, _, hcl2, ht2⟩
        rw [heq1]
        rcases ihn (fun m hm => hns m (by simp [hm]))
            ⟨st.ordered ++ l1, st.visited ++ l1, st.visiting⟩ hve
            (by rw [hov]) hcl2 ht2 with
          ⟨l2, heq2, hcl3, ht3⟩
        refine ⟨l1 ++ l2, ?_, ?_, ?_⟩
        · rw [heq2]
          simp [List.append_assoc]
        · rw [← List.append_assoc]
          exact hcl3
        · rw [← List.append_assoc]
          exact ht3
  have hcl0 : ClosedUnder s ([] : List String) := by
    intro x hx
    exact absurd hx (List.not_mem_nil x)
  have htopo0 : TopoSorted s ([] : List String) := by
    intro L1 x L2 hdec d _
    exfalso
    have hlen2 := congrArg List.length hdec
    simp only [List.length_nil, List.length_append, List.length_cons] at hlen2
    omega
  rcases foldO (keysOf s.tables) (fun n hn => hn) ⟨[], [], []⟩ rfl rfl hcl0 htopo0 with
    ⟨l, heq, _, ht⟩
  unfold PostgresGenerator.orderTables
  simp only [heq]
  simpa using ht

/-- C9: for every well-formed canonical schema, cyclic dependencies
included, the table-ordering of the SQL renderer returns every table
name of the schema exactly once (a permutation of the table-name list);
and when the effective foreign-key dependency relation is acyclic, every
table referenced through a foreign key is emitted strictly before each
table that references it. -/
theorem claim_C9 (s : NormalizedSchema) (h : WFSchema s) :
    (PostgresGenerator.orderTables s).Perm (keysOf s.tables) ∧
      (AcyclicDeps s → TopoSorted s (PostgresGenerator.orderTables s)) :=
  ⟨orderTables_perm s h.1, fun hacyc => orderTables_topo s h.1 hacyc⟩

theorem claim_C9_witness :
    WFSchema scenarioA ∧
      (PostgresGenerator.orderTables scenarioA).Perm (keysOf scenarioA.tables) :=
  ⟨by decide, (claim_C9 scenarioA (by decide)).1⟩

/-! ## Claim C1: the denormalize-normalize round trip -/

theorem denormColumnsLoop_eq (uuid : Nat → String) :
    ∀ (l : List (String × NormalizedColumn)) (cols : List Column)
      (cmap : StrMap String) (n : Nat),
      (l.map Prod.fst).Nodup →
      (∀ e ∈ l, getk cmap e.1 = none) →
      SchemaDenormalizer.denormColumnsLoop uuid l cols cmap n =
        (cols ++ denormColsSpec uuid n l, cmap ++ denormCmapSpec uuid n l,
          n + l.length) := by
  intro l
  induction l with
  | nil =>
      intro cols cmap n _ _
      simp [SchemaDenormalizer.denormColumnsLoop, denormColsSpec, denormCmapSpec]
  | cons e rest ih =>
      intro cols cmap n hnd hfresh
      obtain ⟨cname, c⟩ := e
      simp only [SchemaDenormalizer.denormColumnsLoop]
      simp only [List.map_cons, List.nodup_cons] at hnd
      have hnds := hnd
      have h1 : setk cmap cname (uuid n) = cmap ++ [(cname, uuid n)] :=
        setk_absent _ _ _ (hfresh (cname, c) (List.mem_cons_self _ _))
      have hfresh2 : ∀ e2 ∈ rest, getk (cmap ++ [(cname, uuid n)]) e2.1 = none := by
        intro e2 he2
        rw [getk_append_of_none _ _ _ (hfresh e2 (List.mem_cons_of_mem _ he2))]
        have hne : ¬ cname = e2.1 := by
          intro hh
          exact hnds.1 (List.mem_map.2 ⟨e2, he2, hh.symm⟩)
        simp [getk, hne]
      rw [h1, ih _ _ _ hnds.2 hfresh2]
      simp only [Prod.mk.injEq, denormColsSpec, denormCmapSpec]
      refine ⟨by simp, by simp, ?_⟩
      simp only [List.length_cons]
      omega

theorem denormTablesLoop_eq (uuid : Nat → String) :
    ∀ (l : List (String × NormalizedTable)) (tbls : List Table)
      (tmap : StrMap SchemaDenormalizer.TableInfo) (n : Nat),
      (l.map Prod.fst).Nodup →
      (∀ e ∈ l, getk tmap e.1 = none) →
      (∀ e ∈ l, (e.2.columns.map Prod.fst).Nodup) →
      SchemaDenormalizer.denormTablesLoop uuid l tbls tmap n =
        (tbls ++ denormTablesSpec uuid n l, tmap ++ denormTmapSpec uuid n l,
          denormCountSpec n l) := by
  intro l
  induction l with
  | nil =>
      intro tbls tmap n _ _ _
      simp [SchemaDenormalizer.denormTablesLoop, denormTablesSpec, denormTmapSpec,
        denormCountSpec]
  | cons e rest ih =>
      intro tbls tmap n hnd hfresh hcols
      obtain ⟨tname, t⟩ := e
      simp only [SchemaDenormalizer.denormTablesLoop]
      simp only [List.map_cons, List.nodup_cons] at hnd
      have hnds := hnd
      rw [denormColumnsLoop_eq uuid t.columns [] [] (n + 1)
        (hcols (tname, t) (List.mem_cons_self _ _)) (fun _ _ => rfl)]
      have h1 : setk tmap tname ⟨uuid n, [] ++ denormCmapSpec uuid (n + 1) t.columns⟩ =
          tmap ++ [(tname, ⟨uuid n, denormCmapSpec uuid (n + 1) t.columns⟩)] := by
        rw [setk_absent _ _ _ (hfresh (tname, t) (List.mem_cons_self _ _))]
        simp
      have hfresh2 : ∀ e2 ∈ rest,
          getk (tmap ++ [(tname, (⟨uuid n, denormCmapSpec uuid (n + 1) t.columns⟩ :
            SchemaDenormalizer.TableInfo))]) e2.1 = none := by
        intro e2 he2
        rw [getk_append_of_none _ _ _ (hfresh e2 (List.mem_cons_of_mem _ he2))]
        have hne : ¬ tname = e2.1 := by
          intro hh
          exact hnds.1 (List.mem_map.2 ⟨e2, he2, hh.symm⟩)
        simp [getk, hne]
      rw [h1, ih _ _ _ hnds.2 hfresh2 (fun e2 he2 => hcols e2 (List.mem_cons_of_mem _ he2))]
      simp only [Prod.mk.injEq, denormTablesSpec, denormTmapSpec, denormCountSpec]
      exact ⟨by simp, by simp, trivial⟩

theorem buildTableNameMap_eq (tables : List Table)
    (hids : (tables.map (fun t => t.id)).Nodup) :
    SchemaNormalizer.buildTableNameMap tables =
      tables.map (fun t => (t.id, t.name)) := by
  unfold SchemaNormalizer.buildTableNameMap
  rw [foldl_setk_append (fun t : Table => t.id) (fun t => t.name) tables []
    hids (fun _ _ => rfl)]
  simp

theorem buildColumnNameMap_eq (tables : List Table)
    (hkeys : (tables.flatMap (fun t => t.columns.map
      (fun c => SchemaNormalizer.colKey t.id c.id))).Nodup) :
    SchemaNormalizer.buildColumnNameMap tables =
      (allCols tables).map (fun tc =>
        (SchemaNormalizer.colKey tc.1.id tc.2.id,
          (⟨tc.1.id, tc.2.name⟩ : SchemaNormalizer.ColumnNameInfo))) := by
  unfold SchemaNormalizer.buildColumnNameMap
  have main : ∀ (l : List Table) (acc : StrMap SchemaNormalizer.ColumnNameInfo),
      (l.flatMap (fun t => t.columns.map
        (fun c => SchemaNormalizer.colKey t.id c.id))).Nodup →
      (∀ t ∈ l, ∀ c ∈ t.columns, getk acc (SchemaNormalizer.colKey t.id c.id) = none) →
      l.foldl (fun m t => t.columns.foldl
          (fun m2 c => setk m2 (SchemaNormalizer.colKey t.id c.id) ⟨t.id, c.name⟩) m)
        acc =
        acc ++ (allCols l).map (fun tc =>
          (SchemaNormalizer.colKey tc.1.id tc.2.id,
            (⟨tc.1.id, tc.2.name⟩ : SchemaNormalizer.ColumnNameInfo))) := by
    intro l
    induction l with
    | nil =>
        intro acc _ _
        simp [allCols]
    | cons t rest ih =>
        intro acc hnd hfresh
        rw [List.flatMap_cons, List.nodup_append] at hnd
        obtain ⟨hnd1, hnd2, hdisj⟩ := hnd
        simp only [List.foldl_cons]
        rw [foldl_setk_append (fun c : Column => SchemaNormalizer.colKey t.id c.id)
          (fun c => (⟨t.id, c.name⟩ : SchemaNormalizer.ColumnNameInfo)) t.columns acc
          hnd1 (fun c hc => hfresh t (List.mem_cons_self _ _) c hc)]
        rw [ih _ hnd2 ?fresh]
        case fresh =>
          intro t2 ht2 c2 hc2
          rw [getk_append_of_none _ _ _
            (hfresh t2 (List.mem_cons_of_mem _ ht2) c2 hc2)]
          rw [getk_eq_none_iff]
          intro hmem
          have hk2 : SchemaNormalizer.colKey t2.id c2.id ∈
              t.columns.map (fun c => SchemaNormalizer.colKey t.id c.id) := by
            simpa [keysOf, List.map_map, Function.comp] using hmem
          exact hdisj hk2 (List.mem_flatMap.2 ⟨t2, ht2,
            List.mem_map.2 ⟨c2, hc2, rfl⟩⟩)
        simp [allCols, List.flatMap_cons, List.map_map, Function.comp, List.append_assoc]
  rw [main tables [] hkeys (fun _ _ _ _ => rfl)]
  simp

theorem colsSpec_map_colSig (uuid : Nat → String) :
    ∀ (cl : List (String × NormalizedColumn)) (m : Nat),
      (denormColsSpec uuid m cl).map colSig =
        cl.map (fun ce => (ce.2.name, ce.2.type, ce.2.primaryKey,
          ce.2.nullable, ce.2.unique, ce.2.default)) := by
  intro cl
  induction cl with
  | nil => intro m; simp [denormColsSpec]
  | cons ce rest ih =>
      intro m
      obtain ⟨cname, c⟩ := ce
      simp [denormColsSpec, colSig, ih]

theorem graphSig_tablesSpec (uuid : Nat → String) :
    ∀ (l : List (String × NormalizedTable)) (n : Nat),
      graphSig (denormTablesSpec uuid n l) =
        l.map (fun e => (e.2.name, e.2.columns.map (fun ce =>
          (ce.2.name, ce.2.type, ce.2.primaryKey,
            ce.2.nullable, ce.2.unique, ce.2.default)))) := by
  intro l
  induction l with
  | nil => intro n; simp [denormTablesSpec, graphSig]
  | cons e rest ih =>
      intro n
      obtain ⟨tname, t⟩ := e
      have hstep : graphSig (denormTablesSpec uuid n ((tname, t) :: rest)) =
          tableSig ⟨uuid n, t.name, denormColsSpec uuid (n + 1) t.columns⟩ ::
            graphSig (denormTablesSpec uuid (n + 1 + t.columns.length) rest) := rfl
      rw [hstep, ih]
      simp [tableSig, colsSpec_map_colSig]

theorem relSig_eraseId (tables : List Table) (r : Relation) :
    relSig tables (eraseId r) = relSig tables r := rfl

theorem denormRelLoopCols_eraseId (uuid : Nat → String)
    (tmap : StrMap SchemaDenormalizer.TableInfo)
    (fkInfo : SchemaDenormalizer.TableInfo) :
    ∀ (l : List (String × NormalizedColumn)) (rels : List Relation) (n : Nat),
      (SchemaDenormalizer.denormRelLoopCols uuid tmap fkInfo l rels n).1.map eraseId =
        rels.map eraseId ++ l.filterMap (colRel tmap fkInfo) := by
  intro l
  induction l with
  | nil =>
      intro rels n
      simp [SchemaDenormalizer.denormRelLoopCols]
  | cons ce rest ih =>
      intro rels n
      obtain ⟨cname, c⟩ := ce
      simp only [SchemaDenormalizer.denormRelLoopCols]
      cases hfk : c.foreignKey with
      | none =>
          simp [List.filterMap_cons, colRel, hfk, ih]
      | some fk =>
          cases hpk : getk tmap fk.table with
          | none =>
              simp [List.filterMap_cons, colRel, hfk, hpk, ih]
          | some pkInfo =>
              cases hfc : truthyStr (getk fkInfo.columnMap cname) with
              | none =>
                  simp [List.filterMap_cons, colRel, hfk, hpk, hfc, ih]
              | some fkColumnId =>
                  cases hpc : truthyStr (getk pkInfo.columnMap fk.column) with
                  | none =>
                      simp [List.filterMap_cons, colRel, hfk, hpk, hfc, hpc, ih]
                  | some pkColumnId =>
                      simp [List.filterMap_cons, colRel, hfk, hpk, hfc, hpc, ih, eraseId]

theorem denormRelLoop_eraseId (uuid : Nat → String)
    (tmap : StrMap SchemaDenormalizer.TableInfo) :
    ∀ (l : List (String × NormalizedTable)) (rels : List Relation) (n : Nat),
      (SchemaDenormalizer.denormRelLoop uuid tmap l rels n).1.map eraseId =
        rels.map eraseId ++ l.flatMap (tableRels tmap) := by
  intro l
  induction l with
  | nil =>
      intro rels n
      simp [SchemaDenormalizer.denormRelLoop]
  | cons e rest ih =>
      intro rels n
      obtain ⟨tname, t⟩ := e
      simp only [SchemaDenormalizer.denormRelLoop]
      cases hti : getk tmap tname with
      | none =>
          simp [List.flatMap_cons, tableRels, hti, ih]
      | some fkInfo =>
          simp [List.flatMap_cons, tableRels, hti, ih, denormRelLoopCols_eraseId,
            List.append_assoc]

theorem truthyStr_eq_some {o : Option String} {v : String}
    (h : truthyStr o = some v) : o = some v ∧ v ≠ "" := by
  cases o with
  | none => simp [truthyStr] at h
  | some s =>
      by_cases hs : s = ""
      · simp [truthyStr, hs] at h
      · simp only [truthyStr, if_neg hs, Option.some.injEq] at h
        subst h
        exact ⟨rfl, hs⟩

theorem truthyStr_some_of_ne {s : String} (h : s ≠ "") :
    truthyStr (some s) = some s := by
  simp [truthyStr, h]

theorem cmapSpec_getk_range (uuid : Nat → String) :
    ∀ (cl : List (String × NormalizedColumn)) (m : Nat) (cname cid : String),
      getk (denormCmapSpec uuid m cl) cname = some cid →
      ∃ j, m ≤ j ∧ cid = uuid j := by
  intro cl
  induction cl with
  | nil =>
      intro m cname cid h
      simp [denormCmapSpec, getk] at h
  | cons ce rest ih =>
      intro m cname cid h
      obtain ⟨cname0, c0⟩ := ce
      simp only [denormCmapSpec, getk] at h
      by_cases h0 : cname0 = cname
      · rw [if_pos h0] at h
        exact ⟨m, le_refl m, (Option.some_inj.1 h).symm⟩
      · rw [if_neg h0] at h
        rcases ih (m + 1) cname cid h with ⟨j, hj, hcid⟩
        exact ⟨j, by omega, hcid⟩

theorem tmapSpec_getk_range (uuid : Nat → String) :
    ∀ (l : List (String × NormalizedTable)) (n : Nat) (tname : String)
      (ti : SchemaDenormalizer.TableInfo),
      getk (denormTmapSpec uuid n l) tname = some ti →
      ∃ m, n ≤ m ∧ ti.tableId = uuid m ∧
        ∀ cname cid, getk ti.columnMap cname = some cid →
          ∃ j, m < j ∧ cid = uuid j := by
  intro l
  induction l with
  | nil =>
      intro n tname ti h
      simp [denormTmapSpec, getk] at h
  | cons e rest ih =>
      intro n tname ti h
      obtain ⟨tname0, t0⟩ := e
      simp only [denormTmapSpec, getk] at h
      by_cases h0 : tname0 = tname
      · rw [if_pos h0] at h
        obtain rfl : (⟨uuid n, denormCmapSpec uuid (n + 1) t0.columns⟩ :
            SchemaDenormalizer.TableInfo) = ti := Option.some_inj.1 h
        refine ⟨n, le_refl n, rfl, ?_⟩
        intro cname cid hc
        rcases cmapSpec_getk_range uuid t0.columns (n + 1) cname cid hc with ⟨j, hj, hcid⟩
        exact ⟨j, by omega, hcid⟩
      · rw [if_neg h0] at h
        rcases ih (n + 1 + t0.columns.length) tname ti h with ⟨m, hm, hti, hcols⟩
        exact ⟨m, by omega, hti, hcols⟩

theorem colsSpec_find (uuid : Nat → String) (hinj : ∀ a b, uuid a = uuid b → a = b) :
    ∀ (cl : List (String × NormalizedColumn)) (m : Nat) (cname cid : String),
      (∀ ce ∈ cl, ce.2.name = ce.1) →
      getk (denormCmapSpec uuid m cl) cname = some cid →
      ∃ c, (denormColsSpec uuid m cl).find? (fun c2 => c2.id = cid) = some c ∧
        c.name = cname := by
  intro cl
  induction cl with
  | nil =>
      intro m cname cid _ h
      simp [denormCmapSpec, getk] at h
  | cons ce rest ih =>
      intro m cname cid hnames h
      obtain ⟨cname0, c0⟩ := ce
      simp only [denormCmapSpec, getk] at h
      by_cases h0 : cname0 = cname
      · rw [if_pos h0] at h
        obtain rfl : uuid m = cid := Option.some_inj.1 h
        refine ⟨_, List.find?_cons_of_pos _ (by simp), ?_⟩
        have := hnames (cname0, c0) (List.mem_cons_self _ _)
        simp only at this
        simpa [this] using h0
      · rw [if_neg h0] at h
        rcases cmapSpec_getk_range uuid rest (m + 1) cname cid h with ⟨j, hj, rfl⟩
        rcases ih (m + 1) cname (uuid j)
            (fun ce2 hce2 => hnames ce2 (List.mem_cons_of_mem _ hce2)) h with
          ⟨c, hfind, hname⟩
        refine ⟨c, ?_, hname⟩
        rw [show denormColsSpec uuid m ((cname0, c0) :: rest) =
          { id := uuid m, name := c0.name, type := c0.type, primaryKey := c0.primaryKey,
            nullable := c0.nullable, unique := c0.unique, default := c0.default } ::
            denormColsSpec uuid (m + 1) rest from rfl]
        rw [List.find?_cons_of_neg _ (by
          simp only [decide_eq_true_eq]
          intro hh
          have := hinj _ _ hh
          omega), hfind]

theorem resolveEndpoint_cons_ne (t : Table) (tabs : List Table) (tid cid : String)
    (h : ¬ t.id = tid) :
    resolveEndpoint (t :: tabs) tid cid = resolveEndpoint tabs tid cid := by
  unfold resolveEndpoint
  rw [List.find?_cons_of_neg _ (by simpa using h)]

theorem cmapSpec_getk_of_getk (uuid : Nat → String) :
    ∀ (cl : List (String × NormalizedColumn)) (m : Nat) (cname : String)
      (nc : NormalizedColumn),
      getk cl cname = some nc →
      ∃ j, m ≤ j ∧ getk (denormCmapSpec uuid m cl) cname = some (uuid j) := by
  intro cl
  induction cl with
  | nil =>
      intro m cname nc h
      simp [getk] at h
  | cons ce rest ih =>
      intro m cname nc h
      obtain ⟨cname0, c0⟩ := ce
      simp only [getk] at h
      by_cases h0 : cname0 = cname
      · exact ⟨m, le_refl m, by simp [denormCmapSpec, getk, h0]⟩
      · rw [if_neg h0] at h
        rcases ih (m + 1) cname nc h with ⟨j, hj, hg⟩
        exact ⟨j, by omega, by simpa [denormCmapSpec, getk, h0] using hg⟩

theorem tmapSpec_getk_of_getk (uuid : Nat → String) :
    ∀ (l : List (String × NormalizedTable)) (n : Nat) (tname : String)
      (nt : NormalizedTable),
      getk l tname = some nt →
      ∃ m, n ≤ m ∧ getk (denormTmapSpec uuid n l) tname =
        some ⟨uuid m, denormCmapSpec uuid (m + 1) nt.columns⟩ := by
  intro l
  induction l with
  | nil =>
      intro n tname nt h
      simp [getk] at h
  | cons e rest ih =>
      intro n tname nt h
      obtain ⟨tname0, t0⟩ := e
      simp only [getk] at h
      by_cases h0 : tname0 = tname
      · rw [if_pos h0] at h
        obtain rfl : t0 = nt := Option.some_inj.1 h
        exact ⟨n, le_refl n, by simp [denormTmapSpec, getk, h0]⟩
      · rw [if_neg h0] at h
        rcases ih (n + 1 + t0.columns.length) tname nt h with ⟨m, hm, hg⟩
        exact ⟨m, by omega, by simpa [denormTmapSpec, getk, h0] using hg⟩

theorem resolveEndpoint_isSome_elim {tables : List Table} {tid cid : String}
    (h : (resolveEndpoint tables tid cid).isSome = true) :
    ∃ t c, tables.find? (fun t2 => t2.id = tid) = some t ∧
      t.columns.find? (fun c2 => c2.id = cid) = some c := by
  unfold resolveEndpoint at h
  split at h
  next heq => simp at h
  next t heq =>
    split at h
    next heq2 => simp at h
    next c heq2 => exact ⟨t, c, heq, heq2⟩

theorem resolve_via_tmap (uuid : Nat → String)
    (hinj : ∀ a b, uuid a = uuid b → a = b) :
    ∀ (l : List (String × NormalizedTable)) (n : Nat),
      (∀ e ∈ l, ∀ ce ∈ e.2.columns, ce.2.name = ce.1) →
      ∀ (tname : String) (ti : SchemaDenormalizer.TableInfo),
        getk (denormTmapSpec uuid n l) tname = some ti →
      ∀ (cname cid : String), getk ti.columnMap cname = some cid →
      ∃ nt, getk l tname = some nt ∧
        resolveEndpoint (denormTablesSpec uuid n l) ti.tableId cid =
          some (nt.name, cname) := by
  intro l
  induction l with
  | nil =>
      intro n _ tname ti h
      simp [denormTmapSpec, getk] at h
  | cons e rest ih =>
      intro n hnames tname ti hti cname cid hcid
      obtain ⟨tname0, t0⟩ := e
      simp only [denormTmapSpec, getk] at hti
      by_cases h0 : tname0 = tname
      · rw [if_pos h0] at hti
        obtain rfl : (⟨uuid n, denormCmapSpec uuid (n + 1) t0.columns⟩ :
            SchemaDenormalizer.TableInfo) = ti := Option.some_inj.1 hti
        refine ⟨t0, by simp [getk, h0], ?_⟩
        rcases colsSpec_find uuid hinj t0.columns (n + 1) cname cid
            (hnames (tname0, t0) (List.mem_cons_self _ _)) hcid with ⟨c, hfind, hname⟩
        rw [show denormTablesSpec uuid n ((tname0, t0) :: rest) =
          { id := uuid n, name := t0.name,
            columns := denormColsSpec uuid (n + 1) t0.columns } ::
            denormTablesSpec uuid (n + 1 + t0.columns.length) rest from rfl]
        unfold resolveEndpoint
        rw [List.find?_cons_of_pos _ (by simp)]
        simp only [hfind, hname]
      · rw [if_neg h0] at hti
        rcases ih (n + 1 + t0.columns.length)
            (fun e2 he2 => hnames e2 (List.mem_cons_of_mem _ he2))
            tname ti hti cname cid hcid with ⟨nt, hget, hres⟩
        refine ⟨nt, by simpa [getk, h0] using hget, ?_⟩
        rcases tmapSpec_getk_range uuid _ _ _ _ hti with ⟨m, hm, htid, _⟩
        rw [show denormTablesSpec uuid n ((tname0, t0) :: rest) =
          { id := uuid n, name := t0.name,
            columns := denormColsSpec uuid (n + 1) t0.columns } ::
            denormTablesSpec uuid (n + 1 + t0.columns.length) rest from rfl]
        rw [resolveEndpoint_cons_ne _ _ _ _ (by
          simp only []
          rw [htid]
          intro hh
          have := hinj _ _ hh
          omega)]
        exact hres

theorem allCols_map_key (tables : List Table) :
    (allCols tables).map (fun tc => SchemaNormalizer.colKey tc.1.id tc.2.id) =
      tables.flatMap (fun t => t.columns.map
        (fun c => SchemaNormalizer.colKey t.id c.id)) := by
  simp only [allCols, List.map_flatMap, List.map_map]
  rfl

theorem allCols_key_inj (tables : List Table)
    (hflat : (tables.flatMap (fun t => t.columns.map
      (fun c => SchemaNormalizer.colKey t.id c.id))).Nodup) :
    ∀ p1 ∈ allCols tables, ∀ p2 ∈ allCols tables,
      SchemaNormalizer.colKey p1.1.id p1.2.id =
        SchemaNormalizer.colKey p2.1.id p2.2.id → p1 = p2 := by
  intro p1 h1 p2 h2 hk
  exact List.inj_on_of_nodup_map ((allCols_map_key tables).symm ▸ hflat) h1 h2 hk

theorem relFK_of_resolved (tables : List Table) (relations : List Relation)
    (hwf : WFGraph tables relations) (r : Relation)
    (Tf : Table) (cf : Column) (Tt : Table) (ct : Column)
    (hTf : tables.find? (fun t2 => t2.id = r.fromTableId) = some Tf)
    (hcf : Tf.columns.find? (fun c2 => c2.id = r.fromColumnId) = some cf)
    (hTt : tables.find? (fun t2 => t2.id = r.toTableId) = some Tt)
    (hct : Tt.columns.find? (fun c2 => c2.id = r.toColumnId) = some ct) :
    SchemaNormalizer.relFK (SchemaNormalizer.buildTableNameMap tables)
      (SchemaNormalizer.buildColumnNameMap tables) r =
      some ⟨Tf.name, cf.name⟩ := by
  obtain ⟨hnames, hne, hcols, hids, hflat, htargets⟩ := hwf
  have hTfid : Tf.id = r.fromTableId := by simpa using List.find?_some hTf
  have hcfid : cf.id = r.fromColumnId := by simpa using List.find?_some hcf
  have hTtid : Tt.id = r.toTableId := by simpa using List.find?_some hTt
  have hctid : ct.id = r.toColumnId := by simpa using List.find?_some hct
  have hTfmem : Tf ∈ tables := List.mem_of_find?_eq_some hTf
  have hcfmem : cf ∈ Tf.columns := List.mem_of_find?_eq_some hcf
  have hTtmem : Tt ∈ tables := List.mem_of_find?_eq_some hTt
  have hctmem : ct ∈ Tt.columns := List.mem_of_find?_eq_some hct
  have htnmkeys : (keysOf (tables.map (fun t => (t.id, t.name)))).Nodup := by
    simpa [keysOf, List.map_map, Function.comp] using hids
  have hcnmkeys : (keysOf ((allCols tables).map (fun tc =>
      (SchemaNormalizer.colKey tc.1.id tc.2.id,
        (⟨tc.1.id, tc.2.name⟩ : SchemaNormalizer.ColumnNameInfo))))).Nodup := by
    have hk : keysOf ((allCols tables).map (fun tc =>
        (SchemaNormalizer.colKey tc.1.id tc.2.id,
          (⟨tc.1.id, tc.2.name⟩ : SchemaNormalizer.ColumnNameInfo)))) =
        (allCols tables).map (fun tc => SchemaNormalizer.colKey tc.1.id tc.2.id) := by
      simp [keysOf, List.map_map, Function.comp]
    rw [hk, allCols_map_key]
    exact hflat
  have hg1 : getk (SchemaNormalizer.buildTableNameMap tables) r.fromTableId =
      some Tf.name := by
    rw [buildTableNameMap_eq tables hids]
    exact getk_of_mem_nodup htnmkeys (List.mem_map.2 ⟨Tf, hTfmem, by simp [hTfid]⟩)
  have hg3 : getk (SchemaNormalizer.buildTableNameMap tables) r.toTableId =
      some Tt.name := by
    rw [buildTableNameMap_eq tables hids]
    exact getk_of_mem_nodup htnmkeys (List.mem_map.2 ⟨Tt, hTtmem, by simp [hTtid]⟩)
  have hg2 : getk (SchemaNormalizer.buildColumnNameMap tables)
      (SchemaNormalizer.colKey r.fromTableId r.fromColumnId) =
      some ⟨Tf.id, cf.name⟩ := by
    rw [buildColumnNameMap_eq tables hflat]
    refine getk_of_mem_nodup hcnmkeys (List.mem_map.2 ⟨(Tf, cf), ?_, ?_⟩)
    · unfold allCols
      exact List.mem_flatMap.2 ⟨Tf, hTfmem, List.mem_map.2 ⟨cf, hcfmem, rfl⟩⟩
    · simp [hTfid, hcfid]
  have hg4 : getk (SchemaNormalizer.buildColumnNameMap tables)
      (SchemaNormalizer.colKey r.toTableId r.toColumnId) =
      some ⟨Tt.id, ct.name⟩ := by
    rw [buildColumnNameMap_eq tables hflat]
    refine getk_of_mem_nodup hcnmkeys (List.mem_map.2 ⟨(Tt, ct), ?_, ?_⟩)
    · unfold allCols
      exact List.mem_flatMap.2 ⟨Tt, hTtmem, List.mem_map.2 ⟨ct, hctmem, rfl⟩⟩
    · simp [hTtid, hctid]
  simp [SchemaNormalizer.relFK, hg1, hg2, hg3, hg4,
    truthyStr_some_of_ne (hne Tf hTfmem), truthyStr_some_of_ne (hne Tt hTtmem)]

theorem lastFKFor_some_elim {tnm : StrMap String}
    {cnm : StrMap SchemaNormalizer.ColumnNameInfo} {relations : List Relation}
    {k : String} {fk : ForeignKeyRef}
    (h : lastFKFor tnm cnm relations k = some fk) :
    ∃ r ∈ relations, SchemaNormalizer.relFK tnm cnm r = some fk ∧
      SchemaNormalizer.colKey r.toTableId r.toColumnId = k := by
  unfold lastFKFor at h
  split at h
  next r2 heq =>
    have hp := List.find?_some heq
    have hmem := List.mem_reverse.1 (List.mem_of_find?_eq_some heq)
    simp only [Bool.and_eq_true, beq_iff_eq] at hp
    exact ⟨r2, hmem, h, hp.2⟩
  next heq => exact absurd h (by simp)

theorem lastFKFor_eq_self (tnm : StrMap String)
    (cnm : StrMap SchemaNormalizer.ColumnNameInfo) (relations : List Relation)
    (htargets : (relations.map (fun r2 =>
      SchemaNormalizer.colKey r2.toTableId r2.toColumnId)).Nodup)
    (r : Relation) (hr : r ∈ relations)
    (hsome : (SchemaNormalizer.relFK tnm cnm r).isSome = true) :
    lastFKFor tnm cnm relations
      (SchemaNormalizer.colKey r.toTableId r.toColumnId) =
      SchemaNormalizer.relFK tnm cnm r := by
  unfold lastFKFor
  have hex : ∃ x ∈ relations.reverse,
      ((SchemaNormalizer.relFK tnm cnm x).isSome &&
        (SchemaNormalizer.colKey x.toTableId x.toColumnId ==
          SchemaNormalizer.colKey r.toTableId r.toColumnId)) = true :=
    ⟨r, List.mem_reverse.2 hr, by simp [hsome]⟩
  obtain ⟨r2, hfind⟩ := Option.isSome_iff_exists.1 (List.find?_isSome.2 hex)
  rw [hfind]
  have hp := List.find?_some hfind
  have hmem := List.mem_reverse.1 (List.mem_of_find?_eq_some hfind)
  simp only [Bool.and_eq_true, beq_iff_eq] at hp
  have hr2 : r2 = r := List.inj_on_of_nodup_map htargets hmem hr hp.2
  simp [hr2]

theorem resolveEndpoint_some_elim {tables : List Table} {tid cid : String}
    {p : String × String} (h : resolveEndpoint tables tid cid = some p) :
    ∃ t c, tables.find? (fun t2 => t2.id = tid) = some t ∧
      t.columns.find? (fun c2 => c2.id = cid) = some c ∧ p = (t.name, c.name) := by
  unfold resolveEndpoint at h
  split at h
  next => exact absurd h (by simp)
  next t heq =>
    split at h
    next => exact absurd h (by simp)
    next c heq2 => exact ⟨t, c, heq, heq2, (Option.some_inj.1 h).symm⟩

theorem colRel_some_elim {tmap : StrMap SchemaDenormalizer.TableInfo}
    {fkInfo : SchemaDenormalizer.TableInfo} {ce : String × NormalizedColumn}
    {r2 : Relation} (h : colRel tmap fkInfo ce = some r2) :
    ∃ fk pkInfo fkCid pkCid, ce.2.foreignKey = some fk ∧
      getk tmap fk.table = some pkInfo ∧
      truthyStr (getk fkInfo.columnMap ce.1) = some fkCid ∧
      truthyStr (getk pkInfo.columnMap fk.column) = some pkCid ∧
      r2 = { id := "", fromTableId := pkInfo.tableId, fromColumnId := pkCid,
             toTableId := fkInfo.tableId, toColumnId := fkCid } := by
  unfold colRel at h
  split at h
  next => exact absurd h (by simp)
  next fk hfk =>
    split at h
    next => exact absurd h (by simp)
    next pkInfo hpk =>
      split at h
      next fkCid pkCid h1 h2 =>
        exact ⟨fk, pkInfo, fkCid, pkCid, hfk, hpk, h1, h2,
          (Option.some_inj.1 h).symm⟩
      next => exact absurd h (by simp)

theorem colRel_eq_some {tmap : StrMap SchemaDenormalizer.TableInfo}
    {fkInfo : SchemaDenormalizer.TableInfo} {ce : String × NormalizedColumn}
    {fk : ForeignKeyRef} {pkInfo : SchemaDenormalizer.TableInfo}
    {fkCid pkCid : String}
    (hfk : ce.2.foreignKey = some fk) (hpk : getk tmap fk.table = some pkInfo)
    (h1 : truthyStr (getk fkInfo.columnMap ce.1) = some fkCid)
    (h2 : truthyStr (getk pkInfo.columnMap fk.column) = some pkCid) :
    colRel tmap fkInfo ce =
      some { id := "", fromTableId := pkInfo.tableId, fromColumnId := pkCid,
             toTableId := fkInfo.tableId, toColumnId := fkCid } := by
  unfold colRel
  simp only [hfk, hpk, h1, h2]

theorem normalizeSchema_positions (tables : List Table) (relations : List Relation) :
    (SchemaNormalizer.normalizeSchema tables relations none).positions = none := rfl

theorem denormalizeSchema_eq (uuid : Nat → String) (s : NormalizedSchema)
    (hkeys : (s.tables.map Prod.fst).Nodup)
    (hcols : ∀ e ∈ s.tables, (e.2.columns.map Prod.fst).Nodup)
    (hpos : s.positions = none) :
    SchemaDenormalizer.denormalizeSchema uuid s =
      { tables := denormTablesSpec uuid 0 s.tables,
        relations := (SchemaDenormalizer.denormRelLoop uuid
          (denormTmapSpec uuid 0 s.tables) s.tables []
          (denormCountSpec 0 s.tables)).1,
        positions := none } := by
  unfold SchemaDenormalizer.denormalizeSchema
  simp only [denormTablesLoop_eq uuid s.tables [] [] 0 hkeys (fun _ _ => rfl) hcols,
    hpos, List.nil_append]

theorem normalize_tables_ntOf (tables : List Table) (relations : List Relation)
    (hnames : (tables.map (fun t => t.name)).Nodup)
    (hcolnames : ∀ t ∈ tables, (t.columns.map (fun c => c.name)).Nodup) :
    (SchemaNormalizer.normalizeSchema tables relations none).tables =
      tables.map (fun t => (t.name, ntOf (SchemaNormalizer.buildForeignKeyMap
        (SchemaNormalizer.buildTableNameMap tables)
        (SchemaNormalizer.buildColumnNameMap tables) relations) t)) := by
  rw [normalizeSchema_tables tables relations none hnames hcolnames]
  rfl

theorem roundtrip_tables (uuid : Nat → String) (tables : List Table)
    (fkm : StrMap ForeignKeyRef) :
    graphSig (denormTablesSpec uuid 0 (tables.map (fun t => (t.name, ntOf fkm t)))) =
      graphSig tables := by
  rw [graphSig_tablesSpec]
  unfold graphSig
  simp only [List.map_map]
  apply List.map_congr_left
  intro t _
  simp only [Function.comp, ntOf, List.map_map]
  rfl

theorem roundtrip_rels (uuid : Nat → String)
    (hinj : ∀ a b, uuid a = uuid b → a = b) (hune : ∀ n, uuid n ≠ "")
    (tables : List Table) (relations : List Relation)
    (hwf : WFGraph tables relations) (hno : NoOrphans tables relations)
    (fkm : StrMap ForeignKeyRef)
    (hfkm : fkm = SchemaNormalizer.buildForeignKeyMap
      (SchemaNormalizer.buildTableNameMap tables)
      (SchemaNormalizer.buildColumnNameMap tables) relations)
    (NTd : StrMap NormalizedTable)
    (hNT : NTd = tables.map (fun t => (t.name, ntOf fkm t))) :
    ∀ q, q ∈ (NTd.flatMap (tableRels (denormTmapSpec uuid 0 NTd))).filterMap
        (relSig (denormTablesSpec uuid 0 NTd)) ↔
      q ∈ relSigs tables relations := by
  obtain ⟨hnames, hnempty, hcolnames, hids, hflat, htargets⟩ := hwf
  have hkeysNT : (keysOf NTd).Nodup := by
    rw [hNT]
    simpa [keysOf, List.map_map, Function.comp] using hnames
  have hgetNT : ∀ t ∈ tables, getk NTd t.name = some (ntOf fkm t) := by
    intro t ht
    refine getk_of_mem_nodup hkeysNT ?_
    rw [hNT]
    exact List.mem_map.2 ⟨t, ht, rfl⟩
  have hnamesNT : ∀ e ∈ NTd, ∀ ce ∈ e.2.columns, ce.2.name = ce.1 := by
    intro e he ce hce
    rw [hNT] at he
    rcases List.mem_map.1 he with ⟨t, ht, rfl⟩
    simp only [ntOf] at hce
    rcases List.mem_map.1 hce with ⟨c, hc, rfl⟩
    rfl
  have hcolkeys : ∀ t ∈ tables, (keysOf (ntOf fkm t).columns).Nodup := by
    intro t ht
    simp only [ntOf]
    simpa [keysOf, List.map_map, Function.comp] using hcolnames t ht
  have hgetCol : ∀ t ∈ tables, ∀ c ∈ t.columns,
      getk (ntOf fkm t).columns c.name =
        some (SchemaNormalizer.normalizeColumn fkm t.id c) := by
    intro t ht c hc
    refine getk_of_mem_nodup (hcolkeys t ht) ?_
    simp only [ntOf]
    exact List.mem_map.2 ⟨c, hc, rfl⟩
  have hfkcol : ∀ (t : Table) (c : Column),
      (SchemaNormalizer.normalizeColumn fkm t.id c).foreignKey =
        lastFKFor (SchemaNormalizer.buildTableNameMap tables)
          (SchemaNormalizer.buildColumnNameMap tables) relations
          (SchemaNormalizer.colKey t.id c.id) := by
    intro t c
    show getk fkm (SchemaNormalizer.colKey t.id c.id) = _
    rw [hfkm]
    exact getk_buildForeignKeyMap _ _ _ _
  intro q
  constructor
  · intro hq
    rcases List.mem_filterMap.1 hq with ⟨r2, hr2mem, hr2sig⟩
    rcases List.mem_flatMap.1 hr2mem with ⟨e, heNT, hr2tab⟩
    rw [hNT] at heNT
    rcases List.mem_map.1 heNT with ⟨t, ht, rfl⟩
    unfold tableRels at hr2tab
    split at hr2tab
    next hti => simp at hr2tab
    next fkInfo hti =>
      rcases List.mem_filterMap.1 hr2tab with ⟨ce, hcemem, hcerel⟩
      have hcemem2 := hcemem
      simp only [ntOf] at hcemem2
      rcases List.mem_map.1 hcemem2 with ⟨c, hc, rfl⟩
      rcases colRel_some_elim hcerel with
        ⟨fk, pkInfo, fkCid, pkCid, hfk, hpk, h1, h2, hr2⟩
      have hfk2 : lastFKFor (SchemaNormalizer.buildTableNameMap tables)
          (SchemaNormalizer.buildColumnNameMap tables) relations
          (SchemaNormalizer.colKey t.id c.id) = some fk := by
        rw [← hfkcol t c]
        exact hfk
      rcases lastFKFor_some_elim hfk2 with ⟨r, hrmem, hrfk, hrkey⟩
      rcases resolveEndpoint_isSome_elim (hno r hrmem).1 with ⟨Tf, cf, hTf, hcf⟩
      rcases resolveEndpoint_isSome_elim (hno r hrmem).2 with ⟨Tt, ct, hTt, hct⟩
      have hrfk2 := relFK_of_resolved tables relations
        ⟨hnames, hnempty, hcolnames, hids, hflat, htargets⟩ r Tf cf Tt ct
        hTf hcf hTt hct
      rw [hrfk] at hrfk2
      obtain rfl : fk = (⟨Tf.name, cf.name⟩ : ForeignKeyRef) :=
        Option.some_inj.1 hrfk2
      have hTtid : Tt.id = r.toTableId := by simpa using List.find?_some hTt
      have hctid : ct.id = r.toColumnId := by simpa using List.find?_some hct
      have hkeyeq : SchemaNormalizer.colKey Tt.id ct.id =
          SchemaNormalizer.colKey t.id c.id := by
        rw [hTtid, hctid]
        exact hrkey
      have hpair : ((Tt, ct) : Table × Column) = (t, c) := by
        refine allCols_key_inj tables hflat (Tt, ct) ?_ (t, c) ?_ hkeyeq
        · unfold allCols
          exact List.mem_flatMap.2 ⟨Tt, List.mem_of_find?_eq_some hTt,
            List.mem_map.2 ⟨ct, List.mem_of_find?_eq_some hct, rfl⟩⟩
        · unfold allCols
          exact List.mem_flatMap.2 ⟨t, ht, List.mem_map.2 ⟨c, hc, rfl⟩⟩
      obtain ⟨rfl, rfl⟩ : Tt = t ∧ ct = c :=
        ⟨congrArg Prod.fst hpair, congrArg Prod.snd hpair⟩
      have horig : relSig tables r =
          some ((Tf.name, cf.name), (Tt.name, ct.name)) := by
        simp only [relSig, resolveEndpoint, hTf, hcf, hTt, hct]
      rcases truthyStr_eq_some h1 with ⟨h1g, _⟩
      rcases truthyStr_eq_some h2 with ⟨h2g, _⟩
      have hti2 : getk (denormTmapSpec uuid 0 NTd) Tt.name = some fkInfo := hti
      have h1g2 : getk fkInfo.columnMap ct.name = some fkCid := h1g
      have h2g2 : getk pkInfo.columnMap cf.name = some pkCid := h2g
      have hpk2 : getk (denormTmapSpec uuid 0 NTd) Tf.name = some pkInfo := hpk
      rcases resolve_via_tmap uuid hinj NTd 0 hnamesNT Tt.name fkInfo hti2
          ct.name fkCid h1g2 with ⟨nt2, hget2, hres2⟩
      rcases resolve_via_tmap uuid hinj NTd 0 hnamesNT Tf.name pkInfo hpk2
          cf.name pkCid h2g2 with ⟨ntf, hgetf, hresf⟩
      rw [hgetNT Tt ht] at hget2
      obtain rfl := Option.some_inj.1 hget2
      have hTfmem : Tf ∈ tables := List.mem_of_find?_eq_some hTf
      rw [hgetNT Tf hTfmem] at hgetf
      obtain rfl := Option.some_inj.1 hgetf
      have hsig2 : relSig (denormTablesSpec uuid 0 NTd) r2 =
          some ((Tf.name, cf.name), (Tt.name, ct.name)) := by
        subst hr2
        simp only [relSig, hresf, hres2, ntOf]
      rw [hsig2] at hr2sig
      obtain rfl := Option.some_inj.1 hr2sig
      exact List.mem_filterMap.2 ⟨r, hrmem, horig⟩
  · intro hq
    rcases List.mem_filterMap.1 hq with ⟨r, hrmem, hrsig⟩
    unfold relSig at hrsig
    split at hrsig
    next a b hra hrb =>
      obtain rfl : (a, b) = q := Option.some_inj.1 hrsig
      rcases resolveEndpoint_some_elim hra with ⟨Tf, cf, hTf, hcf, hpa⟩
      rcases resolveEndpoint_some_elim hrb with ⟨Tt, ct, hTt, hct, hpb⟩
      subst hpa
      subst hpb
      have hTfmem := List.mem_of_find?_eq_some hTf
      have hcfmem := List.mem_of_find?_eq_some hcf
      have hTtmem := List.mem_of_find?_eq_some hTt
      have hctmem := List.mem_of_find?_eq_some hct
      have hTtid : Tt.id = r.toTableId := by simpa using List.find?_some hTt
      have hctid : ct.id = r.toColumnId := by simpa using List.find?_some hct
      have hrfk := relFK_of_resolved tables relations
        ⟨hnames, hnempty, hcolnames, hids, hflat, htargets⟩ r Tf cf Tt ct
        hTf hcf hTt hct
      have hlast : lastFKFor (SchemaNormalizer.buildTableNameMap tables)
          (SchemaNormalizer.buildColumnNameMap tables) relations
          (SchemaNormalizer.colKey Tt.id ct.id) =
          some ⟨Tf.name, cf.name⟩ := by
        rw [hTtid, hctid]
        rw [lastFKFor_eq_self _ _ relations htargets r hrmem (by simp [hrfk])]
        exact hrfk
      have hnc : (SchemaNormalizer.normalizeColumn fkm Tt.id ct).foreignKey =
          some ⟨Tf.name, cf.name⟩ := by
        rw [hfkcol Tt ct]
        exact hlast
      rcases tmapSpec_getk_of_getk uuid NTd 0 Tt.name (ntOf fkm Tt)
          (hgetNT Tt hTtmem) with ⟨mT, _, hfkInfo⟩
      rcases tmapSpec_getk_of_getk uuid NTd 0 Tf.name (ntOf fkm Tf)
          (hgetNT Tf hTfmem) with ⟨mF, _, hpkInfo⟩
      rcases cmapSpec_getk_of_getk uuid (ntOf fkm Tt).columns (mT + 1) ct.name _
          (hgetCol Tt hTtmem ct hctmem) with ⟨j, _, hjc⟩
      rcases cmapSpec_getk_of_getk uuid (ntOf fkm Tf).columns (mF + 1) cf.name _
          (hgetCol Tf hTfmem cf hcfmem) with ⟨j2, _, hj2⟩
      have hcolrel := @colRel_eq_some (denormTmapSpec uuid 0 NTd)
        ⟨uuid mT, denormCmapSpec uuid (mT + 1) (ntOf fkm Tt).columns⟩
        (ct.name, SchemaNormalizer.normalizeColumn fkm Tt.id ct)
        ⟨Tf.name, cf.name⟩
        ⟨uuid mF, denormCmapSpec uuid (mF + 1) (ntOf fkm Tf).columns⟩
        (uuid j) (uuid j2)
        hnc hpkInfo
        (by simp only [hjc]
            exact truthyStr_some_of_ne (hune j))
        (by simp only [hj2]
            exact truthyStr_some_of_ne (hune j2))
      rcases resolve_via_tmap uuid hinj NTd 0 hnamesNT Tf.name
          ⟨uuid mF, denormCmapSpec uuid (mF + 1) (ntOf fkm Tf).columns⟩ hpkInfo
          cf.name (uuid j2) hj2 with ⟨ntf, hgetf, hresf⟩
      rw [hgetNT Tf hTfmem] at hgetf
      obtain rfl := Option.some_inj.1 hgetf
      rcases resolve_via_tmap uuid hinj NTd 0 hnamesNT Tt.name
          ⟨uuid mT, denormCmapSpec uuid (mT + 1) (ntOf fkm Tt).columns⟩ hfkInfo
          ct.name (uuid j) hjc with ⟨ntt, hgett, hrest⟩
      rw [hgetNT Tt hTtmem] at hgett
      obtain rfl := Option.some_inj.1 hgett
      refine List.mem_filterMap.2
        ⟨Relation.mk "" (uuid mF) (uuid j2) (uuid mT) (uuid j), ?_, ?_⟩
      · refine List.mem_flatMap.2 ⟨(Tt.name, ntOf fkm Tt), ?_, ?_⟩
        · rw [hNT]
          exact List.mem_map.2 ⟨Tt, hTtmem, rfl⟩
        · unfold tableRels
          simp only [hfkInfo]
          refine List.mem_filterMap.2
            ⟨(ct.name, SchemaNormalizer.normalizeColumn fkm Tt.id ct), ?_, hcolrel⟩
          simp only [ntOf]
          exact List.mem_map.2 ⟨ct, hctmem, rfl⟩
      · show relSig (denormTablesSpec uuid 0 NTd) _ =
          some ((Tf.name, cf.name), (Tt.name, ct.name))
        simp only [relSig, hresf, hrest, ntOf]
    next => exact absurd hrsig (by simp)

theorem relSigs_denorm (uuid : Nat → String) (NTd : StrMap NormalizedTable) (n0 : Nat) :
    relSigs (denormTablesSpec uuid 0 NTd)
      ((SchemaDenormalizer.denormRelLoop uuid (denormTmapSpec uuid 0 NTd)
        NTd [] n0).1) =
      (NTd.flatMap (tableRels (denormTmapSpec uuid 0 NTd))).filterMap
        (relSig (denormTablesSpec uuid 0 NTd)) := by
  unfold relSigs
  have he : relSig (denormTablesSpec uuid 0 NTd) ∘ eraseId =
      relSig (denormTablesSpec uuid 0 NTd) :=
    funext (fun r => relSig_eraseId _ r)
  have hmm : ((SchemaDenormalizer.denormRelLoop uuid (denormTmapSpec uuid 0 NTd)
      NTd [] n0).1.map eraseId).filterMap (relSig (denormTablesSpec uuid 0 NTd)) =
      (SchemaDenormalizer.denormRelLoop uuid (denormTmapSpec uuid 0 NTd)
        NTd [] n0).1.filterMap (relSig (denormTablesSpec uuid 0 NTd)) := by
    rw [List.filterMap_map, he]
  rw [← hmm, denormRelLoop_eraseId]
  simp

theorem uuidW_inj : ∀ a b, uuidW a = uuidW b → a = b := by
  intro a b h
  have h3 : List.replicate (a + 1) 'u' = List.replicate (b + 1) 'u' :=
    congrArg String.data h
  have h2 := congrArg List.length h3
  simp only [List.length_replicate] at h2
  omega

theorem uuidW_ne : ∀ n, uuidW n ≠ "" := by
  intro n h
  have h3 : List.replicate (n + 1) 'u' = [] := congrArg String.data h
  simp at h3

/-- C1 (amended): for every editor graph whose table names are distinct
and non-empty, whose per-table column names are distinct, whose table
ids and tableId::columnId lookup keys are distinct, and in which no two
relations target the same column (`WFGraph`), with no orphaned
relations, denormalizing the normalized schema through any injective
supply of non-empty fresh identifiers reproduces the graph up to
identifier renaming: the id-free table signatures are equal, and
exactly the same name-level relation endpoint pairs are present.  The
original statement without the one-relation-per-target-column condition
is refuted by `claim_C1_counterexample`: the normalizer keeps only the
last foreign key written for a target column, so one of two relations
sharing a target is silently dropped by the round trip. -/
theorem claim_C1 (uuid : Nat → String)
    (hinj : ∀ a b, uuid a = uuid b → a = b)
    (hune : ∀ n, uuid n ≠ "")
    (tables : List Table) (relations : List Relation)
    (hwf : WFGraph tables relations) (hno : NoOrphans tables relations) :
    graphSig (SchemaDenormalizer.denormalizeSchema uuid
      (SchemaNormalizer.normalizeSchema tables relations none)).tables =
      graphSig tables ∧
    ∀ q, q ∈ relSigs
        (SchemaDenormalizer.denormalizeSchema uuid
          (SchemaNormalizer.normalizeSchema tables relations none)).tables
        (SchemaDenormalizer.denormalizeSchema uuid
          (SchemaNormalizer.normalizeSchema tables relations none)).relations ↔
      q ∈ relSigs tables relations := by
  obtain ⟨hnames, hnempty, hcolnames, hids, hflat, htargets⟩ := hwf
  have hNT := normalize_tables_ntOf tables relations hnames hcolnames
  have hkeys : ((SchemaNormalizer.normalizeSchema tables relations none).tables.map
      Prod.fst).Nodup := by
    rw [hNT]
    simpa [List.map_map, Function.comp] using hnames
  have hcols : ∀ e ∈ (SchemaNormalizer.normalizeSchema tables relations none).tables,
      (e.2.columns.map Prod.fst).Nodup := by
    rw [hNT]
    intro e he
    rcases List.mem_map.1 he with ⟨t, ht, rfl⟩
    simp only [ntOf]
    simpa [List.map_map, Function.comp] using hcolnames t ht
  have hdg := denormalizeSchema_eq uuid
    (SchemaNormalizer.normalizeSchema tables relations none) hkeys hcols
    (normalizeSchema_positions tables relations)
  have hdgt : (SchemaDenormalizer.denormalizeSchema uuid
      (SchemaNormalizer.normalizeSchema tables relations none)).tables =
      denormTablesSpec uuid 0
        (SchemaNormalizer.normalizeSchema tables relations none).tables := by
    rw [hdg]
  have hdgr : (SchemaDenormalizer.denormalizeSchema uuid
      (SchemaNormalizer.normalizeSchema tables relations none)).relations =
      (SchemaDenormalizer.denormRelLoop uuid
        (denormTmapSpec uuid 0
          (SchemaNormalizer.normalizeSchema tables relations none).tables)
        (SchemaNormalizer.normalizeSchema tables relations none).tables []
        (denormCountSpec 0
          (SchemaNormalizer.normalizeSchema tables relations none).tables)).1 := by
    rw [hdg]
  rw [hdgt, hdgr, hNT]
  set fkmv := SchemaNormalizer.buildForeignKeyMap
    (SchemaNormalizer.buildTableNameMap tables)
    (SchemaNormalizer.buildColumnNameMap tables) relations with hfv
  set Mexpr := tables.map (fun t => (t.name, ntOf fkmv t)) with hM
  constructor
  · rw [hM]
    exact roundtrip_tables uuid tables fkmv
  · intro q
    rw [relSigs_denorm uuid Mexpr (denormCountSpec 0 Mexpr)]
    exact roundtrip_rels uuid hinj hune tables relations
      ⟨hnames, hnempty, hcolnames, hids, hflat, htargets⟩ hno
      fkmv hfv Mexpr hM q

theorem claim_C1_witness :
    WFGraph rtTables rtRels ∧ NoOrphans rtTables rtRels ∧
    (graphSig (SchemaDenormalizer.denormalizeSchema uuidW
        (SchemaNormalizer.normalizeSchema rtTables rtRels none)).tables =
      graphSig rtTables ∧
    ∀ q, q ∈ relSigs
        (SchemaDenormalizer.denormalizeSchema uuidW
          (SchemaNormalizer.normalizeSchema rtTables rtRels none)).tables
        (SchemaDenormalizer.denormalizeSchema uuidW
          (SchemaNormalizer.normalizeSchema rtTables rtRels none)).relations ↔
      q ∈ relSigs rtTables rtRels) :=
  ⟨by decide, by decide,
    claim_C1 uuidW uuidW_inj uuidW_ne rtTables rtRels (by decide) (by decide)⟩

/-- Counterexample to the original C1 statement: the three-table graph
`cexTables` with the two relations `cexRels` (both targeting `c.z`) has
no orphaned relations, the pair a.x → c.z is among its name-level
relation signatures, yet it is absent from the round-tripped graph,
because the normalizer keeps only the last foreign key written for the
shared target key `tC::cz`. -/
theorem claim_C1_counterexample :
    (∀ a b, uuidW a = uuidW b → a = b) ∧ (∀ n, uuidW n ≠ "") ∧
    NoOrphans cexTables cexRels ∧
    ((("a", "x"), ("c", "z")) ∈ relSigs cexTables cexRels) ∧
    ((("a", "x"), ("c", "z")) ∉ relSigs
      (SchemaDenormalizer.denormalizeSchema uuidW
        (SchemaNormalizer.normalizeSchema cexTables cexRels none)).tables
      (SchemaDenormalizer.denormalizeSchema uuidW
        (SchemaNormalizer.normalizeSchema cexTables cexRels none)).relations) :=
  ⟨uuidW_inj, uuidW_ne, by decide, by decide, by decide⟩
